import Mathlib

/-!
# allhic: clustering and confidence-graph core

A shallow embedding of `cluster.go`, of `graph.go` and of `uintLog2` of
`distribution.go` of allhic, and the properties of the specification settled
against it.

Conventions of the embedding

* A Go `float64` is a value of `F64`: an exact rational, or one of the three
  special values of IEEE arithmetic (`+Inf`, `-Inf`, `NaN`).  Rounding and the
  sign of zero are not modelled; division by zero, which the code performs, is.
* A Go `map` is an association list with pairwise distinct keys.  The order of
  the list stands for the order in which `range` enumerates the map, which Go
  leaves unspecified: statements are proved for every order.
* A `*Node` is a natural number (a handle); `a.path.length` is read through a
  function `plen` from handles to Go `int`s, and `a.sister` through a function
  `sister` from handles to handles.
* A Go `uint` is a `Nat` below `2 ^ 64`.
* A Go `int`/`int64` is an `Int` (or a `Nat` where the code only ever produces
  non-negative values, as for loop indices).  The sums of contig lengths of
  `sortClusters` wrap around at 64 bits (`wrapInt`); overflow of the 64-bit
  sums of link counts is not modelled.
* A Go run-time panic (index or slice bound out of range) is the result `none`.
* The contact matrix `r.matrix` is a function `G i j`, read at `i, j < N` only.
  The package constants `MinAvgLinkage` and `NonInformativeRatio`, which are
  declared in another file of the package, are parameters.
-/

namespace Allhic

/-! ## Definitions -/

/-! ### float64 -/

/-- A Go `float64`, arithmetic taken as exact: a rational number or one of the
IEEE special values. -/
inductive F64 where
  | nan : F64
  | negInf : F64
  | fin (q : ℚ) : F64
  | posInf : F64
  deriving DecidableEq

namespace F64

/-- The conversion `float64(n)` of a Go integer. -/
def ofInt (n : Int) : F64 := fin n

/-- The constant `math.MaxFloat64`, the largest finite `float64`:
`2^1023 * (2 - 2^-52)`. -/
def MaxFloat64 : F64 := fin ((2 ^ 53 - 1) * 2 ^ 971)

/-- The test `math.IsNaN`. -/
def isNaN : F64 → Bool
  | nan => true
  | _ => false

/-- Go's `x < y` on `float64`: false as soon as one side is `NaN`. -/
def lt : F64 → F64 → Bool
  | nan, _ => false
  | _, nan => false
  | negInf, negInf => false
  | negInf, _ => true
  | fin _, negInf => false
  | fin x, fin y => decide (x < y)
  | fin _, posInf => true
  | posInf, _ => false

/-- Go's `x == y` on `float64`: `NaN` differs from everything, itself
included. -/
def eq : F64 → F64 → Bool
  | negInf, negInf => true
  | fin x, fin y => decide (x = y)
  | posInf, posInf => true
  | _, _ => false

/-- Go's `x <= y` on `float64`. -/
def le (x y : F64) : Bool := lt x y || eq x y

/-- Go's `x > y` on `float64`. -/
def gt (x y : F64) : Bool := lt y x

/-- Go's `x * y` on `float64`. -/
def mul : F64 → F64 → F64
  | nan, _ => nan
  | _, nan => nan
  | fin x, fin y => fin (x * y)
  | fin x, posInf => if 0 < x then posInf else if x < 0 then negInf else nan
  | fin x, negInf => if 0 < x then negInf else if x < 0 then posInf else nan
  | posInf, fin y => if 0 < y then posInf else if y < 0 then negInf else nan
  | negInf, fin y => if 0 < y then negInf else if y < 0 then posInf else nan
  | posInf, posInf => posInf
  | negInf, negInf => posInf
  | posInf, negInf => negInf
  | negInf, posInf => negInf

/-- Go's `x / y` on `float64`.  A finite non-zero value divided by zero is an
infinity of the sign of the dividend, and `0 / 0` is `NaN`. -/
def div : F64 → F64 → F64
  | nan, _ => nan
  | _, nan => nan
  | fin x, fin y =>
      if y = 0 then (if 0 < x then posInf else if x < 0 then negInf else nan)
      else fin (x / y)
  | fin _, posInf => fin 0
  | fin _, negInf => fin 0
  | posInf, fin y => if y < 0 then negInf else posInf
  | negInf, fin y => if y < 0 then posInf else negInf
  | posInf, posInf => nan
  | posInf, negInf => nan
  | negInf, posInf => nan
  | negInf, negInf => nan

/-- The order used by `sort.Float64s`: `x < y || (isNaN(x) && !isNaN(y))`. -/
def sortLess (x y : F64) : Bool := lt x y || (isNaN x && !isNaN y)

/-- In the order of `sort.Float64s`, `x` may stand before `y`. -/
def sortLE (x y : F64) : Prop := sortLess y x = false

instance : DecidableRel sortLE := fun x y => inferInstanceAs (Decidable (sortLess y x = false))

end F64

/-- The call `sort.Float64s(A)`: the elements of `A` in increasing order, `NaN`
first. -/
def sortFloat64s (A : List F64) : List F64 := List.insertionSort F64.sortLE A

/-! ### graph.go -/

/-- A `*Node`, as a handle. -/
abbrev Node := Nat

/-- The type `Graph`: `map[*Node]map[*Node]float64`. -/
abbrev Graph := List (Node × List (Node × F64))

/-- The struct `Edge` of graph.go. -/
structure Edge where
  a : Node
  b : Node
  weight : F64
  deriving DecidableEq

/-- The function `getSecondLargest` of graph.go: `a` and `b` are appended, the
result is sorted, and `A[3]`, `A[2]`, `A[1]` are read.  Fewer than four elements
make the index expression `A[3]` panic. -/
def getSecondLargest (a b : List F64) : Option F64 :=
  match sortFloat64s (a ++ b) with
  | _ :: a1 :: a2 :: a3 :: _ =>
      some (if F64.eq a3 a2 && F64.gt a1 (F64.fin 0) then a1 else a2)
  | _ => none

/-- The loop of `breakCycle`, from index `i` on, with the current values of
`minI` and `minWeight`. -/
def breakCycleScan : List Edge → Nat → Nat × F64 → Nat × F64
  | [], _, acc => acc
  | edge :: rest, i, (minI, minWeight) =>
      if F64.gt edge.weight (F64.fin 1) && F64.lt edge.weight minWeight then
        breakCycleScan rest (i + 1) (i, edge.weight)
      else
        breakCycleScan rest (i + 1) (minI, minWeight)

/-- The function `breakCycle` of graph.go.  The slice expression
`path[minI+1:]` panics on an empty path. -/
def breakCycle (path : List Edge) : Option (List Edge) :=
  let minI := (breakCycleScan path 0 (0, F64.MaxFloat64)).1
  if minI + 1 ≤ path.length then
    some (path.drop (minI + 1) ++ path.take minI)
  else
    none

/-- A loop whose body may panic: the results of `f` on the elements of the
list, or `none` as soon as one call panics. -/
def traverseOpt {α β : Type} (f : α → Option β) : List α → Option (List β)
  | [] => some []
  | x :: xs =>
      match f x with
      | none => none
      | some y =>
          match traverseOpt f xs with
          | none => none
          | some ys => some (y :: ys)

/-- The body of the inner loop of the first pass of `makeConfidenceGraph`, on
the pair `(first, second)`. -/
def twoLargestStep (p : F64 × F64) (score : F64) : F64 × F64 :=
  if F64.gt score p.1 then (score, p.1)
  else if F64.le score p.1 && F64.gt score p.2 then (p.1, score)
  else p

/-- The statement `score /= float64(a.path.length) * float64(b.path.length)`:
the link density of the edge `(a, b)` of raw weight `score`. -/
def linkDensity (plen : Node → Int) (a b : Node) (score : F64) : F64 :=
  F64.div score (F64.mul (F64.ofInt (plen a)) (F64.ofInt (plen b)))

/-- The graph `G` after the first pass of `makeConfidenceGraph`: `G[a][b]` has
been overwritten by the density of `(a, b)`. -/
def densityGraph (plen : Node → Int) (G : Graph) : Graph :=
  G.map (fun anb => (anb.1, anb.2.map (fun bs => (bs.1, linkDensity plen anb.1 bs.1 bs.2))))

/-- The inner loop of the first pass of `makeConfidenceGraph` on the densities
of one row: the pair `(first, second)`, both `0.0` at the start. -/
def twoLargestOf (ds : List F64) : F64 × F64 :=
  ds.foldl twoLargestStep (F64.fin 0, F64.fin 0)

/-- The map `twoLargest` after the first pass of `makeConfidenceGraph`: for
every key `a` of `G` the 2-item slice `[first, second]`. -/
def twoLargestMap (plen : Node → Int) (G : Graph) : List (Node × List F64) :=
  G.map (fun anb =>
    (anb.1, [(twoLargestOf (anb.2.map (fun bs => linkDensity plen anb.1 bs.1 bs.2))).1,
             (twoLargestOf (anb.2.map (fun bs => linkDensity plen anb.1 bs.1 bs.2))).2]))

/-- The index expression `twoLargest[a]`: the `nil` slice for a missing key. -/
def twoLargestAt (tl : List (Node × List F64)) (a : Node) : List F64 :=
  (tl.lookup a).getD []

/-- The inner loop of the second pass of `makeConfidenceGraph` at the key `a`:
every `G[a][b]` is divided by `getSecondLargest(twoLargest[a], twoLargest[b])`. -/
def confidenceRow (tl : List (Node × List F64)) (a : Node) (nb : List (Node × F64)) :
    Option (List (Node × F64)) :=
  traverseOpt (fun bd =>
    (getSecondLargest (twoLargestAt tl a) (twoLargestAt tl bd.1)).map
      (fun secondLargest => (bd.1, F64.div bd.2 secondLargest))) nb

/-- The entries of a row that pass the test `G[a][b] > 1`. -/
def retained (row : List (Node × F64)) : List (Node × F64) :=
  row.filter (fun bc => F64.gt bc.2 (F64.fin 1))

/-- The function `makeConfidenceGraph` of graph.go.  A key `a` enters
`confidenceGraph` with its first retained edge. -/
def makeConfidenceGraph (plen : Node → Int) (G : Graph) : Option Graph :=
  let tl := twoLargestMap plen G
  (traverseOpt (fun anb => (confidenceRow tl anb.1 anb.2).map (fun row => (anb.1, row)))
      (densityGraph plen G)).map
    (fun rows => rows.filterMap (fun arow =>
      if retained arow.2 = [] then none else some (arow.1, retained arow.2)))

/-- The index expression `G[a][b]` of a graph, `none` for a missing edge. -/
def edgeWeight (G : Graph) (a b : Node) : Option F64 :=
  (G.lookup a).bind (fun nb => nb.lookup b)

/-- The value of `G[a][b]` after the first pass of `makeConfidenceGraph`, read
off the code. -/
def codeDensity (plen : Node → Int) (G : Graph) (a b : Node) : Option F64 :=
  (edgeWeight G a b).map (linkDensity plen a b)

/-- The value of `G[a][b]` after the statement `G[a][b] /= secondLargest` of the
second pass of `makeConfidenceGraph`, read off the code. -/
def codeConfidence (plen : Node → Int) (G : Graph) (a b : Node) : Option F64 :=
  (codeDensity plen G a b).bind (fun d =>
    (getSecondLargest (twoLargestAt (twoLargestMap plen G) a)
      (twoLargestAt (twoLargestMap plen G) b)).map (fun s => F64.div d s))

/-- The density of the edge `(a, b)` in the words of the specification:
`weight(a,b) / (a.path.length × b.path.length)`. -/
def density (plen : Node → Int) (G : Graph) (a b : Node) : Option F64 :=
  (edgeWeight G a b).map (fun weight =>
    F64.div weight (F64.mul (F64.ofInt (plen a)) (F64.ofInt (plen b))))

/-- The slice `twoLargest[a]` in the words of the specification: the largest
and the second-largest of the densities
`weight(a,c) / (a.path.length × c.path.length)` of the edges `(a, c)` at `a`,
both `0` at the start of the scan; the nil slice for a node that is no key of
the graph. -/
def twoLargest (plen : Node → Int) (G : Graph) (a : Node) : List F64 :=
  match G.lookup a with
  | none => []
  | some nb =>
      [(twoLargestOf (nb.map (fun cw =>
          F64.div cw.2 (F64.mul (F64.ofInt (plen a)) (F64.ofInt (plen cw.1)))))).1,
       (twoLargestOf (nb.map (fun cw =>
          F64.div cw.2 (F64.mul (F64.ofInt (plen a)) (F64.ofInt (plen cw.1)))))).2]

/-- The recomputed confidence of the edge `(a, b)` in the words of the
specification: `density(a,b) / getSecondLargest(twoLargest[a], twoLargest[b])`. -/
def confidence (plen : Node → Int) (G : Graph) (a b : Node) : Option F64 :=
  (density plen G a b).bind (fun d =>
    (getSecondLargest (twoLargest plen G a) (twoLargest plen G b)).map
      (fun s => F64.div d s))

/-- Path lengths for the examples: the path of node 1 has length 2, every other
path has length 1. -/
def exampleLength : Node → Int := fun a => if a = 1 then 2 else 1

/-- Well-formedness of a Go map of maps held as association lists: the keys are
pairwise distinct, at both levels. -/
def Graph.WF (G : Graph) : Prop :=
  (G.map Prod.fst).Nodup ∧ ∀ anb ∈ G, (anb.2.map Prod.fst).Nodup

/-- Every end node of an edge is itself a key of the graph. -/
def Graph.Closed (G : Graph) : Prop :=
  ∀ anb ∈ G, ∀ bs ∈ anb.2, bs.1 ∈ G.map Prod.fst

/-! ### Notions used in the statements and proofs about the confidence graph -/

/-- The rational value of a finite `float64`, and `0` for a special value. -/
def F64.toRat : F64 → ℚ
  | F64.fin q => q
  | _ => 0

/-- The pair `(f, s)` holds the largest and the second-largest value of the
list `M`, counted with multiplicity: `f` is a maximum of `M`, at most one entry
of `M` is above `s`, and at least two entries are at or above `s`. -/
def TopTwo (f s : ℚ) (M : List ℚ) : Prop :=
  s ≤ f ∧ (∀ x ∈ M, x ≤ f) ∧ f ∈ M ∧
    M.countP (fun x => decide (s < x)) ≤ 1 ∧ 2 ≤ M.countP (fun x => decide (s ≤ x))

/-- A symmetric graph: with every edge `(a, b)` the graph holds the edge
`(b, a)`, of the same weight. -/
def Graph.Symmetric (G : Graph) : Prop :=
  ∀ anb ∈ G, ∀ bs ∈ anb.2, edgeWeight G bs.1 anb.1 = some bs.2

/-- All weights of the graph are positive (and finite). -/
def Graph.PositiveWeights (G : Graph) : Prop :=
  ∀ anb ∈ G, ∀ bs ∈ anb.2, F64.gt bs.2 (F64.fin 0) = true ∧ F64.lt bs.2 F64.posInf = true

/-- Every path has length 1. -/
def unitLength : Node → Int := fun _ => 1

/-- Two nodes joined by one link of weight 1, in both directions. -/
def pairGraph : Graph := [(0, [(1, F64.fin 1)]), (1, [(0, F64.fin 1)])]

/-- Node 0 linked to node 1 with weight 6 and to node 2 with weight 2, in both
directions. -/
def starGraph : Graph :=
  [(0, [(1, F64.fin 6), (2, F64.fin 2)]), (1, [(0, F64.fin 6)]), (2, [(0, F64.fin 2)])]

/-! ### cluster.go -/

/-- The fields of a contig record that the clustering reads. -/
structure Contig where
  length : Int
  skip : Bool
  deriving DecidableEq

/-- The struct `merge` of cluster.go: a candidate merge of the clusters `a` and
`b`. -/
structure merge where
  a : Nat
  b : Nat
  score : F64
  deriving DecidableEq

/-- The type `Clusters`: `map[int][]int`. -/
abbrev Clusters := List (Int × List Nat)

/-- The struct `clusterLen` of cluster.go. -/
structure clusterLen where
  cID : Int
  length : Int
  deriving DecidableEq

/-- The order in which `range` enumerates a map of clusters: some arrangement of
its entries. -/
def IsRangeOrder (rangeOrder : Clusters → Clusters) : Prop :=
  ∀ clusters, (rangeOrder clusters).Perm clusters

/-- The expression `r.contigs[i].skip`, for an index below `len(r.contigs)`. -/
def skipAt (contigs : List Contig) (i : Nat) : Bool :=
  match contigs[i]? with
  | some contig => contig.skip
  | none => false

/-- The variables of `Cluster` that live across the rounds of the merge loop. -/
structure ClusterState where
  clusterID : List Int
  clusterSize : List Int
  clusterExists : List Bool
  nonSingletonClusters : Int
  merges : List merge
  nMerges : Nat
  deriving DecidableEq

/-- The seed candidates of `Cluster` (lines 76 to 89): the pairs `i < j` of
contigs that are not skipped, with `G[i][j] > MinAvgLinkage`. -/
def seedMerges (MinAvgLinkage : Int) (contigs : List Contig) (G : Nat → Nat → Int) :
    List merge :=
  (List.range contigs.length).flatMap (fun i =>
    if skipAt contigs i then []
    else
      ((List.range' (i + 1) (contigs.length - (i + 1))).filter
        (fun j => !skipAt contigs j && decide (G i j > MinAvgLinkage))).map
        (fun j => ⟨i, j, F64.ofInt (G i j)⟩))

/-- The state of `Cluster` on entry of the merge loop (lines 45 to 91). -/
def initState (MinAvgLinkage : Int) (contigs : List Contig) (G : Nat → Nat → Int) :
    ClusterState where
  clusterID := contigs.enum.map (fun ic => if ic.2.skip then -1 else (ic.1 : Int))
  clusterSize := contigs.map (fun c => if c.skip then 0 else 1) ++
    List.replicate contigs.length 0
  clusterExists := contigs.map (fun c => !c.skip) ++ List.replicate contigs.length false
  nonSingletonClusters := 0
  merges := seedMerges MinAvgLinkage contigs G
  nMerges := 0

/-- Step 1 of a round: the candidate of highest score, the first such one on
ties; `first` is `merges[0]`. -/
def findBestMerge (first : merge) (merges : List merge) : merge :=
  merges.foldl (fun bestMerge m => if F64.gt m.score bestMerge.score then m else bestMerge) first

/-- An assignment `xs[i] = v` at an index that may be out of range. -/
def setAt {α : Type} (xs : List α) (i : Nat) (v : α) : Option (List α) :=
  if i < xs.length then some (xs.set i v) else none

/-- The loop that removes the used clusters (lines 133 to 140): the candidates
with `clusterExists[merge.a] && clusterExists[merge.b]`. -/
def keepLive (clusterExists : List Bool) : List merge → Option (List merge)
  | [] => some []
  | m :: rest =>
      match clusterExists[m.a]? with
      | none => none
      | some false => keepLive clusterExists rest
      | some true =>
          match clusterExists[m.b]? with
          | none => none
          | some false => keepLive clusterExists rest
          | some true => (keepLive clusterExists rest).map (fun kept => m :: kept)

/-- The statement `totalLinkageByCluster[cID] += x`. -/
def addAt (total : List Int) (cID : Int) (x : Int) : Option (List Int) :=
  if 0 ≤ cID ∧ cID.toNat < total.length then
    some (total.set cID.toNat (total.getD cID.toNat 0 + x))
  else none

/-- The inner loop of lines 152 to 154, for the contig `i` of cluster `cID`. -/
def addLinkages (G : Nat → Nat → Int) (i : Nat) (cID : Int) :
    List Nat → List Int → Option (List Int)
  | [], total => some total
  | j :: newCluster, total =>
      match addAt total cID (G i j) with
      | none => none
      | some total' => addLinkages G i cID newCluster total'

/-- The loop of lines 144 to 155 over the contigs `i` with their cluster ids. -/
def totalLinkageLoop (G : Nat → Nat → Int) (newClusterID : Nat) (newCluster : List Nat) :
    List (Nat × Int) → List Int → Option (List Int)
  | [], total => some total
  | (i, cID) :: rest, total =>
      if cID = newClusterID then totalLinkageLoop G newClusterID newCluster rest total
      else if cID = -1 then totalLinkageLoop G newClusterID newCluster rest total
      else
        match addLinkages G i cID newCluster total with
        | none => none
        | some total' => totalLinkageLoop G newClusterID newCluster rest total'

/-- The loop of lines 157 to 179: the candidates that pair a cluster with the
new cluster. -/
def newCandidates (MinAvgLinkage : Int) (N newClusterID : Nat) (clusterSize : List Int)
    (totalLinkageByCluster : List Int) : List merge :=
  (List.range (2 * N)).filterMap (fun i =>
    if totalLinkageByCluster.getD i 0 ≤ 0 then none
    else
      let avgLinkage := F64.div
        (F64.div (F64.ofInt (totalLinkageByCluster.getD i 0)) (F64.ofInt (clusterSize.getD i 0)))
        (F64.ofInt (clusterSize.getD newClusterID 0))
      if F64.lt avgLinkage (F64.ofInt MinAvgLinkage) then none
      else some ⟨min i newClusterID, max i newClusterID, avgLinkage⟩)

/-- One round of the merge loop of `Cluster` on a non-empty candidate list whose
first element is `first` (lines 98 to 192).  The Boolean tells whether the
round ended on the `break` of line 186, in which case `merges` has not been
assigned. -/
def mergeStep (MinAvgLinkage : Int) (N : Nat) (G : Nat → Nat → Int) (K : Int)
    (st : ClusterState) (first : merge) : Option (ClusterState × Bool) :=
  let bestMerge := findBestMerge first st.merges
  let newClusterID := N + st.nMerges
  (setAt st.clusterExists bestMerge.a false).bind fun e1 =>
  (setAt e1 bestMerge.b false).bind fun e2 =>
  (setAt e2 newClusterID true).bind fun clusterExists =>
  (st.clusterSize[bestMerge.a]?).bind fun sizeA =>
  (st.clusterSize[bestMerge.b]?).bind fun sizeB =>
  (setAt st.clusterSize newClusterID (sizeA + sizeB)).bind fun clusterSize =>
  let nonSingletonClusters := st.nonSingletonClusters
    + (if bestMerge.a < N then 1 else 0) + (if bestMerge.b < N then 1 else 0) - 1
  let merged : Int → Bool := fun c => decide (c = bestMerge.a) || decide (c = bestMerge.b)
  let clusterID := st.clusterID.map (fun c => if merged c then (newClusterID : Int) else c)
  let newCluster := (st.clusterID.enum.filter (fun ic => merged ic.2)).map Prod.fst
  let nMerges := st.nMerges + 1
  (keepLive clusterExists st.merges).bind fun kept =>
  (totalLinkageLoop G newClusterID newCluster clusterID.enum
      (List.replicate (2 * N) 0)).bind fun totalLinkageByCluster =>
  let newMerges := kept ++
    newCandidates MinAvgLinkage N newClusterID clusterSize totalLinkageByCluster
  let done : Bool := decide (nMerges > N / 2) && decide (nonSingletonClusters = K)
  some (⟨clusterID, clusterSize, clusterExists, nonSingletonClusters,
    if done then st.merges else newMerges, nMerges⟩, done)

/-- The merge loop of `Cluster` (lines 93 to 193), run for at most `fuel`
rounds; `none` if a round panics or the rounds are used up. -/
def clusterLoop (MinAvgLinkage : Int) (N : Nat) (G : Nat → Nat → Int) (K : Int) :
    Nat → ClusterState → Option ClusterState
  | 0, _ => none
  | fuel + 1, st =>
      match st.merges with
      | [] => some st
      | first :: _ =>
          match mergeStep MinAvgLinkage N G K st first with
          | none => none
          | some (st', done) =>
              if done then some st' else clusterLoop MinAvgLinkage N G K fuel st'

/-- The array `clusterID` that `Cluster` passes to `setClusters`.  The merge
loop gets `N + 1` rounds, which is enough for every input
(`finalClusterID_defined`). -/
def finalClusterID (MinAvgLinkage : Int) (contigs : List Contig) (G : Nat → Nat → Int)
    (K : Int) : Option (List Int) :=
  (clusterLoop MinAvgLinkage contigs.length G K (contigs.length + 1)
    (initState MinAvgLinkage contigs G)).map (fun st => st.clusterID)

/-- The statement `clusters[cID] = append(clusters[cID], i)`. -/
def appendMember : Clusters → Int → Nat → Clusters
  | [], cID, i => [(cID, [i])]
  | (k, members) :: rest, cID, i =>
      if k = cID then (k, members ++ [i]) :: rest
      else (k, members) :: appendMember rest cID i

/-- The first loop of `setClusters` (lines 204 to 209), from index `i` on. -/
def setClustersLoop : List Int → Nat → Clusters → Clusters
  | [], _, clusters => clusters
  | cID :: rest, i, clusters =>
      if (i : Int) = cID then setClustersLoop rest (i + 1) clusters
      else setClustersLoop rest (i + 1) (appendMember clusters cID i)

/-- The value that a Go `int` (64 bits, two's complement) holds after an
arithmetic operation whose exact result is `x`: the result wraps around. -/
def wrapInt (x : Int) : Int := (x + 2 ^ 63) % 2 ^ 64 - 2 ^ 63

/-- The inner loop of `sortClusters`: the field `c.length` after the statements
`c.length += r.contigs[ci].length` for the members `ci` of a cluster, each
addition in the 64-bit type `int`. -/
def clusterLength (contigs : List Contig) (cl : List Nat) : Option Int :=
  (traverseOpt (fun ci => (contigs[ci]?).map (fun contig => contig.length)) cl).map
    (fun lens => lens.foldl (fun total len => wrapInt (total + len)) 0)

/-- The total member length of a cluster in the words of the specification: the
sum of the lengths of its member contigs. -/
def totalLength (contigs : List Contig) (cl : List Nat) : Int :=
  (cl.map (fun ci => ((contigs[ci]?).map (fun contig => contig.length)).getD 0)).sum

/-- The comparison handed to `sort.Slice`, as an order: `x` may stand before `y`
when `y.length > x.length` is false. -/
def clusterLen.before (x y : clusterLen) : Prop := y.length ≤ x.length

instance : DecidableRel clusterLen.before :=
  fun x y => inferInstanceAs (Decidable (y.length ≤ x.length))

/-- The function `sortClusters` of cluster.go, on the map `clusters`.  The
entries are enumerated in the order `rangeOrder clusters`.  The call
`sort.Slice` is not stable; it is modelled by a stable sort, which over all
enumeration orders yields every arrangement by decreasing length. -/
def sortClusters (rangeOrder : Clusters → Clusters) (contigs : List Contig)
    (clusters : Clusters) : Option Clusters :=
  (traverseOpt (fun c => (clusterLength contigs c.2).map
      (fun len => (⟨c.1, len⟩ : clusterLen))) (rangeOrder clusters)).map
    (fun clusterLens =>
      (List.insertionSort clusterLen.before clusterLens).enum.map
        (fun icl => ((icl.1 : Int), (clusters.lookup icl.2.cID).getD [])))

/-- The function `setClusters` of cluster.go.  The loop over the skipped
contigs (lines 225 to 229) has an empty body, so both branches end on the same
call of `sortClusters`. -/
def setClusters (rangeOrder : Clusters → Clusters) (NonInformativeRatio : ℚ)
    (contigs : List Contig) (clusterID : List Int) : Option Clusters :=
  let clusters := setClustersLoop clusterID 0 []
  if NonInformativeRatio = 0 then sortClusters rangeOrder contigs clusters
  else sortClusters rangeOrder contigs clusters

/-- The function `Cluster` of cluster.go: the value of `r.clusters` on return.
`MinAvgLinkage` and `NonInformativeRatio` are constants of the package, `G` is
the matrix `r.matrix`, `K` is `r.K`. -/
def Cluster (rangeOrder : Clusters → Clusters) (NonInformativeRatio : ℚ)
    (MinAvgLinkage : Int) (contigs : List Contig) (G : Nat → Nat → Int) (K : Int) :
    Option Clusters :=
  (finalClusterID MinAvgLinkage contigs G K).bind
    (setClusters rangeOrder NonInformativeRatio contigs)

/-- The number of times the contig `i` occurs in the member lists of a map of
clusters. -/
def occurrences (i : Nat) (clusters : Clusters) : Nat :=
  (clusters.map (fun c => c.2.count i)).sum

/-- The matrix of Example A: 50 links between contigs 0 and 1, 40 between
contigs 2 and 3. -/
def exampleA : Nat → Nat → Int := fun i j =>
  if (i = 0 ∧ j = 1) ∨ (i = 1 ∧ j = 0) then 50
  else if (i = 2 ∧ j = 3) ∨ (i = 3 ∧ j = 2) then 40
  else 0

/-- The invariant of the arrays of `Cluster`, which holds on entry of the merge
loop and after every round, the last one included.  `N` is the number of
contigs. -/
structure ClusterInv (contigs : List Contig) (st : ClusterState) : Prop where
  lenID : st.clusterID.length = contigs.length
  lenSize : st.clusterSize.length = 2 * contigs.length
  lenExists : st.clusterExists.length = 2 * contigs.length
  bound : st.nMerges + st.clusterExists.count true ≤ contigs.length
  fresh : ∀ k : Nat, st.clusterExists[k]? = some true → k < contigs.length + st.nMerges
  ids : ∀ (i : Nat) (c : Int), st.clusterID[i]? = some c →
    c = -1 ∨ (0 ≤ c ∧ st.clusterExists[c.toNat]? = some true)
  skipped : ∀ (i : Nat) (c : Int), st.clusterID[i]? = some c →
    (c = -1 ↔ skipAt contigs i = true)
  own : ∀ (i : Nat) (c : Int), st.clusterID[i]? = some c →
    c = -1 ∨ c = (i : Int) ∨ (contigs.length : Int) ≤ c

/-- The invariant of the candidate list at the start of a round: every
candidate pairs two distinct clusters that are flagged existent. -/
def CandInv (st : ClusterState) : Prop :=
  ∀ m ∈ st.merges, m.a < m.b ∧ st.clusterExists[m.a]? = some true ∧
    st.clusterExists[m.b]? = some true

/-- Contigs of length 100 that are not skipped, `n` of them. -/
def plainContigs (n : Nat) : List Contig := List.replicate n ⟨100, false⟩

/-! ### distribution.go -/

/-- The width of the Go type `uint` on a 64-bit platform. -/
def uintBits : Nat := 64

/-- The table `b` of distribution.go. -/
def b : List Nat := [0x2, 0xC, 0xF0, 0xFF00, 0xFFFF0000]

/-- The table `s` of distribution.go. -/
def s : List Nat := [1, 2, 4, 8, 16]

/-- One `if` statement of `uintLog2`, for the table index `k`, on the pair
`(x2, answer)`. -/
def uintLog2Step (k : Nat) (p : Nat × Nat) : Nat × Nat :=
  if p.1 &&& b.getD k 0 ≠ 0 then (p.1 >>> s.getD k 0, p.2 ||| s.getD k 0) else p

/-- The function `uintLog2` of distribution.go, on a `uint` held as a natural
number below `2 ^ uintBits`.  Shifting right and or-ing small constants cannot
overflow. -/
def uintLog2 (x2 : Nat) : Nat :=
  (uintLog2Step 0 (uintLog2Step 1 (uintLog2Step 2 (uintLog2Step 3
    (uintLog2Step 4 (x2, 0)))))).2

/-! ### The rounds of the merge loop -/

/-- The state of `Cluster` at the start of round `n` of the merge loop (round 0
starts on entry of the loop): `none` when the loop has ended before, on an
empty candidate list or on `break`. -/
def roundStart (MinAvgLinkage : Int) (contigs : List Contig) (G : Nat → Nat → Int)
    (K : Int) : Nat → Option ClusterState
  | 0 => some (initState MinAvgLinkage contigs G)
  | n + 1 =>
      match roundStart MinAvgLinkage contigs G K n with
      | none => none
      | some st =>
          match st.merges with
          | [] => none
          | first :: _ =>
              match mergeStep MinAvgLinkage contigs.length G K st first with
              | some (st', false) => some st'
              | _ => none

/-- The state of `Cluster` right after the merge of round `n`, with the flag
that tells whether the round ends on `break`: `none` when there is no such
merge. -/
def afterMerge (MinAvgLinkage : Int) (contigs : List Contig) (G : Nat → Nat → Int)
    (K : Int) (n : Nat) : Option (ClusterState × Bool) :=
  match roundStart MinAvgLinkage contigs G K n with
  | none => none
  | some st =>
      match st.merges with
      | [] => none
      | first :: _ => mergeStep MinAvgLinkage contigs.length G K st first

/-- The contigs `i` with `clusterID[i] = c`, in increasing order. -/
def members (clusterID : List Int) (c : Int) : List Nat :=
  (clusterID.enum.filter (fun ic => decide (ic.2 = c))).map Prod.fst

/-- The total number of links between two clusters: the sum of `G[i][j]` over
the contigs `i` of cluster `a` and `j` of cluster `b`. -/
def linkSum (G : Nat → Nat → Int) (clusterID : List Int) (a b : Int) : Int :=
  ((members clusterID a).map (fun i => ((members clusterID b).map (fun j => G i j)).sum)).sum

/-- The average linkage between two clusters in the words of the
specification: the total number of links between them divided by the product of
their sizes. -/
def averageLinkage (G : Nat → Nat → Int) (clusterID : List Int) (a b : Int) : ℚ :=
  (linkSum G clusterID a b : ℚ) /
    (((members clusterID a).length : ℚ) * ((members clusterID b).length : ℚ))

/-- The invariant of the array `clusterSize` and of the counter
`nonSingletonClusters`. -/
structure SizeInv (contigs : List Contig) (st : ClusterState) : Prop where
  nonneg : ∀ (k : Nat) (v : Int), st.clusterSize[k]? = some v → 0 ≤ v
  size : ∀ k : Nat, st.clusterExists[k]? = some true →
    st.clusterSize[k]? = some ((st.clusterID.count (k : Int) : Nat) : Int)
  single : ∀ k : Nat, st.clusterExists[k]? = some true → k < contigs.length →
    st.clusterSize[k]? = some 1
  composite : ∀ k : Nat, st.clusterExists[k]? = some true → contigs.length ≤ k →
    ∃ v, st.clusterSize[k]? = some v ∧ 2 ≤ v
  counter : st.nonSingletonClusters =
    (((st.clusterExists.drop contigs.length).count true : Nat) : Int)

/-- The invariant of the scores of the candidate list at the start of a round:
every score is the average linkage of its pair of clusters, and no pair occurs
twice. -/
structure ScoreInv (G : Nat → Nat → Int) (st : ClusterState) : Prop where
  scores : ∀ m ∈ st.merges,
    m.score = F64.fin (averageLinkage G st.clusterID (m.a : Int) (m.b : Int))
  pairs : (st.merges.map (fun m => (m.a, m.b))).Nodup

/-- The cluster id of a contig after the merge `bestMerge` into the cluster
`newClusterID` (the loop of lines 122 to 127), given its id `c` before. -/
def mergedID (bestMerge : merge) (newClusterID : Nat) (c : Int) : Int :=
  if (decide (c = (bestMerge.a : Int)) || decide (c = (bestMerge.b : Int))) = true
  then (newClusterID : Int) else c

/-- The slice `newCluster` built by the loop of lines 122 to 127: the contigs of
the two merged clusters. -/
def newClusterOf (bestMerge : merge) (clusterID : List Int) : List Nat :=
  (clusterID.enum.filter (fun ic =>
    decide (ic.2 = (bestMerge.a : Int)) || decide (ic.2 = (bestMerge.b : Int)))).map Prod.fst

/-- The state of Example A at the start of round 1, after the merge of contigs
0 and 1 into cluster 4. -/
def exampleARound1 : ClusterState :=
  ⟨[4, 4, 2, 3], [1, 1, 1, 1, 2, 0, 0, 0],
    [false, false, true, true, true, false, false, false], 1, [⟨2, 3, F64.fin 40⟩], 1⟩

/-- A matrix for eight contigs: 100 links between any two of the contigs 0 to
5, 10 links between contigs 6 and 7, and one link between contigs 0 and 6. -/
def exampleB : Nat → Nat → Int := fun i j =>
  if i ≠ j ∧ i < 6 ∧ j < 6 then 100
  else if (i = 6 ∧ j = 7) ∨ (i = 7 ∧ j = 6) then 10
  else if (i = 0 ∧ j = 6) ∨ (i = 6 ∧ j = 0) then 1
  else 0

/-- The state of Example A after the merge of round 1, of contigs 2 and 3 into
cluster 5. -/
def exampleARound2 : ClusterState :=
  ⟨[4, 4, 5, 5], [1, 1, 1, 1, 2, 2, 0, 0],
    [false, false, false, false, true, true, false, false], 2, [], 2⟩

/-! ### graph.go: the walk `dfs` -/

/-- The function `dfs` of graph.go (lines 156 to 181), run for at most `fuel`
nested calls.  `sister` is the field `a.sister`; the map `visited` is held as
the list of its keys, the latest first; the first entry of an adjacency map is
the one that `range` yields first.  The result is the returned path, the
returned flag, and the map `visited` as the call leaves it.  It is `none` when
the calls are used up, and when the walk dereferences the nil node: after the
`range` over an empty adjacency map `b` is still nil, and the next call reads
`a.sister` of it. -/
def dfsFuel (sister : Node → Node) (G : Graph) :
    Nat → Node → List Edge → List Node → Bool → Option (List Edge × Bool × List Node)
  | 0, _, _, _, _ => none
  | fuel + 1, a, path, visited, visitSister =>
      if a ∈ visited then some (path, true, visited)
      else if visitSister = true then
        dfsFuel sister G fuel (sister a) (path ++ [⟨a, sister a, F64.fin 0⟩]) (a :: visited) false
      else
        match G.lookup a with
        | some [] => none
        | some ((b, weight) :: _) =>
            dfsFuel sister G fuel b (path ++ [⟨a, b, weight⟩]) (a :: visited) true
        | none => some (path, false, a :: visited)

/-- The function `dfs` of graph.go.  The walk gets `2 * len(G) + 2` nested
calls, which is enough for every input (`dfsFuel_defined`). -/
def dfs (sister : Node → Node) (G : Graph) (a : Node) (path : List Edge)
    (visited : List Node) (visitSister : Bool) : Option (List Edge × Bool × List Node) :=
  dfsFuel sister G (2 * G.length + 2) a path visited visitSister

/-- The number of entries of `G` whose key is not in `visited`. -/
def unvisitedKeys (G : Graph) (visited : List Node) : Nat :=
  G.countP (fun anb => decide (anb.1 ∉ visited))

/-- The edges form a walk that starts at the node `a`: the first edge starts at
`a`, and every edge starts where the one before it ends. -/
def IsWalk : Node → List Edge → Prop
  | _, [] => True
  | a, e :: rest => e.a = a ∧ IsWalk e.b rest

/-- The node at which a walk from `a` along the edges arrives. -/
def walkEnd : Node → List Edge → Node
  | a, [] => a
  | _, e :: rest => walkEnd e.b rest

/-- The sister of a node in the examples: the nodes `2k` and `2k + 1` are the
two ends of one path. -/
def exampleSister : Node → Node := fun a => if a % 2 = 0 then a + 1 else a - 1

/-- A confidence graph on the ends of two paths, which links node 1 to node 2
and node 3 to node 0. -/
def exampleRing : Graph := [(1, [(2, F64.fin 3)]), (3, [(0, F64.fin 2)])]

/-- The array `clusterID` after the first `j` iterations of the loop of lines
122 to 127 of a merge. -/
def reassignUpTo (bestMerge : merge) (newClusterID : Nat) (clusterID : List Int) (j : Nat) :
    List Int :=
  (clusterID.take j).map (mergedID bestMerge newClusterID) ++ clusterID.drop j

/-- The arrays `clusterID` and `clusterExists` inside Step 2 of a round, once
the three flags are assigned (lines 109 to 111) and the loop of lines 122 to 127
has done its first `j` iterations. -/
def midMerge (N : Nat) (st : ClusterState) (first : merge) (j : Nat) :
    Option (List Int × List Bool) :=
  let bestMerge := findBestMerge first st.merges
  let newClusterID := N + st.nMerges
  (setAt st.clusterExists bestMerge.a false).bind fun e1 =>
  (setAt e1 bestMerge.b false).bind fun e2 =>
  (setAt e2 newClusterID true).map fun clusterExists =>
    (reassignUpTo bestMerge newClusterID st.clusterID j, clusterExists)

/-- The variable `nNonSkipped` of `Cluster` (lines 49 to 62): `N` minus the
number of contigs with the flag `skip`. -/
def nNonSkipped (contigs : List Contig) : Nat :=
  contigs.length - contigs.countP (fun c => c.skip)

/-- The graph `G'` holds the same map of maps as `G`, enumerated in another
order: as many keys, and under every key the same adjacency map up to the order
of its entries. -/
def Graph.SameMap (G' G : Graph) : Prop :=
  G'.length = G.length ∧
    ∀ a, (List.lookup a G' = none ∧ List.lookup a G = none) ∨
      ∃ nb' nb, List.lookup a G' = some nb' ∧ List.lookup a G = some nb ∧ nb'.Perm nb

/-- Four contigs of lengths 10, 20, 300 and 400, none skipped. -/
def mixedContigs : List Contig := [⟨10, false⟩, ⟨20, false⟩, ⟨300, false⟩, ⟨400, false⟩]

/-- Four contigs of lengths `2^62`, `2^62`, 1 and 1, none skipped. -/
def hugeContigs : List Contig := [⟨2 ^ 62, false⟩, ⟨2 ^ 62, false⟩, ⟨1, false⟩, ⟨1, false⟩]

/-- The function `reversePath` of graph.go: the edges in reverse order, each
with its two ends exchanged. -/
def reversePath (path : List Edge) : List Edge :=
  path.reverse.map (fun e => ⟨e.b, e.a, e.weight⟩)

/-- The loop of `generatePathAndCycle` (graph.go, lines 91 to 106) over the keys
`a` that `range G` still has to yield, with the map `visited` as the list of its
keys: the paths handed to `printPath`, in order.  A walk that `dfs` reports as a
cycle is handed to `breakCycle`; otherwise `a` is deleted from `visited`, the
second walk starts from `a` with a non-sister step, and the reverse of the first
walk is put before it. -/
def generatePathAndCycleLoop (sister : Node → Node) (G : Graph) :
    List Node → List Node → Option (List (List Edge))
  | [], _ => some []
  | a :: keys, visited =>
      if a ∈ visited then generatePathAndCycleLoop sister G keys visited
      else
        match dfs sister G a [] visited true with
        | none => none
        | some (path1, true, visited1) =>
            match breakCycle path1 with
            | none => none
            | some broken =>
                (generatePathAndCycleLoop sister G keys visited1).map (fun rest => broken :: rest)
        | some (path1, false, visited1) =>
            match dfs sister G a [] (visited1.erase a) false with
            | none => none
            | some (path2, _, visited2) =>
                (generatePathAndCycleLoop sister G keys visited2).map
                  (fun rest => (reversePath path1 ++ path2) :: rest)

/-- The function `generatePathAndCycle` of graph.go, as the list of the paths it
hands to `printPath`; `range G` yields the keys in the order of the list `G`. -/
def generatePathAndCycle (sister : Node → Node) (G : Graph) : Option (List (List Edge)) :=
  generatePathAndCycleLoop sister G (G.map Prod.fst) []

/-- A graph on the two ends 0, 1 of one path and the two ends 2, 3 of another:
the nodes 0, 1 and 2 each have one edge, of weight 1, to node 3, and node 3 has
an empty adjacency map. -/
def sinkGraph : Graph :=
  [(0, [(3, F64.fin 1)]), (1, [(3, F64.fin 1)]), (2, [(3, F64.fin 1)]), (3, [])]

/-- The confidence graph of `sinkGraph`: the three edges to node 3, each of
confidence `1 / 0 = +Inf`. -/
def sinkConfidenceGraph : Graph :=
  [(0, [(3, F64.posInf)]), (1, [(3, F64.posInf)]), (2, [(3, F64.posInf)])]

/-- The walk of `dfs` over `sinkConfidenceGraph` from node 0, first step to the
sister: `0 → 1` (sister), `1 → 3` (`+Inf`), `3 → 2` (sister), `2 → 3` (`+Inf`),
where node 3 is met a second time. -/
def sinkCycle : List Edge :=
  [⟨0, 1, F64.fin 0⟩, ⟨1, 3, F64.posInf⟩, ⟨3, 2, F64.fin 0⟩, ⟨2, 3, F64.posInf⟩]

/-! ## Theorems -/

/-! ### The order of `sort.Float64s` -/

theorem F64.sortLE_total (x y : F64) : F64.sortLE x y ∨ F64.sortLE y x := by
  cases x <;> cases y <;> simp [F64.sortLE, F64.sortLess, F64.lt, F64.isNaN]
  exact le_total _ _

theorem F64.sortLE_trans (x y z : F64) (h₁ : F64.sortLE x y) (h₂ : F64.sortLE y z) :
    F64.sortLE x z := by
  cases x <;> cases y <;> cases z <;>
    simp_all [F64.sortLE, F64.sortLess, F64.lt, F64.isNaN]
  exact le_trans h₁ h₂

theorem F64.sortLE_antisymm (x y : F64) (h₁ : F64.sortLE x y) (h₂ : F64.sortLE y x) :
    x = y := by
  cases x <;> cases y <;> simp_all [F64.sortLE, F64.sortLess, F64.lt, F64.isNaN]
  exact le_antisymm h₁ h₂

instance : IsTotal F64 F64.sortLE := ⟨F64.sortLE_total⟩

instance : IsTrans F64 F64.sortLE := ⟨F64.sortLE_trans⟩

instance : IsAntisymm F64 F64.sortLE := ⟨F64.sortLE_antisymm⟩

theorem sortFloat64s_perm (A : List F64) : (sortFloat64s A).Perm A :=
  List.perm_insertionSort _ A

theorem sortFloat64s_sorted (A : List F64) : List.Sorted F64.sortLE (sortFloat64s A) :=
  List.sorted_insertionSort _ A

/-- Sorting does not depend on the order of the input. -/
theorem sortFloat64s_congr {A B : List F64} (h : A.Perm B) :
    sortFloat64s A = sortFloat64s B :=
  List.eq_of_perm_of_sorted
    (((sortFloat64s_perm A).trans h).trans (sortFloat64s_perm B).symm)
    (sortFloat64s_sorted A) (sortFloat64s_sorted B)

/-! ### getSecondLargest -/

/-- C7: for all 2-element vectors `a = [a0, a1]` and `b = [b0, b1]`,
`getSecondLargest(a, b)` returns a value, and it is the value of
`getSecondLargest(b, a)`. -/
theorem getSecondLargest_comm (a0 a1 b0 b1 : F64) :
    getSecondLargest [a0, a1] [b0, b1] = getSecondLargest [b0, b1] [a0, a1] ∧
      (getSecondLargest [a0, a1] [b0, b1]).isSome = true := by
  constructor
  · unfold getSecondLargest
    rw [sortFloat64s_congr (List.perm_append_comm : ([a0, a1] ++ [b0, b1]).Perm _)]
  · have hlen : (sortFloat64s ([a0, a1] ++ [b0, b1])).length = 4 := by
      rw [(sortFloat64s_perm _).length_eq]; rfl
    unfold getSecondLargest
    match h : sortFloat64s ([a0, a1] ++ [b0, b1]), hlen with
    | [x0, x1, x2, x3], _ => simp

theorem sortFloat64s_eq_of_perm_of_sorted {A B : List F64} (h : A.Perm B)
    (hB : List.Sorted F64.sortLE B) : sortFloat64s A = B :=
  List.eq_of_perm_of_sorted ((sortFloat64s_perm A).trans h) (sortFloat64s_sorted A) hB

theorem F64.sortLE_fin (x y : ℚ) : F64.sortLE (F64.fin x) (F64.fin y) ↔ x ≤ y := by
  simp [F64.sortLE, F64.sortLess, F64.lt, F64.isNaN]

/-- Sorting four finite values that are already in increasing order, whatever
the order in which they are given. -/
theorem sortFloat64s_four {A : List F64} {w x y z : ℚ}
    (h : A.Perm [F64.fin w, F64.fin x, F64.fin y, F64.fin z])
    (hwx : w ≤ x) (hxy : x ≤ y) (hyz : y ≤ z) :
    sortFloat64s A = [F64.fin w, F64.fin x, F64.fin y, F64.fin z] := by
  apply sortFloat64s_eq_of_perm_of_sorted h
  simp only [List.Sorted, List.pairwise_cons, List.mem_cons, List.mem_singleton,
    forall_eq_or_imp, forall_eq, F64.sortLE_fin, List.not_mem_nil, List.Pairwise.nil]
  refine ⟨⟨hwx, hwx.trans hxy, (hwx.trans hxy).trans hyz, ?_⟩, ⟨hxy, hxy.trans hyz, ?_⟩,
    ⟨hyz, ?_⟩, ?_, trivial⟩ <;> simp

/-- The value of `getSecondLargest` on four finite values, read off their
increasing arrangement `w ≤ x ≤ y ≤ z`. -/
theorem getSecondLargest_of_perm {a b : List F64} {w x y z : ℚ}
    (h : (a ++ b).Perm [F64.fin w, F64.fin x, F64.fin y, F64.fin z])
    (hwx : w ≤ x) (hxy : x ≤ y) (hyz : y ≤ z) :
    getSecondLargest a b = some (F64.fin (if z = y ∧ 0 < x then x else y)) := by
  unfold getSecondLargest
  rw [sortFloat64s_four h hwx hxy hyz]
  by_cases hc : z = y ∧ 0 < x
  · simp [F64.eq, F64.gt, F64.lt, hc]
  · simp only [F64.eq, F64.gt, F64.lt, if_neg hc]
    have : (decide (z = y) && decide (0 < x)) = false := by
      simpa using hc
    simp [this]

/-- C8, as the code has it: when the same density `d > 0` is the largest entry
of both vectors and the runners-up `sa`, `sb` lie in `[0, d]`, the result is the
larger runner-up if that is positive, and `d` itself if both runners-up are
zero. -/
theorem getSecondLargest_shared (d sa sb : ℚ) (_hd : 0 < d)
    (_hsa : 0 ≤ sa) (hsa' : sa ≤ d) (_hsb : 0 ≤ sb) (hsb' : sb ≤ d) :
    getSecondLargest [F64.fin d, F64.fin sa] [F64.fin d, F64.fin sb] =
      some (F64.fin (if 0 < max sa sb then max sa sb else d)) := by
  rcases le_total sa sb with h | h
  · have hp : ([F64.fin d, F64.fin sa] ++ [F64.fin d, F64.fin sb]).Perm
        [F64.fin sa, F64.fin sb, F64.fin d, F64.fin d] := by
      simp only [List.cons_append, List.nil_append]
      exact (List.Perm.swap _ _ _).trans
        (List.Perm.cons _ ((List.Perm.cons _ (List.Perm.swap _ _ _)).trans
          (List.Perm.swap _ _ _)))
    rw [getSecondLargest_of_perm hp h hsb' le_rfl, max_eq_right h]
    simp
  · have hp : ([F64.fin d, F64.fin sa] ++ [F64.fin d, F64.fin sb]).Perm
        [F64.fin sb, F64.fin sa, F64.fin d, F64.fin d] := by
      simp only [List.cons_append, List.nil_append]
      refine (List.Perm.trans ?_ (List.Perm.swap _ _ _))
      refine (List.Perm.swap _ _ _).trans (List.Perm.cons _ ?_)
      exact (List.Perm.cons _ (List.Perm.swap _ _ _)).trans (List.Perm.swap _ _ _)
    rw [getSecondLargest_of_perm hp h hsa' le_rfl, max_eq_left h]
    simp

/-- The amended C8 at `d = 3`, `sa = 2`, `sb = 1`. -/
theorem getSecondLargest_shared_witness :
    getSecondLargest [F64.fin 3, F64.fin 2] [F64.fin 3, F64.fin 1] =
      some (F64.fin (if (0 : ℚ) < max 2 1 then max 2 1 else 3)) :=
  getSecondLargest_shared 3 2 1 (by norm_num) (by norm_num) (by norm_num) (by norm_num)
    (by norm_num)

/-- C8 fails as stated: with `d = 1` and both runners-up zero, the result is
`d = 1` and not `max(sa, sb) = 0`. -/
theorem getSecondLargest_shared_counterexample :
    (0 : ℚ) < 1 ∧ (0 : ℚ) ≤ 0 ∧ (0 : ℚ) ≤ 1 ∧
      getSecondLargest [F64.fin 1, F64.fin 0] [F64.fin 1, F64.fin 0] = some (F64.fin 1) ∧
      getSecondLargest [F64.fin 1, F64.fin 0] [F64.fin 1, F64.fin 0] ≠
        some (F64.fin (max 0 0)) := by
  have h := getSecondLargest_of_perm (a := [F64.fin 1, F64.fin 0])
    (b := [F64.fin 1, F64.fin 0]) (w := 0) (x := 0) (y := 1) (z := 1)
    (by
      simp only [List.cons_append, List.nil_append]
      refine (List.Perm.trans ?_ (List.Perm.swap _ _ _))
      refine (List.Perm.swap _ _ _).trans (List.Perm.cons _ ?_)
      exact (List.Perm.cons _ (List.Perm.swap _ _ _)).trans (List.Perm.swap _ _ _))
    le_rfl (by norm_num) le_rfl
  simp only [lt_self_iff_false, and_false, if_false] at h
  refine ⟨by norm_num, le_rfl, by norm_num, h, ?_⟩
  rw [h]
  simp

/-! ### breakCycle -/

/-- The index found by the loop of `breakCycle` is the initial one or the index
of an edge of the path. -/
theorem breakCycleScan_index (path : List Edge) (i : Nat) (acc : Nat × F64) :
    (breakCycleScan path i acc).1 = acc.1 ∨
      (i ≤ (breakCycleScan path i acc).1 ∧ (breakCycleScan path i acc).1 < i + path.length) := by
  induction path generalizing i acc with
  | nil => left; rfl
  | cons e rest ih =>
    obtain ⟨minI, minWeight⟩ := acc
    simp only [breakCycleScan, List.length_cons]
    split
    · rcases ih (i + 1) (i, e.weight) with h | h
      · right; rw [h]; simp
      · right; omega
    · rcases ih (i + 1) (minI, minWeight) with h | h
      · left; exact h
      · right; omega

/-- On a non-empty path the index found by `breakCycle` is in range. -/
theorem breakCycle_index_lt (path : List Edge) (h : 1 ≤ path.length) :
    (breakCycleScan path 0 (0, F64.MaxFloat64)).1 < path.length := by
  rcases breakCycleScan_index path 0 (0, F64.MaxFloat64) with h' | h'
  · rw [h']; exact h
  · omega

/-- C9: on a closed cycle of `L ≥ 1` edges, `breakCycle` returns a path of
`L - 1` edges, all of them edges of the input, in which every edge ends where
the next one starts. -/
theorem breakCycle_linear (path : List Edge) (hL : 1 ≤ path.length)
    (hchain : List.Chain' (fun e f : Edge => e.b = f.a) path)
    (hclose : ∀ first ∈ path.head?, ∀ last ∈ path.getLast?, last.b = first.a) :
    ∃ out, breakCycle path = some out ∧ out.length = path.length - 1 ∧
      (∀ e ∈ out, e ∈ path) ∧ List.Chain' (fun e f : Edge => e.b = f.a) out := by
  have hlt := breakCycle_index_lt path hL
  refine ⟨_, by simp only [breakCycle]; rw [if_pos (by omega)], ?_, ?_, ?_⟩
  · simp only [List.length_append, List.length_drop, List.length_take]
    omega
  · intro e he
    rcases List.mem_append.1 he with h | h
    · exact List.mem_of_mem_drop h
    · exact List.mem_of_mem_take h
  · refine List.chain'_append.2 ⟨hchain.drop _, hchain.take _, ?_⟩
    intro x hx y hy
    rw [List.head?_take] at hy
    split at hy
    · simp at hy
    · refine hclose y hy x ?_
      rw [List.getLast?_drop] at hx
      split at hx
      · simp at hx
      · exact hx

/-- C9 on the three-edge cycle `0 → 1 → 2 → 0` with weights `2, 5, 3`. -/
theorem breakCycle_linear_witness :
    ∃ out, breakCycle [⟨0, 1, F64.fin 2⟩, ⟨1, 2, F64.fin 5⟩, ⟨2, 0, F64.fin 3⟩] = some out ∧
      out.length = [(⟨0, 1, F64.fin 2⟩ : Edge), ⟨1, 2, F64.fin 5⟩, ⟨2, 0, F64.fin 3⟩].length - 1 ∧
      (∀ e ∈ out, e ∈ [(⟨0, 1, F64.fin 2⟩ : Edge), ⟨1, 2, F64.fin 5⟩, ⟨2, 0, F64.fin 3⟩]) ∧
      List.Chain' (fun e f : Edge => e.b = f.a) out :=
  breakCycle_linear [⟨0, 1, F64.fin 2⟩, ⟨1, 2, F64.fin 5⟩, ⟨2, 0, F64.fin 3⟩]
    (by simp) (by simp) (by simp)

/-! ### Go maps as association lists -/

section AssocList

variable {κ β γ : Type} [BEq κ] [LawfulBEq κ]

theorem lookup_cons_ne {k k' : κ} (h : k ≠ k') (v : β) (l : List (κ × β)) :
    List.lookup k ((k', v) :: l) = List.lookup k l := by
  have hb : (k == k') = false := by simpa using h
  rw [List.lookup_cons, hb]

theorem lookup_eq_none_of_not_mem {k : κ} {l : List (κ × β)} (h : k ∉ l.map Prod.fst) :
    List.lookup k l = none := by
  rw [List.lookup_eq_none_iff]
  intro p hp
  have : k ≠ p.1 := fun e => h (e ▸ List.mem_map_of_mem Prod.fst hp)
  simpa using this

/-- In a map, the index expression finds exactly the entries of the map. -/
theorem lookup_eq_some_iff_mem {k : κ} {v : β} {l : List (κ × β)}
    (hnd : (l.map Prod.fst).Nodup) : List.lookup k l = some v ↔ (k, v) ∈ l := by
  induction l with
  | nil => simp
  | cons p l ih =>
    obtain ⟨k', v'⟩ := p
    simp only [List.map_cons, List.nodup_cons] at hnd
    by_cases hk : k = k'
    · subst hk
      rw [List.lookup_cons_self]
      constructor
      · intro h; cases h; exact List.mem_cons_self _ _
      · intro h
        rcases List.mem_cons.1 h with h | h
        · cases h; rfl
        · exact absurd (List.mem_map_of_mem Prod.fst h) hnd.1
    · rw [lookup_cons_ne hk, ih hnd.2]
      constructor
      · intro h; exact List.mem_cons_of_mem _ h
      · intro h
        rcases List.mem_cons.1 h with h | h
        · cases h; exact absurd rfl hk
        · exact h

theorem lookup_isSome_of_mem_keys {k : κ} {l : List (κ × β)} (h : k ∈ l.map Prod.fst) :
    ∃ v, List.lookup k l = some v := by
  cases hl : List.lookup k l with
  | some v => exact ⟨v, rfl⟩
  | none =>
    rw [List.lookup_eq_none_iff] at hl
    obtain ⟨p, hp, rfl⟩ := List.mem_map.1 h
    simpa using hl p hp

/-- Reading a map whose values have been rewritten entry by entry. -/
theorem lookup_map_values (h : κ → β → γ) (k : κ) (l : List (κ × β)) :
    List.lookup k (l.map (fun x => (x.1, h x.1 x.2))) = (List.lookup k l).map (h k) := by
  induction l with
  | nil => rfl
  | cons p l ih =>
    obtain ⟨k', v'⟩ := p
    by_cases hk : k = k'
    · subst hk
      simp [List.lookup_cons_self]
    · simp only [List.map_cons]
      rw [lookup_cons_ne hk, lookup_cons_ne hk, ih]

/-- Reading a map from which entries have been dropped. -/
theorem lookup_filter (q : κ × β → Bool) (k : κ) {l : List (κ × β)}
    (hnd : (l.map Prod.fst).Nodup) :
    List.lookup k (l.filter q) =
      (List.lookup k l).bind (fun v => if q (k, v) then some v else none) := by
  induction l with
  | nil => rfl
  | cons p l ih =>
    obtain ⟨k', v'⟩ := p
    simp only [List.map_cons, List.nodup_cons] at hnd
    by_cases hk : k = k'
    · subst hk
      rw [List.lookup_cons_self, Option.some_bind]
      by_cases hq : q (k, v') = true
      · rw [List.filter_cons_of_pos hq, List.lookup_cons_self, if_pos hq]
      · rw [List.filter_cons_of_neg hq, if_neg hq]
        apply lookup_eq_none_of_not_mem
        intro hmem
        exact hnd.1 ((List.filter_sublist l).map Prod.fst |>.subset hmem)
    · rw [lookup_cons_ne hk, ← ih hnd.2]
      by_cases hq : q (k', v') = true
      · rw [List.filter_cons_of_pos hq, lookup_cons_ne hk]
      · rw [List.filter_cons_of_neg hq]

/-- Reading a map of maps from which rows have been dropped or rewritten. -/
theorem lookup_filterMap_values (h : κ → β → Option γ) (k : κ) {l : List (κ × β)}
    (hnd : (l.map Prod.fst).Nodup) :
    List.lookup k (l.filterMap (fun x => (h x.1 x.2).map (fun y => (x.1, y)))) =
      (List.lookup k l).bind (h k) := by
  induction l with
  | nil => rfl
  | cons p l ih =>
    obtain ⟨k', v'⟩ := p
    simp only [List.map_cons, List.nodup_cons] at hnd
    rw [List.filterMap_cons]
    by_cases hk : k = k'
    · subst hk
      rw [List.lookup_cons_self, Option.some_bind]
      cases hh : h k v' with
      | some y => simp [List.lookup_cons_self]
      | none =>
        simp only [Option.map_none']
        apply lookup_eq_none_of_not_mem
        intro hmem
        apply hnd.1
        obtain ⟨y, hy, hy'⟩ := List.mem_map.1 hmem
        obtain ⟨x, hx, hx'⟩ := List.mem_filterMap.1 hy
        cases hx2 : h x.1 x.2 with
        | none => simp [hx2] at hx'
        | some z =>
          simp only [hx2, Option.map_some', Option.some.injEq] at hx'
          subst hx'
          exact hy' ▸ List.mem_map_of_mem Prod.fst hx
    · rw [lookup_cons_ne hk, ← ih hnd.2]
      cases hh : h k' v' with
      | some y => simp [lookup_cons_ne hk]
      | none => simp

end AssocList

/-! ### Loops that may panic -/

theorem traverseOpt_eq_map {α β : Type} {f : α → Option β} (g : α → β) :
    ∀ {l : List α} {r : List β}, traverseOpt f l = some r →
      (∀ x ∈ l, ∀ y, f x = some y → g x = y) → r = l.map g
  | [], r, h, _ => by simp [traverseOpt] at h; simp [h]
  | x :: xs, r, h, hg => by
    simp only [traverseOpt] at h
    cases hx : f x with
    | none => simp [hx] at h
    | some y =>
      cases hxs : traverseOpt f xs with
      | none => simp [hx, hxs] at h
      | some ys =>
        simp only [hx, hxs, Option.some.injEq] at h
        subst h
        have ih := traverseOpt_eq_map g hxs (fun x' hx' => hg x' (List.mem_cons_of_mem _ hx'))
        rw [List.map_cons, ← ih, hg x (List.mem_cons_self _ _) y hx]

theorem traverseOpt_defined {α β : Type} {f : α → Option β} :
    ∀ {l : List α} {r : List β}, traverseOpt f l = some r → ∀ x ∈ l, ∃ y, f x = some y
  | [], _, _, x, hx => by simp at hx
  | x :: xs, r, h, x', hx' => by
    simp only [traverseOpt] at h
    cases hx : f x with
    | none => simp [hx] at h
    | some y =>
      cases hxs : traverseOpt f xs with
      | none => simp [hx, hxs] at h
      | some ys =>
        rcases List.mem_cons.1 hx' with e | e
        · exact ⟨y, e ▸ hx⟩
        · exact traverseOpt_defined hxs x' e

theorem traverseOpt_of_defined {α β : Type} {f : α → Option β} :
    ∀ {l : List α}, (∀ x ∈ l, ∃ y, f x = some y) → ∃ r, traverseOpt f l = some r
  | [], _ => ⟨[], rfl⟩
  | x :: xs, h => by
    obtain ⟨y, hy⟩ := h x (List.mem_cons_self _ _)
    obtain ⟨ys, hys⟩ := traverseOpt_of_defined (l := xs)
      (fun x' hx' => h x' (List.mem_cons_of_mem _ hx'))
    exact ⟨y :: ys, by simp [traverseOpt, hy, hys]⟩

/-! ### makeConfidenceGraph -/

theorem twoLargestAt_map (plen : Node → Int) (G : Graph) (a : Node) :
    twoLargestAt (twoLargestMap plen G) a =
      ((List.lookup a G).map (fun nb =>
        [(twoLargestOf (nb.map (fun bs => linkDensity plen a bs.1 bs.2))).1,
         (twoLargestOf (nb.map (fun bs => linkDensity plen a bs.1 bs.2))).2])).getD [] := by
  have h := lookup_map_values (fun (a : Node) (nb : List (Node × F64)) =>
    [(twoLargestOf (nb.map (fun (bs : Node × F64) => linkDensity plen a bs.1 bs.2))).1,
     (twoLargestOf (nb.map (fun (bs : Node × F64) => linkDensity plen a bs.1 bs.2))).2]) a G
  unfold twoLargestAt twoLargestMap
  exact congrArg (fun o => Option.getD o []) h

theorem lookup_densityGraph (plen : Node → Int) (G : Graph) (a : Node) :
    List.lookup a (densityGraph plen G) =
      (List.lookup a G).map (fun nb => nb.map (fun bs => (bs.1, linkDensity plen a bs.1 bs.2))) :=
  lookup_map_values (fun (a : Node) (nb : List (Node × F64)) =>
    nb.map (fun (bs : Node × F64) => (bs.1, linkDensity plen a bs.1 bs.2))) a G

theorem getSecondLargest_defined {a b : List F64} (h : 4 ≤ (a ++ b).length) :
    ∃ s, getSecondLargest a b = some s := by
  have hlen : 4 ≤ (sortFloat64s (a ++ b)).length := by
    rw [(sortFloat64s_perm _).length_eq]; exact h
  unfold getSecondLargest
  match hs : sortFloat64s (a ++ b), hlen with
  | x0 :: x1 :: x2 :: x3 :: rest, _ => exact ⟨_, rfl⟩

theorem twoLargestAt_length (plen : Node → Int) (G : Graph) {a : Node}
    (h : a ∈ G.map Prod.fst) : (twoLargestAt (twoLargestMap plen G) a).length = 2 := by
  obtain ⟨nb, hnb⟩ := lookup_isSome_of_mem_keys h
  rw [twoLargestAt_map, hnb]
  rfl

/-- The rows of `G` after the second pass, when no index expression panicked:
every density has been divided by the second-largest value of its edge. -/
theorem confidenceRow_eq {tl : List (Node × List F64)} {a : Node}
    {nb row : List (Node × F64)} (h : confidenceRow tl a nb = some row) :
    row = nb.map (fun bd => (bd.1, F64.div bd.2
      ((getSecondLargest (twoLargestAt tl a) (twoLargestAt tl bd.1)).getD F64.nan))) := by
  refine traverseOpt_eq_map _ h ?_
  intro bd _ y hy
  cases hs : getSecondLargest (twoLargestAt tl a) (twoLargestAt tl bd.1) with
  | none => simp [hs] at hy
  | some s =>
    simp only [hs, Option.map_some', Option.some.injEq] at hy
    simp [← hy]

/-- The content of the graph returned by `makeConfidenceGraph`: the edge
`(a, b)` carries its recomputed confidence if that is greater than 1, and is
absent otherwise. -/
theorem edgeWeight_makeConfidenceGraph (plen : Node → Int) (G CG : Graph)
    (hwf : Graph.WF G) (h : makeConfidenceGraph plen G = some CG) (a b : Node) :
    edgeWeight CG a b =
      (codeConfidence plen G a b).bind
        (fun c => if F64.gt c (F64.fin 1) then some c else none) := by
  unfold makeConfidenceGraph at h
  simp only [Option.map_eq_some'] at h
  obtain ⟨rows, hrows, hCG⟩ := h
  -- the second-largest value of an edge, where it is defined
  have hdef := traverseOpt_defined hrows
  have hrows' : rows = (densityGraph plen G).map (fun anb => (anb.1,
      anb.2.map (fun (bd : Node × F64) => (bd.1, F64.div bd.2
        ((getSecondLargest (twoLargestAt (twoLargestMap plen G) anb.1)
          (twoLargestAt (twoLargestMap plen G) bd.1)).getD F64.nan))))) := by
    refine traverseOpt_eq_map _ hrows ?_
    intro anb _ y hy
    cases hr : confidenceRow (twoLargestMap plen G) anb.1 anb.2 with
    | none => simp [hr] at hy
    | some row =>
      simp only [hr, Option.map_some', Option.some.injEq] at hy
      rw [← hy, confidenceRow_eq hr]
  have hkeys : (densityGraph plen G).map Prod.fst = G.map Prod.fst := by
    simp [densityGraph, Function.comp_def]
  have hrowkeys : rows.map Prod.fst = G.map Prod.fst := by
    rw [hrows', ← hkeys]; simp [Function.comp_def]
  -- reading the returned graph
  have hCGa : List.lookup a CG = (List.lookup a rows).bind (fun row =>
      if retained row = [] then none else some (retained row)) := by
    rw [← hCG]
    have := lookup_filterMap_values (fun (_ : Node) (row : List (Node × F64)) =>
      if retained row = [] then none else some (retained row)) a
      (l := rows) (by rw [hrowkeys]; exact hwf.1)
    rw [← this]
    congr 1
    refine congrArg (fun f => List.filterMap f rows) ?_
    funext arow
    split <;> simp_all
  have hrowsa : List.lookup a rows = (List.lookup a (densityGraph plen G)).map (fun nbD =>
      nbD.map (fun (bd : Node × F64) => (bd.1, F64.div bd.2
        ((getSecondLargest (twoLargestAt (twoLargestMap plen G) a)
          (twoLargestAt (twoLargestMap plen G) bd.1)).getD F64.nan)))) := by
    rw [hrows']
    exact lookup_map_values (fun (a : Node) (nbD : List (Node × F64)) =>
      nbD.map (fun (bd : Node × F64) => (bd.1, F64.div bd.2
        ((getSecondLargest (twoLargestAt (twoLargestMap plen G) a)
          (twoLargestAt (twoLargestMap plen G) bd.1)).getD F64.nan)))) a _
  unfold edgeWeight codeConfidence codeDensity edgeWeight
  rw [hCGa, hrowsa, lookup_densityGraph]
  cases hGa : List.lookup a G with
  | none => simp
  | some nb =>
    have hmem : (a, nb) ∈ G := (lookup_eq_some_iff_mem hwf.1).1 hGa
    have hnd : (nb.map Prod.fst).Nodup := hwf.2 _ hmem
    simp only [Option.map_some', Option.some_bind]
    set row := (nb.map (fun (bs : Node × F64) => (bs.1, linkDensity plen a bs.1 bs.2))).map
      (fun (bd : Node × F64) => (bd.1, F64.div bd.2
        ((getSecondLargest (twoLargestAt (twoLargestMap plen G) a)
          (twoLargestAt (twoLargestMap plen G) bd.1)).getD F64.nan))) with hrow
    have hrownd : (row.map Prod.fst).Nodup := by
      have : row.map Prod.fst = nb.map Prod.fst := by
        simp [hrow, Function.comp_def]
      rw [this]; exact hnd
    have hret : ((if retained row = [] then none else some (retained row)) :
        Option (List (Node × F64))).bind (fun nb => List.lookup b nb) =
        List.lookup b (retained row) := by
      split
      · next he => rw [he]; rfl
      · rfl
    rw [hret]
    unfold retained
    rw [lookup_filter _ b hrownd]
    have hrowb : List.lookup b row = ((List.lookup b nb).map (linkDensity plen a b)).map
        (fun d => F64.div d ((getSecondLargest (twoLargestAt (twoLargestMap plen G) a)
          (twoLargestAt (twoLargestMap plen G) b)).getD F64.nan)) := by
      rw [hrow]
      rw [lookup_map_values (fun (b : Node) (d : F64) => F64.div d
        ((getSecondLargest (twoLargestAt (twoLargestMap plen G) a)
          (twoLargestAt (twoLargestMap plen G) b)).getD F64.nan)) b]
      rw [lookup_map_values (fun (b : Node) (w : F64) => linkDensity plen a b w) b]
    rw [hrowb]
    cases hnb : List.lookup b nb with
    | none => simp
    | some w0 =>
      have hbmem : (b, w0) ∈ nb := (lookup_eq_some_iff_mem hnd).1 hnb
      -- the second-largest value of the edge `(a, b)` is defined
      have hmemD : (a, nb.map (fun (bs : Node × F64) =>
          (bs.1, linkDensity plen a bs.1 bs.2))) ∈ densityGraph plen G := by
        unfold densityGraph
        exact List.mem_map.2 ⟨(a, nb), hmem, rfl⟩
      obtain ⟨arow, harow⟩ := hdef _ hmemD
      cases hr : confidenceRow (twoLargestMap plen G) a
          (nb.map (fun (bs : Node × F64) => (bs.1, linkDensity plen a bs.1 bs.2))) with
      | none => simp [hr] at harow
      | some row' =>
        obtain ⟨y, hy⟩ := traverseOpt_defined hr (b, linkDensity plen a b w0)
          (List.mem_map.2 ⟨(b, w0), hbmem, rfl⟩)
        cases hs : getSecondLargest (twoLargestAt (twoLargestMap plen G) a)
            (twoLargestAt (twoLargestMap plen G) b) with
        | none => simp [hs] at hy
        | some s => simp

/-- On a graph in which every end node of an edge is a key, no index expression
of `makeConfidenceGraph` panics. -/
theorem makeConfidenceGraph_defined (plen : Node → Int) (G : Graph)
    (hclosed : Graph.Closed G) : ∃ CG, makeConfidenceGraph plen G = some CG := by
  have hrows : ∃ rows, traverseOpt (fun anb =>
      (confidenceRow (twoLargestMap plen G) anb.1 anb.2).map (fun row => (anb.1, row)))
      (densityGraph plen G) = some rows := by
    apply traverseOpt_of_defined
    intro anb hanb
    obtain ⟨anb0, hanb0, rfl⟩ := List.mem_map.1 hanb
    have hrow : ∃ row, confidenceRow (twoLargestMap plen G) anb0.1
        (anb0.2.map (fun bs => (bs.1, linkDensity plen anb0.1 bs.1 bs.2))) = some row := by
      apply traverseOpt_of_defined
      intro bd hbd
      obtain ⟨bs, hbs, rfl⟩ := List.mem_map.1 hbd
      have ha : anb0.1 ∈ G.map Prod.fst := List.mem_map_of_mem Prod.fst hanb0
      have hb : bs.1 ∈ G.map Prod.fst := hclosed anb0 hanb0 bs hbs
      obtain ⟨s, hs⟩ := getSecondLargest_defined
        (a := twoLargestAt (twoLargestMap plen G) anb0.1)
        (b := twoLargestAt (twoLargestMap plen G) bs.1)
        (by rw [List.length_append, twoLargestAt_length plen G ha,
          twoLargestAt_length plen G hb])
      exact ⟨_, by rw [hs]; rfl⟩
    obtain ⟨row, hrow⟩ := hrow
    exact ⟨_, by rw [hrow]; rfl⟩
  obtain ⟨rows, hrows⟩ := hrows
  exact ⟨_, by unfold makeConfidenceGraph; simp only []; rw [hrows]; rfl⟩

/-- The values that the code stores are the densities and the confidences of
the specification. -/
theorem codeConfidence_eq (plen : Node → Int) (G : Graph) (a b : Node) :
    codeConfidence plen G a b = confidence plen G a b := by
  have hd : codeDensity plen G a b = density plen G a b := rfl
  have htl : ∀ c, twoLargestAt (twoLargestMap plen G) c = twoLargest plen G c := by
    intro c
    rw [twoLargestAt_map]
    unfold twoLargest
    cases List.lookup c G with
    | none => rfl
    | some nb => rfl
  unfold codeConfidence confidence
  rw [hd, htl a, htl b]

/-- C5: on every graph (a map of maps, every end node of an edge being a key of
the graph, as the index expression `twoLargest[b]` needs), `makeConfidenceGraph`
returns a graph, and that graph contains the edge `(a, b)` with weight `w` if
and only if `w` is the recomputed confidence of `(a, b)` and `w > 1`.  The
confidence is `density(a,b) / getSecondLargest(twoLargest[a], twoLargest[b])`,
the density of an edge of weight `weight` is
`weight / (a.path.length × b.path.length)`, and `twoLargest[a]` holds the two
largest densities at `a`. -/
theorem makeConfidenceGraph_retains_iff (plen : Node → Int) (G : Graph)
    (hwf : Graph.WF G) (hclosed : Graph.Closed G) :
    ∃ CG, makeConfidenceGraph plen G = some CG ∧
      (∀ a b w, edgeWeight CG a b = some w ↔
        (confidence plen G a b = some w ∧ F64.gt w (F64.fin 1) = true)) ∧
      (∀ a b w, edgeWeight CG a b = some w ↔
        ∃ weight secondLargest, edgeWeight G a b = some weight ∧
          getSecondLargest (twoLargest plen G a) (twoLargest plen G b) = some secondLargest ∧
          w = F64.div
            (F64.div weight (F64.mul (F64.ofInt (plen a)) (F64.ofInt (plen b))))
            secondLargest ∧
          F64.gt w (F64.fin 1) = true) := by
  obtain ⟨CG, hCG⟩ := makeConfidenceGraph_defined plen G hclosed
  have hd : ∀ a b, (edgeWeight G a b).map (linkDensity plen a b) = density plen G a b :=
    fun _ _ => rfl
  have key : ∀ a b w, edgeWeight CG a b = some w ↔
      (confidence plen G a b = some w ∧ F64.gt w (F64.fin 1) = true) := by
    intro a b w
    rw [edgeWeight_makeConfidenceGraph plen G CG hwf hCG a b, codeConfidence_eq]
    cases hc : confidence plen G a b with
    | none => simp
    | some c =>
      simp only [Option.some_bind, Option.some.injEq]
      constructor
      · intro h
        split at h
        · next hgt => cases h; exact ⟨rfl, hgt⟩
        · cases h
      · rintro ⟨rfl, hgt⟩
        rw [if_pos hgt]
  refine ⟨CG, hCG, key, ?_⟩
  intro a b w
  rw [key a b w]
  unfold confidence
  rw [← hd a b]
  unfold linkDensity
  constructor
  · rintro ⟨hconf, hgt⟩
    cases hw : edgeWeight G a b with
    | none => rw [hw] at hconf; cases hconf
    | some weight =>
      rw [hw] at hconf
      simp only [Option.map_some', Option.some_bind] at hconf
      cases hs : getSecondLargest (twoLargest plen G a) (twoLargest plen G b) with
      | none => rw [hs] at hconf; cases hconf
      | some s =>
        rw [hs] at hconf
        simp only [Option.map_some', Option.some.injEq] at hconf
        exact ⟨weight, s, rfl, rfl, hconf.symm, hgt⟩
  · rintro ⟨weight, s, hw, hs, rfl, hgt⟩
    rw [hw, hs]
    exact ⟨rfl, hgt⟩

/-! ### The two largest densities of a row -/

theorem topTwo_init : TopTwo 0 0 [0, 0] := by
  refine ⟨le_rfl, ?_, by simp, ?_, ?_⟩ <;> simp [List.countP_cons]

/-- One turn of the inner loop of the first pass keeps the pair
`(first, second)` the two largest values seen so far. -/
theorem topTwo_step {f s : ℚ} {M : List ℚ} (h : TopTwo f s M) (x : ℚ) :
    ∃ f' s', twoLargestStep (F64.fin f, F64.fin s) (F64.fin x) = (F64.fin f', F64.fin s') ∧
      TopTwo f' s' (M ++ [x]) := by
  obtain ⟨hsf, hmax, hmem, hgt, hge⟩ := h
  by_cases h1 : f < x
  · refine ⟨x, f, by simp [twoLargestStep, F64.gt, F64.lt, h1], h1.le, ?_, by simp, ?_, ?_⟩
    · intro y hy
      rcases List.mem_append.1 hy with hy | hy
      · exact (hmax y hy).trans h1.le
      · simp at hy; exact hy.le
    · have h0 : M.countP (fun y => decide (f < y)) = 0 := by
        rw [List.countP_eq_zero]
        intro y hy
        simpa using hmax y hy
      simp [List.countP_append, h0, h1]
    · have h1' : 1 ≤ M.countP (fun y => decide (f ≤ y)) :=
        List.countP_pos_iff.2 ⟨f, hmem, by simp⟩
      simp only [List.countP_append, List.countP_cons, List.countP_nil, decide_eq_true_eq,
        h1.le, if_true]
      omega
  · have hxf : x ≤ f := not_lt.1 h1
    by_cases h2 : s < x
    · refine ⟨f, x, ?_, hxf, ?_, by simp [hmem], ?_, ?_⟩
      · simp [twoLargestStep, F64.gt, F64.lt, F64.le, F64.eq, h1, h2]
        intro h3 h4
        exact absurd (le_antisymm hxf h3) h4
      · intro y hy
        rcases List.mem_append.1 hy with hy | hy
        · exact hmax y hy
        · simp at hy; exact hy ▸ hxf
      · have hmono : M.countP (fun y => decide (x < y)) ≤ M.countP (fun y => decide (s < y)) := by
          apply List.countP_mono_left
          intro y _ hy
          simp only [decide_eq_true_eq] at hy ⊢
          exact h2.trans hy
        simp only [List.countP_append, List.countP_cons, List.countP_nil, decide_eq_true_eq,
          lt_self_iff_false, if_false]
        omega
      · have h1' : 1 ≤ M.countP (fun y => decide (x ≤ y)) :=
          List.countP_pos_iff.2 ⟨f, hmem, by simpa using hxf⟩
        simp only [List.countP_append, List.countP_cons, List.countP_nil, decide_eq_true_eq,
          le_refl, if_true]
        omega
    · have hxs : x ≤ s := not_lt.1 h2
      refine ⟨f, s, by simp [twoLargestStep, F64.gt, F64.lt, h1, h2], hsf, ?_, by simp [hmem],
        ?_, ?_⟩
      · intro y hy
        rcases List.mem_append.1 hy with hy | hy
        · exact hmax y hy
        · simp at hy; exact hy ▸ hxf
      · simp only [List.countP_append, List.countP_cons, List.countP_nil, decide_eq_true_eq,
          h2, if_false]
        omega
      · simp only [List.countP_append]
        omega

theorem topTwo_foldl (qs : List ℚ) : ∀ {f s : ℚ} {M : List ℚ}, TopTwo f s M →
    ∃ f' s', (qs.map F64.fin).foldl twoLargestStep (F64.fin f, F64.fin s) =
        (F64.fin f', F64.fin s') ∧ TopTwo f' s' (M ++ qs) := by
  induction qs with
  | nil => intro f s M h; exact ⟨f, s, rfl, by simpa using h⟩
  | cons x qs ih =>
    intro f s M h
    obtain ⟨f1, s1, h1, ht1⟩ := topTwo_step h x
    obtain ⟨f2, s2, h2, ht2⟩ := ih ht1
    refine ⟨f2, s2, ?_, by simpa using ht2⟩
    simp only [List.map_cons, List.foldl_cons, h1, h2]

/-- The first pass leaves in `twoLargest[a]` the two largest of the densities
of the row of `a`, two zeros included. -/
theorem twoLargestOf_topTwo (qs : List ℚ) :
    ∃ f s, twoLargestOf (qs.map F64.fin) = (F64.fin f, F64.fin s) ∧ TopTwo f s (0 :: 0 :: qs) :=
  topTwo_foldl qs topTwo_init

theorem two_le_countP {ε : Type} {p : ε → Bool} {l : List ε} {e₁ e₂ : ε}
    (h₁ : e₁ ∈ l) (h₂ : e₂ ∈ l) (hne : e₁ ≠ e₂) (hp₁ : p e₁ = true) (hp₂ : p e₂ = true) :
    2 ≤ l.countP p := by
  rw [List.countP_eq_length_filter]
  have m₁ : e₁ ∈ l.filter p := List.mem_filter.2 ⟨h₁, hp₁⟩
  have m₂ : e₂ ∈ l.filter p := List.mem_filter.2 ⟨h₂, hp₂⟩
  match hl : l.filter p with
  | [] => rw [hl] at m₁; simp at m₁
  | [x] =>
    rw [hl] at m₁ m₂
    simp only [List.mem_singleton] at m₁ m₂
    exact absurd (m₁.trans m₂.symm) hne
  | x :: y :: rest => simp

theorem countP_le_one {ε : Type} {p : ε → Bool} {l : List ε} (e : ε) (hnd : l.Nodup)
    (h : ∀ x ∈ l, p x = true → x = e) : l.countP p ≤ 1 := by
  rw [List.countP_eq_length_filter]
  have hnd' : (l.filter p).Nodup := hnd.filter _
  match hl : l.filter p with
  | [] => simp
  | [x] => simp
  | x :: y :: rest =>
    exfalso
    rw [hl] at hnd'
    have hx : x ∈ l.filter p := by rw [hl]; simp
    have hy : y ∈ l.filter p := by rw [hl]; simp
    have ex := h x (List.mem_filter.1 hx).1 (List.mem_filter.1 hx).2
    have ey := h y (List.mem_filter.1 hy).1 (List.mem_filter.1 hy).2
    simp only [List.nodup_cons, List.mem_cons] at hnd'
    exact hnd'.1 (Or.inl (ex.trans ey.symm))

theorem perm_four_rotate {α : Type} (w x y z : α) : [w, x, y, z].Perm [x, w, z, y] :=
  (List.Perm.swap _ _ _).trans (List.Perm.cons _ (List.Perm.cons _ (List.Perm.swap _ _ _)))

/-- The second-largest value of an edge whose start node has no other edge.
The entries `es` are those of the row of the end node, `g` gives their
densities, `e0` is the entry of the edge back to the start node, of density
`d`; `(f, s)` are the two largest densities of the row.  The value is positive,
and it is below `d` exactly when the row has other entries and all of them have
a density below `d`. -/
theorem getSecondLargest_lone {ε : Type} (es : List ε) (g : ε → ℚ) (e0 : ε) (d f s : ℚ)
    (hnd : es.Nodup) (he0 : e0 ∈ es) (hd : g e0 = d) (hpos : ∀ e ∈ es, 0 < g e)
    (htop : TopTwo f s (0 :: 0 :: es.map g)) :
    ∃ r, getSecondLargest [F64.fin d, F64.fin 0] [F64.fin f, F64.fin s] = some (F64.fin r) ∧
      0 < r ∧ (r < d ↔ (∃ e ∈ es, e ≠ e0) ∧ ∀ e ∈ es, e ≠ e0 → g e < d) := by
  obtain ⟨hsf, hmax, hmem, hgt, hge⟩ := htop
  have hdpos : 0 < d := hd ▸ hpos e0 he0
  have hdf : d ≤ f := hmax d (by
    simp only [List.mem_cons, List.mem_map]
    exact Or.inr (Or.inr ⟨e0, he0, hd⟩))
  -- counting over the row instead of over the list with its two zeros
  have hcnt : ∀ p : ℚ → Bool, (0 :: 0 :: es.map g).countP p =
      (if p 0 = true then 2 else 0) + es.countP (p ∘ g) := by
    intro p
    rw [List.countP_cons, List.countP_cons, List.countP_map]
    split <;> omega
  have hs0 : 0 ≤ s := by
    by_contra hneg
    have hneg' : s < 0 := not_le.1 hneg
    have := hcnt (fun x => decide (s < x))
    simp only [decide_eq_true_eq, hneg', if_true] at this
    omega
  have hgt' : es.countP ((fun x => decide (s < x)) ∘ g) ≤ 1 := by
    have := hcnt (fun x => decide (s < x)); omega
  -- no two entries of the row are above `s`
  have hone : ∀ e₁ ∈ es, ∀ e₂ ∈ es, e₁ ≠ e₂ → s < g e₁ → s < g e₂ → False := by
    intro e₁ h₁ e₂ h₂ hne hp₁ hp₂
    have := two_le_countP (p := (fun x => decide (s < x)) ∘ g) h₁ h₂ hne
      (by simpa using hp₁) (by simpa using hp₂)
    omega
  rcases lt_or_eq_of_le hdf with hlt | heq
  · -- another entry of the row has a larger density
    have hfmem : ∃ e1 ∈ es, g e1 = f := by
      simp only [List.mem_cons, List.mem_map] at hmem
      rcases hmem with h | h | h
      · exact absurd h (ne_of_gt (hdpos.trans hlt))
      · exact absurd h (ne_of_gt (hdpos.trans hlt))
      · exact h
    obtain ⟨e1, he1, hg1⟩ := hfmem
    have hne : e1 ≠ e0 := fun e => by rw [e, hd] at hg1; exact absurd hg1 (ne_of_lt hlt)
    have hds : d ≤ s := by
      by_contra hc
      exact hone e1 he1 e0 he0 hne (by rw [hg1]; exact (not_le.1 hc).trans hlt)
        (by rw [hd]; exact not_le.1 hc)
    have hp : ([F64.fin d, F64.fin 0] ++ [F64.fin f, F64.fin s]).Perm
        [F64.fin 0, F64.fin d, F64.fin s, F64.fin f] := perm_four_rotate _ _ _ _
    refine ⟨_, getSecondLargest_of_perm hp hdpos.le hds hsf, ?_, ?_⟩
    · split
      · exact hdpos
      · exact lt_of_lt_of_le hdpos hds
    · constructor
      · intro hr
        exfalso
        split at hr
        · exact lt_irrefl _ hr
        · exact absurd hr (not_lt.2 hds)
      · rintro ⟨_, hall⟩
        exact absurd (hall e1 he1 hne) (by rw [hg1]; exact not_lt.2 hlt.le)
  · -- the edge back to the start node has the largest density of the row
    subst heq
    have hp : ([F64.fin d, F64.fin 0] ++ [F64.fin d, F64.fin s]).Perm
        [F64.fin 0, F64.fin s, F64.fin d, F64.fin d] := by
      simp only [List.cons_append, List.nil_append]
      exact (List.Perm.swap _ _ _).trans (List.Perm.cons _
        ((List.Perm.cons _ (List.Perm.swap _ _ _)).trans (List.Perm.swap _ _ _)))
    refine ⟨_, getSecondLargest_of_perm hp hs0 hsf le_rfl, ?_, ?_⟩
    · split
      · next h => exact h.2
      · exact hdpos
    · by_cases hspos : 0 < s
      · rw [if_pos ⟨rfl, hspos⟩]
        have hge' : 2 ≤ es.countP ((fun x => decide (s ≤ x)) ∘ g) := by
          have := hcnt (fun x => decide (s ≤ x))
          simp only [decide_eq_true_eq, not_le.2 hspos, if_false] at this
          omega
        constructor
        · intro hsd
          constructor
          · by_contra hnone
            have hall : ∀ x ∈ es, ((fun x => decide (s ≤ x)) ∘ g) x = true → x = e0 := by
              intro x hx _
              by_contra hxe
              exact hnone ⟨x, hx, hxe⟩
            have := countP_le_one e0 hnd hall
            omega
          · intro e he hne
            by_contra hc
            exact hone e he e0 he0 hne (lt_of_lt_of_le hsd (not_lt.1 hc)) (by rw [hd]; exact hsd)
        · rintro ⟨_, hall⟩
          by_contra hc
          have hsd : s = d := le_antisymm hsf (not_lt.1 hc)
          have hall' : ∀ x ∈ es, ((fun x => decide (s ≤ x)) ∘ g) x = true → x = e0 := by
            intro x hx hpx
            by_contra hxe
            have h1 := hall x hx hxe
            simp only [Function.comp_apply, decide_eq_true_eq] at hpx
            rw [hsd] at hpx
            exact absurd h1 (not_lt.2 hpx)
          have := countP_le_one e0 hnd hall'
          omega
      · have hs : s = 0 := le_antisymm (not_lt.1 hspos) hs0
        rw [if_neg (fun h => hspos h.2)]
        constructor
        · intro h; exact absurd h (lt_irrefl _)
        · rintro ⟨⟨e, he, hne⟩, _⟩
          exfalso
          exact hone e he e0 he0 hne (hs ▸ hpos e he) (hs ▸ hpos e0 he0)

theorem linkDensity_fin (plen : Node → Int) (a b : Node) (q : ℚ)
    (ha : 0 < plen a) (hb : 0 < plen b) :
    linkDensity plen a b (F64.fin q) = F64.fin (q / ((plen a : ℚ) * (plen b : ℚ))) := by
  have ha' : (0 : ℚ) < plen a := by exact_mod_cast ha
  have hb' : (0 : ℚ) < plen b := by exact_mod_cast hb
  have hne : ((plen a : ℚ) * (plen b : ℚ)) ≠ 0 := (mul_pos ha' hb').ne'
  simp only [linkDensity, F64.ofInt, F64.mul, F64.div, if_neg hne]

theorem edgeWeight_of_mem {G : Graph} (hwf : Graph.WF G) {a b : Node}
    {nb : List (Node × F64)} {w : F64} (ha : List.lookup a G = some nb) (hb : (b, w) ∈ nb) :
    edgeWeight G a b = some w := by
  have hmem : (a, nb) ∈ G := (lookup_eq_some_iff_mem hwf.1).1 ha
  unfold edgeWeight
  rw [ha, Option.some_bind]
  exact (lookup_eq_some_iff_mem (hwf.2 _ hmem)).2 hb

theorem mem_of_edgeWeight {G : Graph} (hwf : Graph.WF G) {a b : Node}
    {nb : List (Node × F64)} {w : F64} (ha : List.lookup a G = some nb)
    (h : edgeWeight G a b = some w) : (b, w) ∈ nb := by
  have hmem : (a, nb) ∈ G := (lookup_eq_some_iff_mem hwf.1).1 ha
  unfold edgeWeight at h
  rw [ha, Option.some_bind] at h
  exact (lookup_eq_some_iff_mem (hwf.2 _ hmem)).1 h

theorem F64.pos_finite {w : F64}
    (h : F64.gt w (F64.fin 0) = true ∧ F64.lt w F64.posInf = true) :
    ∃ q : ℚ, w = F64.fin q ∧ 0 < q := by
  cases w with
  | fin q => exact ⟨q, rfl, by simpa [F64.gt, F64.lt] using h.1⟩
  | nan => simp [F64.gt, F64.lt] at h
  | negInf => simp [F64.gt, F64.lt] at h
  | posInf => simp [F64.gt, F64.lt] at h

/-- In a symmetric graph every end node of an edge is a key. -/
theorem Graph.Symmetric.closed {G : Graph} (hsym : Graph.Symmetric G) : Graph.Closed G := by
  intro anb hanb bs hbs
  have h := hsym anb hanb bs hbs
  unfold edgeWeight at h
  cases hl : List.lookup bs.1 G with
  | none => rw [hl] at h; simp at h
  | some nb =>
    by_contra hk
    rw [lookup_eq_none_of_not_mem hk] at hl
    cases hl

/-- C6, as the code has it: in a symmetric graph with positive weights and
positive path lengths, an edge between `a` and `b` whose end `a` has no other
outgoing edge is retained, as `(a, b)` and as `(b, a)`, if and only if `b` has
another outgoing edge and the density of `(a, b)` is strictly greater than the
density of every other edge at `b`.  (The second-largest value of such an edge
is never `0`; when neither end has another edge the confidence is exactly `1`
and the edge is dropped.) -/
theorem makeConfidenceGraph_lone_endpoint (plen : Node → Int) (G : Graph)
    (hwf : Graph.WF G) (hsym : Graph.Symmetric G) (hpos : Graph.PositiveWeights G)
    (hlen : ∀ a, 0 < plen a)
    (a b : Node) (w : F64) (hrow : List.lookup a G = some [(b, w)]) :
    ∃ CG, makeConfidenceGraph plen G = some CG ∧
      ((edgeWeight CG a b).isSome = true ↔
        ((∃ c, c ≠ a ∧ (edgeWeight G b c).isSome = true) ∧
          ∀ c w', c ≠ a → edgeWeight G b c = some w' →
            F64.lt (linkDensity plen b c w') (linkDensity plen a b w) = true)) ∧
      ((edgeWeight CG b a).isSome = true ↔
        ((∃ c, c ≠ a ∧ (edgeWeight G b c).isSome = true) ∧
          ∀ c w', c ≠ a → edgeWeight G b c = some w' →
            F64.lt (linkDensity plen b c w') (linkDensity plen a b w) = true)) := by
  have hclosed := Graph.Symmetric.closed hsym
  obtain ⟨CG, hCG⟩ := makeConfidenceGraph_defined plen G hclosed
  refine ⟨CG, hCG, ?_⟩
  have hab : edgeWeight G a b = some w := edgeWeight_of_mem hwf hrow (by simp)
  have hamem0 : (a, [(b, w)]) ∈ G := (lookup_eq_some_iff_mem hwf.1).1 hrow
  obtain ⟨q, hwq, hq⟩ := F64.pos_finite (hpos _ hamem0 (b, w) (by simp))
  simp only at hwq
  subst hwq
  have hamem : (a, [(b, F64.fin q)]) ∈ G := hamem0
  have hbkey : b ∈ G.map Prod.fst := hclosed _ hamem (b, F64.fin q) (by simp)
  obtain ⟨nbB, hnbB⟩ := lookup_isSome_of_mem_keys hbkey
  have hbmem : (b, nbB) ∈ G := (lookup_eq_some_iff_mem hwf.1).1 hnbB
  have hndB : (nbB.map Prod.fst).Nodup := hwf.2 _ hbmem
  have he0 : (a, F64.fin q) ∈ nbB :=
    mem_of_edgeWeight hwf hnbB (hsym _ hamem (b, F64.fin q) (by simp))
  have hla : (0 : ℚ) < plen a := by exact_mod_cast hlen a
  have hlb : (0 : ℚ) < plen b := by exact_mod_cast hlen b
  -- the densities of the row of `b`
  have hfin : ∀ e ∈ nbB, ∃ q' : ℚ, e.2 = F64.fin q' ∧ 0 < q' :=
    fun e he => F64.pos_finite (hpos _ hbmem e he)
  have hdens : ∀ e ∈ nbB, linkDensity plen b e.1 e.2 =
      F64.fin (e.2.toRat / ((plen b : ℚ) * (plen e.1 : ℚ))) := by
    intro e he
    obtain ⟨q', hq', _⟩ := hfin e he
    rw [hq', linkDensity_fin plen b e.1 q' (hlen b) (hlen e.1)]
    rfl
  have hgpos : ∀ e ∈ nbB, (0 : ℚ) < e.2.toRat / ((plen b : ℚ) * (plen e.1 : ℚ)) := by
    intro e he
    obtain ⟨q', hq', hq'pos⟩ := hfin e he
    have hle : (0 : ℚ) < plen e.1 := by exact_mod_cast hlen e.1
    rw [hq']
    exact div_pos hq'pos (mul_pos hlb hle)
  have hdpos : 0 < q / ((plen a : ℚ) * (plen b : ℚ)) := div_pos hq (mul_pos hla hlb)
  have hd0 : (F64.fin q).toRat / ((plen b : ℚ) * (plen a : ℚ)) =
      q / ((plen a : ℚ) * (plen b : ℚ)) := by
    rw [mul_comm]; rfl
  -- the two largest densities at `a` and at `b`
  have htla : twoLargestAt (twoLargestMap plen G) a =
      [F64.fin (q / ((plen a : ℚ) * (plen b : ℚ))), F64.fin 0] := by
    rw [twoLargestAt_map, hrow]
    simp [twoLargestOf, linkDensity_fin plen a b q (hlen a) (hlen b), twoLargestStep,
      F64.gt, F64.lt, hdpos]
  obtain ⟨f, s, hfs, htop⟩ := twoLargestOf_topTwo
    (nbB.map (fun e => e.2.toRat / ((plen b : ℚ) * (plen e.1 : ℚ))))
  have htlb : twoLargestAt (twoLargestMap plen G) b = [F64.fin f, F64.fin s] := by
    rw [twoLargestAt_map, hnbB]
    have hmap : nbB.map (fun (bs : Node × F64) => linkDensity plen b bs.1 bs.2) =
        (nbB.map (fun e => e.2.toRat / ((plen b : ℚ) * (plen e.1 : ℚ)))).map F64.fin := by
      rw [List.map_map]
      exact List.map_congr_left hdens
    simp only [Option.map_some', Option.getD_some, hmap, hfs]
  obtain ⟨r, hr, hrpos, hiff⟩ := getSecondLargest_lone nbB
    (fun e => e.2.toRat / ((plen b : ℚ) * (plen e.1 : ℚ))) (a, F64.fin q)
    (q / ((plen a : ℚ) * (plen b : ℚ))) f s (List.Nodup.of_map _ hndB) he0 hd0 hgpos htop
  -- the recomputed confidence of `(a, b)`
  have hconf : codeConfidence plen G a b =
      some (F64.fin (q / ((plen a : ℚ) * (plen b : ℚ)) / r)) := by
    unfold codeConfidence codeDensity
    rw [hab, htla, htlb, hr]
    simp only [Option.map_some', Option.some_bind,
      linkDensity_fin plen a b q (hlen a) (hlen b), F64.div, if_neg hrpos.ne']
  -- the recomputed confidence of `(b, a)`
  have hba : edgeWeight G b a = some (F64.fin q) := hsym _ hamem (b, F64.fin q) (by simp)
  have hswap : getSecondLargest [F64.fin f, F64.fin s]
      [F64.fin (q / ((plen a : ℚ) * (plen b : ℚ))), F64.fin 0] = some (F64.fin r) := by
    rw [← hr]
    unfold getSecondLargest
    rw [sortFloat64s_congr List.perm_append_comm]
  have hconf' : codeConfidence plen G b a =
      some (F64.fin (q / ((plen a : ℚ) * (plen b : ℚ)) / r)) := by
    unfold codeConfidence codeDensity
    rw [hba, htlb, htla, hswap]
    simp only [Option.map_some', Option.some_bind,
      linkDensity_fin plen b a q (hlen b) (hlen a), F64.div, if_neg hrpos.ne',
      mul_comm (plen b : ℚ)]
  rw [edgeWeight_makeConfidenceGraph plen G CG hwf hCG a b, hconf, Option.some_bind,
    edgeWeight_makeConfidenceGraph plen G CG hwf hCG b a, hconf', Option.some_bind]
  have hret : ((if F64.gt (F64.fin (q / ((plen a : ℚ) * (plen b : ℚ)) / r)) (F64.fin 1) = true
      then some (F64.fin (q / ((plen a : ℚ) * (plen b : ℚ)) / r)) else none).isSome = true) ↔
      r < q / ((plen a : ℚ) * (plen b : ℚ)) := by
    have h1 : F64.gt (F64.fin (q / ((plen a : ℚ) * (plen b : ℚ)) / r)) (F64.fin 1) = true ↔
        r < q / ((plen a : ℚ) * (plen b : ℚ)) := by
      simp only [F64.gt, F64.lt, decide_eq_true_eq]
      exact one_lt_div hrpos
    split
    · next h => simpa using h1.1 h
    · next h => simpa using fun h' => h (h1.2 h')
  rw [hret, hiff, and_self]
  -- the entries of the row of `b` are the edges at `b`
  have hkey : ∀ e ∈ nbB, e ≠ (a, F64.fin q) ↔ e.1 ≠ a := by
    intro e he
    constructor
    · intro hne hk
      apply hne
      have h1 := (lookup_eq_some_iff_mem hndB).2 (show (e.1, e.2) ∈ nbB from he)
      have h2 := (lookup_eq_some_iff_mem hndB).2 he0
      rw [hk, h2] at h1
      exact Prod.ext hk (Option.some.inj h1).symm
    · intro hk he'
      exact hk (by rw [he'])
  constructor
  · rintro ⟨⟨e, he, hne⟩, hall⟩
    refine ⟨⟨e.1, (hkey e he).1 hne, ?_⟩, ?_⟩
    · rw [edgeWeight_of_mem hwf hnbB (show (e.1, e.2) ∈ nbB from he)]; rfl
    · intro c w' hc hcw
      have hmem := mem_of_edgeWeight hwf hnbB hcw
      have := hall (c, w') hmem ((hkey _ hmem).2 hc)
      rw [hdens _ hmem, linkDensity_fin plen a b q (hlen a) (hlen b)]
      simpa [F64.lt] using this
  · rintro ⟨⟨c, hc, hsome⟩, hall⟩
    obtain ⟨w', hw'⟩ := Option.isSome_iff_exists.1 hsome
    have hmem := mem_of_edgeWeight hwf hnbB hw'
    refine ⟨⟨(c, w'), hmem, (hkey _ hmem).2 hc⟩, ?_⟩
    intro e he hne
    have := hall e.1 e.2 ((hkey e he).1 hne) (edgeWeight_of_mem hwf hnbB he)
    rw [hdens e he, linkDensity_fin plen a b q (hlen a) (hlen b)] at this
    simpa [F64.lt] using this

/-- With the path of node 1 of length 2, the link between the nodes 0 and 1 of
the example `starGraph` has density `6 / (1 × 2) = 3` and the link between the
nodes 0 and 2 has density 2: the first one is retained with confidence `3 / 2`
(with unit lengths the confidence is `6 / 2 = 3`). -/
theorem makeConfidenceGraph_exampleLength :
    makeConfidenceGraph exampleLength starGraph =
      some [(0, [(1, F64.fin (3 / 2))]), (1, [(0, F64.fin (3 / 2))])] ∧
    density exampleLength starGraph 0 1 = some (F64.fin 3) ∧
    density exampleLength starGraph 0 2 = some (F64.fin 2) ∧
    twoLargest exampleLength starGraph 0 = [F64.fin 3, F64.fin 2] ∧
    twoLargest exampleLength starGraph 1 = [F64.fin 3, F64.fin 0] ∧
    confidence exampleLength starGraph 0 1 = some (F64.fin (3 / 2)) ∧
    confidence exampleLength starGraph 0 2 = some (F64.fin 1) := by
  refine ⟨by with_unfolding_all decide, by with_unfolding_all decide,
    by with_unfolding_all decide, by with_unfolding_all decide, by with_unfolding_all decide,
    by with_unfolding_all decide, by with_unfolding_all decide⟩

/-- C5 on the graph in which node 0 is linked to node 1 (weight 6) and to node
2 (weight 2), the path of node 1 being of length 2 and the others of length
1. -/
theorem makeConfidenceGraph_retains_iff_witness :
    ∃ CG, makeConfidenceGraph exampleLength starGraph = some CG ∧
      (∀ a b w, edgeWeight CG a b = some w ↔
        (confidence exampleLength starGraph a b = some w ∧ F64.gt w (F64.fin 1) = true)) ∧
      (∀ a b w, edgeWeight CG a b = some w ↔
        ∃ weight secondLargest, edgeWeight starGraph a b = some weight ∧
          getSecondLargest (twoLargest exampleLength starGraph a)
            (twoLargest exampleLength starGraph b) = some secondLargest ∧
          w = F64.div
            (F64.div weight
              (F64.mul (F64.ofInt (exampleLength a)) (F64.ofInt (exampleLength b))))
            secondLargest ∧
          F64.gt w (F64.fin 1) = true) :=
  makeConfidenceGraph_retains_iff exampleLength starGraph
    (by unfold Graph.WF starGraph; decide)
    (by unfold Graph.Closed starGraph; decide)

/-- The amended C6 on the edge `(1, 0)` of the graph in which node 0 is linked
to node 1 (weight 6) and to node 2 (weight 2): node 1 has no other edge, node 0
has one, of smaller density. -/
theorem makeConfidenceGraph_lone_endpoint_witness :
    ∃ CG, makeConfidenceGraph unitLength starGraph = some CG ∧
      ((edgeWeight CG 1 0).isSome = true ↔
        ((∃ c, c ≠ 1 ∧ (edgeWeight starGraph 0 c).isSome = true) ∧
          ∀ c w', c ≠ 1 → edgeWeight starGraph 0 c = some w' →
            F64.lt (linkDensity unitLength 0 c w') (linkDensity unitLength 1 0 (F64.fin 6)) =
              true)) ∧
      ((edgeWeight CG 0 1).isSome = true ↔
        ((∃ c, c ≠ 1 ∧ (edgeWeight starGraph 0 c).isSome = true) ∧
          ∀ c w', c ≠ 1 → edgeWeight starGraph 0 c = some w' →
            F64.lt (linkDensity unitLength 0 c w') (linkDensity unitLength 1 0 (F64.fin 6)) =
              true)) :=
  makeConfidenceGraph_lone_endpoint unitLength starGraph
    (by unfold Graph.WF starGraph; decide)
    (by unfold Graph.Symmetric starGraph; with_unfolding_all decide)
    (by unfold Graph.PositiveWeights starGraph; with_unfolding_all decide)
    (fun _ => Int.one_pos) 1 0 (F64.fin 6) (by with_unfolding_all decide)

/-- C6 fails as stated: in the symmetric graph made of the single link between
nodes 0 and 1, of weight 1, each end of the edge `(0, 1)` has fewer than two
outgoing edges, and `makeConfidenceGraph` returns the empty graph: the
confidence of the edge is exactly 1 and the edge is dropped. -/
theorem makeConfidenceGraph_lone_endpoint_counterexample :
    Graph.WF pairGraph ∧ Graph.Symmetric pairGraph ∧ Graph.PositiveWeights pairGraph ∧
      List.lookup 0 pairGraph = some [(1, F64.fin 1)] ∧
      List.lookup 1 pairGraph = some [(0, F64.fin 1)] ∧
      confidence unitLength pairGraph 0 1 = some (F64.fin 1) ∧
      makeConfidenceGraph unitLength pairGraph = some [] := by
  refine ⟨by unfold Graph.WF pairGraph; decide,
    by unfold Graph.Symmetric pairGraph; with_unfolding_all decide,
    by unfold Graph.PositiveWeights pairGraph; with_unfolding_all decide,
    by with_unfolding_all decide, by with_unfolding_all decide,
    by with_unfolding_all decide, by with_unfolding_all decide⟩

/-! ### sortClusters -/

instance : IsTotal clusterLen clusterLen.before := ⟨fun x y => le_total y.length x.length⟩

instance : IsTrans clusterLen clusterLen.before :=
  ⟨fun _ _ _ (h₁ : _ ≤ _) (h₂ : _ ≤ _) => le_trans h₂ h₁⟩

/-- The length of a cluster whose members are contig indices. -/
theorem clusterLength_defined (contigs : List Contig) (cl : List Nat)
    (h : ∀ ci ∈ cl, ci < contigs.length) : ∃ len, clusterLength contigs cl = some len := by
  obtain ⟨lens, hlens⟩ := traverseOpt_of_defined
    (f := fun ci => (contigs[ci]?).map (fun contig => contig.length)) (l := cl) (by
      intro ci hci
      have hlt := h ci hci
      exact ⟨(contigs[ci]).length, by simp [List.getElem?_eq_getElem hlt]⟩)
  exact ⟨_, by unfold clusterLength; rw [hlens]; rfl⟩

/-- The content of the map left by `sortClusters`, when its clusters hold contig
indices: the clusters in some arrangement by decreasing length, numbered from
0. -/
theorem sortClusters_eq (rangeOrder : Clusters → Clusters) (hσ : IsRangeOrder rangeOrder)
    (contigs : List Contig) (clusters : Clusters)
    (hkeys : (clusters.map Prod.fst).Nodup)
    (hmem : ∀ c ∈ clusters, ∀ ci ∈ c.2, ci < contigs.length) :
    ∃ sorted : List (Int × List Nat),
      sortClusters rangeOrder contigs clusters =
        some (sorted.enum.map (fun ic => ((ic.1 : Int), ic.2.2))) ∧
      sorted.Perm clusters ∧
      List.Pairwise (fun x y => ∃ lx ly, clusterLength contigs x.2 = some lx ∧
        clusterLength contigs y.2 = some ly ∧ ly ≤ lx) sorted := by
  have hperm := hσ clusters
  have hdef : ∀ c ∈ rangeOrder clusters, ∃ len, clusterLength contigs c.2 = some len :=
    fun c hc => clusterLength_defined contigs c.2 (hmem c (hperm.subset hc))
  -- the slice `clusterLens`
  obtain ⟨clusterLens, hcl⟩ := traverseOpt_of_defined
    (f := fun (c : Int × List Nat) => (clusterLength contigs c.2).map
      (fun len => (⟨c.1, len⟩ : clusterLen))) (l := rangeOrder clusters) (by
      intro c hc
      obtain ⟨len, hlen⟩ := hdef c hc
      exact ⟨⟨c.1, len⟩, by simp only [hlen, Option.map_some']⟩)
  have hcl' : clusterLens = (rangeOrder clusters).map
      (fun c => (⟨c.1, (clusterLength contigs c.2).getD 0⟩ : clusterLen)) := by
    refine traverseOpt_eq_map _ hcl ?_
    intro c _ y hy
    cases hlen : clusterLength contigs c.2 with
    | none => simp [hlen] at hy
    | some len =>
      simp only [hlen, Option.map_some', Option.some.injEq] at hy
      simp [← hy]
  have hsperm := List.perm_insertionSort clusterLen.before clusterLens
  have hssorted := List.sorted_insertionSort clusterLen.before clusterLens
  -- every element of the sorted slice comes from an entry of the map
  have hfrom : ∀ cl ∈ List.insertionSort clusterLen.before clusterLens,
      ∃ members, List.lookup cl.cID clusters = some members ∧
        clusterLength contigs members = some cl.length := by
    intro cl hcl0
    have hcl1 : cl ∈ clusterLens := hsperm.subset hcl0
    rw [hcl'] at hcl1
    obtain ⟨c, hc, rfl⟩ := List.mem_map.1 hcl1
    obtain ⟨len, hlen⟩ := hdef c hc
    refine ⟨c.2, (lookup_eq_some_iff_mem hkeys).2 (hperm.subset hc), ?_⟩
    simp [hlen]
  refine ⟨(List.insertionSort clusterLen.before clusterLens).map
    (fun cl => (cl.cID, (List.lookup cl.cID clusters).getD [])), ?_, ?_, ?_⟩
  · unfold sortClusters
    rw [hcl, Option.map_some', List.enum_map, List.map_map]
    rfl
  · have h1 : ((List.insertionSort clusterLen.before clusterLens).map
        (fun cl => (cl.cID, (List.lookup cl.cID clusters).getD []))).Perm
        (clusterLens.map (fun cl => (cl.cID, (List.lookup cl.cID clusters).getD []))) :=
      hsperm.map _
    refine h1.trans ?_
    rw [hcl', List.map_map]
    have h2 : (rangeOrder clusters).map ((fun (cl : clusterLen) =>
        (cl.cID, (List.lookup cl.cID clusters).getD [])) ∘
        (fun c => (⟨c.1, (clusterLength contigs c.2).getD 0⟩ : clusterLen))) =
        (rangeOrder clusters).map id := by
      apply List.map_congr_left
      intro c hc
      have := (lookup_eq_some_iff_mem hkeys).2 (show (c.1, c.2) ∈ clusters from hperm.subset hc)
      simp [this]
    rw [h2, List.map_id]
    exact hperm
  · rw [List.pairwise_map]
    refine List.Pairwise.imp_of_mem ?_ hssorted
    intro x y hx hy hxy
    obtain ⟨mx, hmx, hlx⟩ := hfrom x hx
    obtain ⟨my, hmy, hly⟩ := hfrom y hy
    exact ⟨x.length, y.length, by simp [hmx, hlx], by simp [hmy, hly], hxy⟩

theorem wrapInt_eq {x : Int} (h0 : -(2 ^ 63) ≤ x) (h1 : x < 2 ^ 63) : wrapInt x = x := by
  unfold wrapInt
  norm_num at h0 h1 ⊢
  omega

theorem wrapInt_add (x y : Int) : wrapInt (wrapInt x + y) = wrapInt (x + y) := by
  unfold wrapInt
  norm_num
  omega

/-- The additions of `sortClusters`: whatever wraps around on the way, the
result is the sum of the lengths wrapped around once. -/
theorem foldl_wrapInt_eq_sum (lens : List Int) :
    ∀ acc : Int, lens.foldl (fun total len => wrapInt (total + len)) (wrapInt acc) =
      wrapInt (acc + lens.sum) := by
  induction lens with
  | nil => intro acc; simp
  | cons x rest ih =>
    intro acc
    rw [List.foldl_cons, wrapInt_add, ih (acc + x), List.sum_cons, add_assoc]

/-- C3, as the code has it: after `sortClusters` on a map of `M` clusters of
contig indices, when the total member length of every cluster is a value of the
64-bit type `int` (at least `-2^63` and below `2^63`, so that the sum the code
computes is not wrapped around), the keys of `r.clusters` are `0, …, M-1`, the clusters are those of the
map before sorting in another arrangement, and for keys `i < j` the total
member length of cluster `i`, the sum of the lengths of its member contigs, is
at least that of cluster `j`. -/
theorem sortClusters_sorted (rangeOrder : Clusters → Clusters) (hσ : IsRangeOrder rangeOrder)
    (contigs : List Contig) (clusters : Clusters)
    (hkeys : (clusters.map Prod.fst).Nodup)
    (hmem : ∀ c ∈ clusters, ∀ ci ∈ c.2, ci < contigs.length)
    (hbound : ∀ c ∈ clusters,
      -(2 ^ 63) ≤ totalLength contigs c.2 ∧ totalLength contigs c.2 < 2 ^ 63) :
    ∃ out, sortClusters rangeOrder contigs clusters = some out ∧
      out.map Prod.fst = (List.range clusters.length).map (fun i : Nat => (i : Int)) ∧
      (out.map Prod.snd).Perm (clusters.map Prod.snd) ∧
      List.Pairwise (fun x y => x.1 < y.1 ∧
        totalLength contigs y.2 ≤ totalLength contigs x.2) out := by
  obtain ⟨sorted, hout, hperm, hsorted⟩ := sortClusters_eq rangeOrder hσ contigs clusters hkeys hmem
  refine ⟨_, hout, ?_, ?_, ?_⟩
  · rw [List.map_map, ← hperm.length_eq]
    have : ((Prod.fst : Int × List Nat → Int) ∘ fun (ic : Nat × (Int × List Nat)) =>
        ((ic.1 : Int), ic.2.2)) = (fun i : Nat => (i : Int)) ∘ Prod.fst := rfl
    rw [this, ← List.map_map, List.enum_map_fst]
  · rw [List.map_map]
    have : ((Prod.snd : Int × List Nat → List Nat) ∘ fun (ic : Nat × (Int × List Nat)) =>
        ((ic.1 : Int), ic.2.2)) = Prod.snd ∘ Prod.snd := rfl
    rw [this, ← List.map_map, List.enum_map_snd]
    exact hperm.map _
  · rw [List.pairwise_map]
    have h1 : List.Pairwise (fun (x y : Nat × (Int × List Nat)) => x.1 < y.1) sorted.enum := by
      have := List.pairwise_lt_range sorted.length
      rw [← List.enum_map_fst, List.pairwise_map] at this
      exact this
    -- the length that the code computes for a cluster is its total member length
    have hlen : ∀ c ∈ clusters, clusterLength contigs c.2 = some (totalLength contigs c.2) := by
      intro c hc
      obtain ⟨lens, hlens⟩ := traverseOpt_of_defined
        (f := fun ci => (contigs[ci]?).map (fun contig => contig.length)) (l := c.2) (by
          intro ci hci
          have hlt := hmem c hc ci hci
          exact ⟨(contigs[ci]).length, by simp [List.getElem?_eq_getElem hlt]⟩)
      have hlens' : lens = c.2.map
          (fun ci => ((contigs[ci]?).map (fun contig => contig.length)).getD 0) := by
        refine traverseOpt_eq_map _ hlens ?_
        intro ci _ y hy
        rw [hy]; rfl
      have hsum : lens.sum = totalLength contigs c.2 := by rw [hlens']; rfl
      have hzero : wrapInt 0 = 0 := by decide
      have hfold := foldl_wrapInt_eq_sum lens 0
      rw [hzero, zero_add, hsum, wrapInt_eq (hbound c hc).1 (hbound c hc).2] at hfold
      unfold clusterLength
      rw [hlens, Option.map_some', hfold]
    have hsorted' : List.Pairwise (fun (x y : Int × List Nat) =>
        totalLength contigs y.2 ≤ totalLength contigs x.2) sorted := by
      refine List.Pairwise.imp_of_mem ?_ hsorted
      rintro x y hx hy ⟨lx, ly, hlx, hly, hle⟩
      rw [hlen x (hperm.subset hx)] at hlx
      rw [hlen y (hperm.subset hy)] at hly
      rw [← Option.some.inj hlx, ← Option.some.inj hly] at hle
      exact hle
    have h2 : List.Pairwise (fun (x y : Nat × (Int × List Nat)) =>
        totalLength contigs y.2.2 ≤ totalLength contigs x.2.2) sorted.enum := by
      have := hsorted'
      rw [← List.enum_map_snd sorted, List.pairwise_map] at this
      exact this
    refine (h1.and h2).imp ?_
    rintro x y ⟨hlt, h⟩
    exact ⟨Int.ofNat_lt.2 hlt, h⟩

/-! ### The arrays of Cluster -/

theorem setAt_eq {α : Type} {xs : List α} {i : Nat} (v : α) (h : i < xs.length) :
    setAt xs i v = some (xs.set i v) := by
  unfold setAt; rw [if_pos h]

theorem lt_length_of_getElem? {α : Type} {xs : List α} {i : Nat} {v : α}
    (h : xs[i]? = some v) : i < xs.length := by
  by_contra hc
  rw [List.getElem?_eq_none (not_lt.1 hc)] at h
  cases h

theorem count_true_set_false {l : List Bool} {i : Nat} (h : l[i]? = some true) :
    (l.set i false).count true + 1 = l.count true := by
  have hlt := lt_length_of_getElem? h
  have hi : l[i] = true := by
    rw [List.getElem?_eq_getElem hlt] at h; exact Option.some.inj h
  have hpos : 0 < l.count true := List.count_pos_iff.2 (hi ▸ List.getElem_mem hlt)
  rw [List.count_set false true l i hlt, hi]
  simp only [beq_self_eq_true, if_true]
  have : ((false == true) = true) = False := by simp
  simp only [this, if_false]
  omega

theorem count_true_set_true {l : List Bool} {i : Nat} (h : l[i]? = some false) :
    (l.set i true).count true = l.count true + 1 := by
  have hlt := lt_length_of_getElem? h
  have hi : l[i] = false := by
    rw [List.getElem?_eq_getElem hlt] at h; exact Option.some.inj h
  rw [List.count_set true true l i hlt, hi]
  simp

theorem getElem?_set_ne' {α : Type} {l : List α} {i j : Nat} (v : α) (h : i ≠ j) :
    (l.set i v)[j]? = l[j]? := by
  rw [List.getElem?_set, if_neg h]

theorem getElem?_set_self' {α : Type} {l : List α} {i : Nat} (v : α) (h : i < l.length) :
    (l.set i v)[i]? = some v := by
  rw [List.getElem?_set, if_pos rfl, if_pos h]

/-- Two distinct clusters flagged existent: at least two flags are set. -/
theorem two_le_count_true {l : List Bool} {a b : Nat} (ha : l[a]? = some true)
    (hb : l[b]? = some true) (hab : a ≠ b) : 2 ≤ l.count true := by
  have h1 := count_true_set_false ha
  have hb' : (l.set a false)[b]? = some true := by rw [getElem?_set_ne' _ hab]; exact hb
  have hlt := lt_length_of_getElem? hb'
  have hmem : true ∈ l.set a false := by
    have : (l.set a false)[b] = true := by
      rw [List.getElem?_eq_getElem hlt] at hb'; exact Option.some.inj hb'
    exact this ▸ List.getElem_mem hlt
  have := List.count_pos_iff.2 hmem
  omega

/-! ### The state on entry of the merge loop -/

theorem initState_clusterID (MinAvgLinkage : Int) (contigs : List Contig)
    (G : Nat → Nat → Int) (i : Nat) :
    (initState MinAvgLinkage contigs G).clusterID[i]? =
      (contigs[i]?).map (fun c => if c.skip then -1 else (i : Int)) := by
  simp only [initState, List.getElem?_map, List.getElem?_enum, Option.map_map]
  rfl

theorem initState_exists_lt (MinAvgLinkage : Int) (contigs : List Contig)
    (G : Nat → Nat → Int) {i : Nat} (hi : i < contigs.length) :
    (initState MinAvgLinkage contigs G).clusterExists[i]? = some (!skipAt contigs i) := by
  simp only [initState, skipAt]
  rw [List.getElem?_append_left (by simpa using hi), List.getElem?_map,
    List.getElem?_eq_getElem hi]
  rfl

theorem initState_exists_true (MinAvgLinkage : Int) (contigs : List Contig)
    (G : Nat → Nat → Int) {k : Nat}
    (h : (initState MinAvgLinkage contigs G).clusterExists[k]? = some true) :
    k < contigs.length := by
  by_contra hc
  have hk : contigs.length ≤ k := not_lt.1 hc
  simp only [initState] at h
  rw [List.getElem?_append_right (by simpa using hk)] at h
  rw [List.getElem?_replicate] at h
  split at h <;> cases h

theorem initState_inv (MinAvgLinkage : Int) (contigs : List Contig) (G : Nat → Nat → Int) :
    ClusterInv contigs (initState MinAvgLinkage contigs G) where
  lenID := by simp [initState]
  lenSize := by simp [initState]; omega
  lenExists := by simp [initState]; omega
  bound := by
    simp only [initState, List.count_append, List.count_replicate, zero_add]
    have := List.count_le_length true (contigs.map (fun c => !c.skip))
    simp only [List.length_map] at this
    simp
    exact this
  fresh := fun k h => by
    have := initState_exists_true MinAvgLinkage contigs G h
    simp only [initState]; omega
  ids := fun i c h => by
    rw [initState_clusterID] at h
    cases hc : contigs[i]? with
    | none => rw [hc] at h; cases h
    | some contig =>
      rw [hc] at h
      simp only [Option.map_some', Option.some.injEq] at h
      have hi := lt_length_of_getElem? hc
      by_cases hs : contig.skip = true
      · left; rw [if_pos hs] at h; exact h.symm
      · right
        rw [if_neg hs] at h
        subst h
        refine ⟨Int.ofNat_nonneg i, ?_⟩
        rw [Int.toNat_ofNat, initState_exists_lt MinAvgLinkage contigs G hi]
        simp [skipAt, hc, hs]
  skipped := fun i c h => by
    rw [initState_clusterID] at h
    cases hc : contigs[i]? with
    | none => rw [hc] at h; cases h
    | some contig =>
      rw [hc] at h
      simp only [Option.map_some', Option.some.injEq] at h
      by_cases hs : contig.skip = true
      · rw [if_pos hs] at h; simp [skipAt, hc, hs, ← h]
      · rw [if_neg hs] at h
        subst h
        simp only [skipAt, hc, hs, Bool.false_eq_true, iff_false]
        omega
  own := fun i c h => by
    rw [initState_clusterID] at h
    cases hc : contigs[i]? with
    | none => rw [hc] at h; cases h
    | some contig =>
      rw [hc] at h
      simp only [Option.map_some', Option.some.injEq] at h
      by_cases hs : contig.skip = true
      · left; rw [if_pos hs] at h; exact h.symm
      · right; left; rw [if_neg hs] at h; exact h.symm

theorem initState_cand (MinAvgLinkage : Int) (contigs : List Contig) (G : Nat → Nat → Int) :
    CandInv (initState MinAvgLinkage contigs G) := by
  intro m hm
  simp only [initState, seedMerges, List.mem_flatMap, List.mem_range] at hm
  obtain ⟨i, hi, hm⟩ := hm
  by_cases hs : skipAt contigs i = true
  · rw [if_pos hs] at hm; simp at hm
  · rw [if_neg hs] at hm
    simp only [List.mem_map, List.mem_filter, List.mem_range', Bool.and_eq_true,
      Bool.not_eq_true', decide_eq_true_eq] at hm
    obtain ⟨j, ⟨⟨k, hk, hj⟩, hsj, _⟩, rfl⟩ := hm
    have hjlt : j < contigs.length := by omega
    refine ⟨by simp only; omega, ?_, ?_⟩
    · rw [initState_exists_lt MinAvgLinkage contigs G hi]; simp [hs]
    · rw [initState_exists_lt MinAvgLinkage contigs G hjlt]; simp [hsj]

/-! ### The parts of a round of the merge loop -/

theorem findBestMerge_mem (first : merge) (merges : List merge) :
    findBestMerge first merges = first ∨ findBestMerge first merges ∈ merges := by
  unfold findBestMerge
  induction merges generalizing first with
  | nil => left; rfl
  | cons m rest ih =>
    simp only [List.foldl_cons]
    split
    · rcases ih m with h | h
      · right; rw [h]; exact List.mem_cons_self _ _
      · right; exact List.mem_cons_of_mem _ h
    · rcases ih first with h | h
      · left; exact h
      · right; exact List.mem_cons_of_mem _ h

/-- The candidates that survive a merge, when no index is out of range. -/
theorem keepLive_eq {clusterExists : List Bool} {merges : List merge}
    (h : ∀ m ∈ merges, m.a < clusterExists.length ∧ m.b < clusterExists.length) :
    keepLive clusterExists merges = some (merges.filter
      (fun m => clusterExists[m.a]? == some true && clusterExists[m.b]? == some true)) := by
  induction merges with
  | nil => rfl
  | cons m rest ih =>
    have hm := h m (List.mem_cons_self _ _)
    have ih' := ih (fun m' hm' => h m' (List.mem_cons_of_mem _ hm'))
    have ha : clusterExists[m.a]? = some clusterExists[m.a] := List.getElem?_eq_getElem hm.1
    have hb : clusterExists[m.b]? = some clusterExists[m.b] := List.getElem?_eq_getElem hm.2
    simp only [keepLive, List.filter_cons]
    rw [ha, hb]
    cases clusterExists[m.a] <;> cases clusterExists[m.b] <;> simp [ih']

theorem addAt_eq {total : List Int} {cID : Int} (x : Int) (h0 : 0 ≤ cID)
    (h : cID.toNat < total.length) :
    addAt total cID x = some (total.set cID.toNat (total.getD cID.toNat 0 + x)) := by
  unfold addAt; rw [if_pos ⟨h0, h⟩]

theorem addLinkages_spec (G : Nat → Nat → Int) (i : Nat) (cID : Int) (h0 : 0 ≤ cID) :
    ∀ (newCluster : List Nat) (total : List Int), cID.toNat < total.length →
      ∃ total', addLinkages G i cID newCluster total = some total' ∧
        total'.length = total.length ∧ ∀ k : Nat, k ≠ cID.toNat → total'[k]? = total[k]? := by
  intro newCluster
  induction newCluster with
  | nil => intro total _; exact ⟨total, rfl, rfl, fun _ _ => rfl⟩
  | cons j js ih =>
    intro total h
    obtain ⟨t, ht, hlen, hk⟩ := ih (total.set cID.toNat (total.getD cID.toNat 0 + G i j))
      (by rw [List.length_set]; exact h)
    refine ⟨t, ?_, by rw [hlen, List.length_set], ?_⟩
    · simp only [addLinkages, addAt_eq _ h0 h]; exact ht
    · intro k hne
      rw [hk k hne, getElem?_set_ne' _ (Ne.symm hne)]

/-- The array `totalLinkageByCluster` differs from its initial value only at
the cluster ids of contigs outside the new cluster that are not skipped. -/
theorem totalLinkageLoop_spec (G : Nat → Nat → Int) (newClusterID : Nat)
    (newCluster : List Nat) :
    ∀ (l : List (Nat × Int)) (total : List Int),
      (∀ ic ∈ l, ic.2 = newClusterID ∨ ic.2 = -1 ∨ (0 ≤ ic.2 ∧ ic.2.toNat < total.length)) →
      ∃ total', totalLinkageLoop G newClusterID newCluster l total = some total' ∧
        total'.length = total.length ∧
        ∀ k : Nat, total'[k]? ≠ total[k]? →
          ∃ ic ∈ l, ic.2 = (k : Int) ∧ ic.2 ≠ newClusterID ∧ ic.2 ≠ -1 := by
  intro l
  induction l with
  | nil => intro total _; exact ⟨total, rfl, rfl, fun k hk => absurd rfl hk⟩
  | cons ic rest ih =>
    intro total h
    obtain ⟨i, cID⟩ := ic
    have hrest : ∀ total' : List Int, total'.length = total.length →
        ∀ ic ∈ rest, ic.2 = newClusterID ∨ ic.2 = -1 ∨ (0 ≤ ic.2 ∧ ic.2.toNat < total'.length) :=
      fun total' hl ic hic => hl ▸ h ic (List.mem_cons_of_mem _ hic)
    by_cases h1 : cID = newClusterID
    · obtain ⟨t, ht, hlen, hk⟩ := ih total (hrest total rfl)
      refine ⟨t, by simp only [totalLinkageLoop, if_pos h1]; exact ht, hlen, ?_⟩
      intro k hne
      obtain ⟨ic, hic, h'⟩ := hk k hne
      exact ⟨ic, List.mem_cons_of_mem _ hic, h'⟩
    · by_cases h2 : cID = -1
      · obtain ⟨t, ht, hlen, hk⟩ := ih total (hrest total rfl)
        refine ⟨t, by simp only [totalLinkageLoop, if_neg h1, if_pos h2]; exact ht, hlen, ?_⟩
        intro k hne
        obtain ⟨ic, hic, h'⟩ := hk k hne
        exact ⟨ic, List.mem_cons_of_mem _ hic, h'⟩
      · have hc := h (i, cID) (List.mem_cons_self _ _)
        simp only [h1, h2, false_or] at hc
        obtain ⟨t1, ht1, hlen1, hk1⟩ := addLinkages_spec G i cID hc.1 newCluster total hc.2
        obtain ⟨t, ht, hlen, hk⟩ := ih t1 (hrest t1 hlen1)
        refine ⟨t, ?_, by rw [hlen, hlen1], ?_⟩
        · simp only [totalLinkageLoop, if_neg h1, if_neg h2, ht1]; exact ht
        · intro k hne
          by_cases hkc : k = cID.toNat
          · refine ⟨(i, cID), List.mem_cons_self _ _, ?_, h1, h2⟩
            simp only [hkc, Int.toNat_of_nonneg hc.1]
          · have : t[k]? ≠ t1[k]? := by rw [hk1 k hkc]; exact hne
            obtain ⟨ic, hic, h'⟩ := hk k this
            exact ⟨ic, List.mem_cons_of_mem _ hic, h'⟩

theorem mem_newCandidates {MinAvgLinkage : Int} {N newClusterID : Nat}
    {clusterSize totalLinkageByCluster : List Int} {m : merge}
    (h : m ∈ newCandidates MinAvgLinkage N newClusterID clusterSize totalLinkageByCluster) :
    ∃ i, i < 2 * N ∧ 0 < totalLinkageByCluster.getD i 0 ∧
      m.a = min i newClusterID ∧ m.b = max i newClusterID := by
  unfold newCandidates at h
  obtain ⟨i, hi, hm⟩ := List.mem_filterMap.1 h
  refine ⟨i, List.mem_range.1 hi, ?_⟩
  by_cases h1 : totalLinkageByCluster.getD i 0 ≤ 0
  · rw [if_pos h1] at hm; cases hm
  · rw [if_neg h1] at hm
    simp only at hm
    split at hm
    · cases hm
    · cases hm
      exact ⟨not_le.1 h1, rfl, rfl⟩

/-! ### A round of the merge loop keeps the invariant -/

/-- A round of the merge loop on a state that satisfies the invariants does not
panic, leaves a state that satisfies the invariant of the arrays, and the
invariant of the candidate list unless the round ended on `break`; and it leaves
one existent cluster less. -/
theorem mergeStep_inv (MinAvgLinkage : Int) (contigs : List Contig) (G : Nat → Nat → Int)
    (K : Int) (st : ClusterState) (first : merge) (hfirst : first ∈ st.merges)
    (hinv : ClusterInv contigs st) (hcand : CandInv st) :
    ∃ st' done, mergeStep MinAvgLinkage contigs.length G K st first = some (st', done) ∧
      ClusterInv contigs st' ∧ (done = false → CandInv st') ∧
      st'.clusterExists.count true + 1 = st.clusterExists.count true := by
  obtain ⟨bm, hbmdef⟩ : ∃ bm, bm = findBestMerge first st.merges := ⟨_, rfl⟩
  have hbm : bm ∈ st.merges := by
    rcases findBestMerge_mem first st.merges with h | h
    · rw [hbmdef, h]; exact hfirst
    · rw [hbmdef]; exact h
  obtain ⟨hab, hea, heb⟩ := hcand bm hbm
  have hcount := two_le_count_true hea heb (ne_of_lt hab)
  have hbound := hinv.bound
  have hlenE := hinv.lenExists
  have ha_lt : bm.a < contigs.length + st.nMerges := hinv.fresh _ hea
  have hb_lt : bm.b < contigs.length + st.nMerges := hinv.fresh _ heb
  have hnew_lt : contigs.length + st.nMerges < st.clusterExists.length := by omega
  have hnew_false : st.clusterExists[contigs.length + st.nMerges]? = some false := by
    rw [List.getElem?_eq_getElem hnew_lt]
    cases hv : st.clusterExists[contigs.length + st.nMerges] with
    | false => rfl
    | true =>
      have := hinv.fresh (contigs.length + st.nMerges)
        (by rw [List.getElem?_eq_getElem hnew_lt, hv])
      omega
  -- the array `clusterExists` after the three assignments
  obtain ⟨e1, he1⟩ : ∃ e1, e1 = st.clusterExists.set bm.a false := ⟨_, rfl⟩
  obtain ⟨e2, he2⟩ : ∃ e2, e2 = e1.set bm.b false := ⟨_, rfl⟩
  obtain ⟨e3, he3⟩ : ∃ e3, e3 = e2.set (contigs.length + st.nMerges) true := ⟨_, rfl⟩
  have hl1 : e1.length = st.clusterExists.length := by rw [he1, List.length_set]
  have hl2 : e2.length = st.clusterExists.length := by rw [he2, List.length_set, hl1]
  have hl3 : e3.length = st.clusterExists.length := by rw [he3, List.length_set, hl2]
  have hs1 : setAt st.clusterExists bm.a false = some e1 := by
    rw [he1]; exact setAt_eq _ (lt_length_of_getElem? hea)
  have hs2 : setAt e1 bm.b false = some e2 := by
    rw [he2]; exact setAt_eq _ (by rw [hl1]; exact lt_length_of_getElem? heb)
  have hs3 : setAt e2 (contigs.length + st.nMerges) true = some e3 := by
    rw [he3]; exact setAt_eq _ (by rw [hl2]; exact hnew_lt)
  have h1b : e1[bm.b]? = some true := by
    rw [he1, getElem?_set_ne' _ (ne_of_lt hab)]; exact heb
  have h2n : e2[contigs.length + st.nMerges]? = some false := by
    rw [he2, getElem?_set_ne' _ (ne_of_lt hb_lt), he1, getElem?_set_ne' _ (ne_of_lt ha_lt)]
    exact hnew_false
  have hc1 : e1.count true + 1 = st.clusterExists.count true := by
    rw [he1]; exact count_true_set_false hea
  have hc2 : e2.count true + 1 = e1.count true := by
    rw [he2]; exact count_true_set_false h1b
  have hc3 : e3.count true = e2.count true + 1 := by
    rw [he3]; exact count_true_set_true h2n
  have hF1 : e3[contigs.length + st.nMerges]? = some true := by
    rw [he3]; exact getElem?_set_self' _ (by rw [hl2]; exact hnew_lt)
  have hF2 : ∀ k : Nat, k ≠ bm.a → k ≠ bm.b → st.clusterExists[k]? = some true →
      e3[k]? = some true := by
    intro k hka hkb hk
    by_cases hkn : k = contigs.length + st.nMerges
    · rw [hkn]; exact hF1
    · rw [he3, getElem?_set_ne' _ (Ne.symm hkn), he2, getElem?_set_ne' _ (Ne.symm hkb), he1,
        getElem?_set_ne' _ (Ne.symm hka)]
      exact hk
  have hF3 : ∀ k : Nat, e3[k]? = some true → k = contigs.length + st.nMerges ∨
      (st.clusterExists[k]? = some true ∧ k ≠ bm.a ∧ k ≠ bm.b) := by
    intro k hk
    by_cases hkn : k = contigs.length + st.nMerges
    · left; exact hkn
    · right
      rw [he3, getElem?_set_ne' _ (Ne.symm hkn)] at hk
      by_cases hkb : k = bm.b
      · rw [he2, hkb, getElem?_set_self' _ (by rw [hl1]; exact lt_length_of_getElem? heb)] at hk
        cases hk
      · rw [he2, getElem?_set_ne' _ (Ne.symm hkb)] at hk
        by_cases hka : k = bm.a
        · rw [he1, hka, getElem?_set_self' _ (lt_length_of_getElem? hea)] at hk
          cases hk
        · rw [he1, getElem?_set_ne' _ (Ne.symm hka)] at hk
          exact ⟨hk, hka, hkb⟩
  -- the array `clusterSize`
  have hlenS := hinv.lenSize
  obtain ⟨sizeA, hsA⟩ : ∃ v, st.clusterSize[bm.a]? = some v :=
    ⟨_, List.getElem?_eq_getElem (by omega)⟩
  obtain ⟨sizeB, hsB⟩ : ∃ v, st.clusterSize[bm.b]? = some v :=
    ⟨_, List.getElem?_eq_getElem (by omega)⟩
  have hs4 : setAt st.clusterSize (contigs.length + st.nMerges) (sizeA + sizeB) =
      some (st.clusterSize.set (contigs.length + st.nMerges) (sizeA + sizeB)) :=
    setAt_eq _ (by omega)
  -- the array `clusterID`
  obtain ⟨cid, hcid⟩ : ∃ cid, cid = st.clusterID.map (fun c =>
      if (decide (c = (bm.a : Int)) || decide (c = (bm.b : Int))) = true
      then ((contigs.length + st.nMerges : Nat) : Int) else c) := ⟨_, rfl⟩
  have hcidget : ∀ (i : Nat) (c : Int), cid[i]? = some c → ∃ c0, st.clusterID[i]? = some c0 ∧
      ((c0 = (bm.a : Int) ∨ c0 = (bm.b : Int)) ∧ c = ((contigs.length + st.nMerges : Nat) : Int)
        ∨ (c0 ≠ (bm.a : Int) ∧ c0 ≠ (bm.b : Int) ∧ c = c0)) := by
    intro i c h
    rw [hcid, List.getElem?_map] at h
    cases h0 : st.clusterID[i]? with
    | none => rw [h0] at h; cases h
    | some c0 =>
      rw [h0] at h
      simp only [Option.map_some', Option.some.injEq, Bool.or_eq_true, decide_eq_true_eq] at h
      refine ⟨c0, rfl, ?_⟩
      by_cases hm : c0 = (bm.a : Int) ∨ c0 = (bm.b : Int)
      · left; rw [if_pos hm] at h; exact ⟨hm, h.symm⟩
      · right; rw [if_neg hm] at h
        exact ⟨fun e => hm (Or.inl e), fun e => hm (Or.inr e), h.symm⟩
  have hids : ∀ (i : Nat) (c : Int), cid[i]? = some c →
      c = -1 ∨ (0 ≤ c ∧ e3[c.toNat]? = some true) := by
    intro i c h
    obtain ⟨c0, h0, hc⟩ := hcidget i c h
    rcases hc with ⟨_, rfl⟩ | ⟨hna, hnb, rfl⟩
    · right
      exact ⟨Int.ofNat_nonneg _, by rw [Int.toNat_ofNat]; exact hF1⟩
    · rcases hinv.ids i c h0 with h1 | ⟨h1, h2⟩
      · left; exact h1
      · right
        refine ⟨h1, hF2 _ ?_ ?_ h2⟩
        · intro e; exact hna (by rw [← e, Int.toNat_of_nonneg h1])
        · intro e; exact hnb (by rw [← e, Int.toNat_of_nonneg h1])
  -- the candidates
  have hkeep := @keepLive_eq e3 st.merges (by
    intro m hm
    obtain ⟨_, h1, h2⟩ := hcand m hm
    rw [hl3]
    exact ⟨lt_length_of_getElem? h1, lt_length_of_getElem? h2⟩)
  obtain ⟨total, htotal, hlenT, htot⟩ := totalLinkageLoop_spec G (contigs.length + st.nMerges)
    ((st.clusterID.enum.filter (fun ic =>
      decide (ic.2 = (bm.a : Int)) || decide (ic.2 = (bm.b : Int)))).map Prod.fst)
    cid.enum (List.replicate (2 * contigs.length) 0) (by
      intro ic hic
      have hget : cid[ic.1]? = some ic.2 := List.mem_enum_iff_getElem?.1 hic
      rcases hids ic.1 ic.2 hget with h | ⟨h1, h2⟩
      · right; left; exact h
      · right; right
        refine ⟨h1, ?_⟩
        have := lt_length_of_getElem? h2
        rw [List.length_replicate]
        omega)
  refine ⟨⟨cid, st.clusterSize.set (contigs.length + st.nMerges) (sizeA + sizeB), e3,
    st.nonSingletonClusters + (if bm.a < contigs.length then 1 else 0)
      + (if bm.b < contigs.length then 1 else 0) - 1,
    if (decide (st.nMerges + 1 > contigs.length / 2) &&
        decide (st.nonSingletonClusters + (if bm.a < contigs.length then 1 else 0)
          + (if bm.b < contigs.length then 1 else 0) - 1 = K)) = true
    then st.merges
    else st.merges.filter (fun m => e3[m.a]? == some true && e3[m.b]? == some true) ++
      newCandidates MinAvgLinkage contigs.length (contigs.length + st.nMerges)
        (st.clusterSize.set (contigs.length + st.nMerges) (sizeA + sizeB)) total,
    st.nMerges + 1⟩,
    decide (st.nMerges + 1 > contigs.length / 2) &&
        decide (st.nonSingletonClusters + (if bm.a < contigs.length then 1 else 0)
          + (if bm.b < contigs.length then 1 else 0) - 1 = K), ?_, ?_, ?_, ?_⟩
  · unfold mergeStep
    simp only []
    rw [← hbmdef, hs1, Option.some_bind, hs2, Option.some_bind, hs3, Option.some_bind, hsA,
      Option.some_bind, hsB, Option.some_bind, hs4, Option.some_bind, hkeep, Option.some_bind,
      ← hcid, htotal, Option.some_bind]
  · exact {
      lenID := by simp only [hcid, List.length_map]; exact hinv.lenID
      lenSize := by simp only [List.length_set]; exact hinv.lenSize
      lenExists := by simp only [hl3]; exact hinv.lenExists
      bound := by simp only; omega
      fresh := by
        intro k hk
        simp only at hk ⊢
        rcases hF3 k hk with h | ⟨h, _, _⟩
        · omega
        · have := hinv.fresh k h; omega
      ids := hids
      skipped := by
        intro i c h
        simp only at h
        obtain ⟨c0, h0, hc⟩ := hcidget i c h
        rw [← hinv.skipped i c0 h0]
        rcases hc with ⟨hm, rfl⟩ | ⟨_, _, rfl⟩
        · constructor
          · intro e; omega
          · intro e; rcases hm with hm | hm <;> omega
        · rfl
      own := by
        intro i c h
        simp only at h
        obtain ⟨c0, h0, hc⟩ := hcidget i c h
        rcases hc with ⟨_, rfl⟩ | ⟨_, _, rfl⟩
        · right; right; push_cast; omega
        · exact hinv.own i c h0 }
  · intro hdone m hm
    simp only [hdone, Bool.false_eq_true, if_false] at hm ⊢
    rcases List.mem_append.1 hm with hm | hm
    · obtain ⟨hm1, hm2⟩ := List.mem_filter.1 hm
      simp only [Bool.and_eq_true, beq_iff_eq] at hm2
      exact ⟨(hcand m hm1).1, hm2.1, hm2.2⟩
    · obtain ⟨i, hi, hpos, hma, hmb⟩ := mem_newCandidates hm
      have hne : total[i]? ≠ (List.replicate (2 * contigs.length) (0 : Int))[i]? := by
        intro e
        rw [List.getD_eq_getElem?_getD, e, List.getElem?_replicate, if_pos hi] at hpos
        simp at hpos
      obtain ⟨ic, hic, hk, hn1, hn2⟩ := htot i hne
      have hget : cid[ic.1]? = some ic.2 := List.mem_enum_iff_getElem?.1 hic
      rcases hids ic.1 ic.2 hget with h | ⟨_, h2⟩
      · exact absurd h hn2
      · rw [hk, Int.toNat_ofNat] at h2
        rcases hF3 i h2 with h | ⟨h, _, _⟩
        · exact absurd (by rw [hk, h]) hn1
        · have hlt := hinv.fresh i h
          rw [hma, hmb, min_eq_left hlt.le, max_eq_right hlt.le]
          exact ⟨hlt, h2, hF1⟩
  · simp only; omega

/-! ### The merge loop ends -/

/-- The merge loop ends without panic within as many rounds as there are
existent clusters (and one round at least), on a state that satisfies the
invariant of the arrays. -/
theorem clusterLoop_defined (MinAvgLinkage : Int) (contigs : List Contig)
    (G : Nat → Nat → Int) (K : Int) :
    ∀ (fuel : Nat) (st : ClusterState), ClusterInv contigs st → CandInv st →
      st.clusterExists.count true ≤ fuel → 1 ≤ fuel →
      ∃ st', clusterLoop MinAvgLinkage contigs.length G K fuel st = some st' ∧
        ClusterInv contigs st' := by
  intro fuel
  induction fuel with
  | zero => intro st _ _ _ h; omega
  | succ fuel ih =>
    intro st hinv hcand hcount _
    cases hm : st.merges with
    | nil => exact ⟨st, by simp only [clusterLoop, hm], hinv⟩
    | cons first rest =>
      have hfirst : first ∈ st.merges := by rw [hm]; exact List.mem_cons_self _ _
      obtain ⟨st', done, hstep, hinv', hcand', hc⟩ :=
        mergeStep_inv MinAvgLinkage contigs G K st first hfirst hinv hcand
      obtain ⟨hab, hea, heb⟩ := hcand first hfirst
      have h2 := two_le_count_true hea heb (ne_of_lt hab)
      cases hd : done with
      | true =>
        refine ⟨st', ?_, hinv'⟩
        simp only [clusterLoop, hm, hstep, hd, if_true]
      | false =>
        obtain ⟨st'', hloop, hinv''⟩ := ih st' hinv' (hcand' hd) (by omega) (by omega)
        refine ⟨st'', ?_, hinv''⟩
        simp only [clusterLoop, hm, hstep, hd, Bool.false_eq_true, if_false]
        exact hloop

/-- The merge loop of `Cluster` ends, for every input, within the `N + 1` rounds
it is given, and the array `clusterID` it leaves has one entry per contig: `-1`
for a skipped contig and no other, and for a contig that is not skipped either
its own index (the contig has not been merged) or the id, from `N` to `2N - 1`,
of a cluster created by a merge. -/
theorem finalClusterID_defined (MinAvgLinkage : Int) (contigs : List Contig)
    (G : Nat → Nat → Int) (K : Int) :
    ∃ cid, finalClusterID MinAvgLinkage contigs G K = some cid ∧
      cid.length = contigs.length ∧
      ∀ (i : Nat) (c : Int), cid[i]? = some c →
        (c = -1 ↔ skipAt contigs i = true) ∧
        (c = -1 ∨ c = (i : Int) ∨
          ((contigs.length : Int) ≤ c ∧ c < 2 * (contigs.length : Int))) := by
  have hinit := initState_inv MinAvgLinkage contigs G
  obtain ⟨st, hst, hinv⟩ := clusterLoop_defined MinAvgLinkage contigs G K
    (contigs.length + 1) (initState MinAvgLinkage contigs G) hinit
    (initState_cand MinAvgLinkage contigs G) (by have := hinit.bound; omega) (by omega)
  refine ⟨st.clusterID, by unfold finalClusterID; rw [hst]; rfl, hinv.lenID, ?_⟩
  intro i c h
  refine ⟨hinv.skipped i c h, ?_⟩
  rcases hinv.own i c h with h1 | h1 | h1
  · left; exact h1
  · right; left; exact h1
  · right; right
    refine ⟨h1, ?_⟩
    rcases hinv.ids i c h with h2 | ⟨h2, h3⟩
    · omega
    · have := lt_length_of_getElem? h3
      rw [hinv.lenExists] at this
      omega

/-! ### setClusters -/

theorem occurrences_appendMember (j : Nat) (cID : Int) (i : Nat) (clusters : Clusters) :
    occurrences j (appendMember clusters cID i) =
      occurrences j clusters + (if i = j then 1 else 0) := by
  induction clusters with
  | nil =>
    simp only [appendMember, occurrences, List.map_cons, List.map_nil, List.sum_cons,
      List.sum_nil, List.count_singleton, beq_iff_eq]
    omega
  | cons c rest ih =>
    obtain ⟨k, members⟩ := c
    simp only [appendMember]
    split
    · simp only [occurrences, List.map_cons, List.sum_cons, List.count_append,
        List.count_singleton, beq_iff_eq]
      omega
    · simp only [occurrences, List.map_cons, List.sum_cons] at ih ⊢
      rw [ih]; omega

theorem keys_appendMember (cID : Int) (i : Nat) (clusters : Clusters) :
    (appendMember clusters cID i).map Prod.fst =
      if cID ∈ clusters.map Prod.fst then clusters.map Prod.fst
      else clusters.map Prod.fst ++ [cID] := by
  induction clusters with
  | nil => simp [appendMember]
  | cons c rest ih =>
    obtain ⟨k, members⟩ := c
    simp only [appendMember]
    by_cases hk : k = cID
    · simp [hk]
    · rw [if_neg hk]
      simp only [List.map_cons, List.mem_cons, ih]
      have hk' : ¬ cID = k := fun e => hk e.symm
      by_cases hmem : cID ∈ rest.map Prod.fst
      · simp [hmem]
      · simp [hmem, hk']

theorem nodup_keys_appendMember (cID : Int) (i : Nat) {clusters : Clusters}
    (h : (clusters.map Prod.fst).Nodup) : ((appendMember clusters cID i).map Prod.fst).Nodup := by
  rw [keys_appendMember]
  split
  · exact h
  · next hmem =>
    rw [List.nodup_append]
    exact ⟨h, List.nodup_singleton _, by
      intro a ha hb
      rw [List.mem_singleton] at hb
      exact hmem (hb ▸ ha)⟩

theorem members_appendMember (n : Nat) (cID : Int) {i : Nat} (hi : i < n) {clusters : Clusters}
    (h : ∀ c ∈ clusters, ∀ x ∈ c.2, x < n) :
    ∀ c ∈ appendMember clusters cID i, ∀ x ∈ c.2, x < n := by
  induction clusters with
  | nil =>
    intro c hc x hx
    simp only [appendMember, List.mem_singleton] at hc
    subst hc
    simp only [List.mem_singleton] at hx
    exact hx ▸ hi
  | cons c0 rest ih =>
    obtain ⟨k, members⟩ := c0
    have hrest : ∀ c ∈ rest, ∀ x ∈ c.2, x < n := fun c hc => h c (List.mem_cons_of_mem _ hc)
    have hhead : ∀ x ∈ members, x < n := h (k, members) (List.mem_cons_self _ _)
    intro c hc x hx
    simp only [appendMember] at hc
    split at hc
    · rcases List.mem_cons.1 hc with e | e
      · subst e
        rcases List.mem_append.1 hx with hx | hx
        · exact hhead x hx
        · simp only [List.mem_singleton] at hx; exact hx ▸ hi
      · exact hrest c e x hx
    · rcases List.mem_cons.1 hc with e | e
      · subst e; exact hhead x hx
      · exact ih hrest c e x hx

/-- The map built by the first loop of `setClusters`: its keys are distinct,
its members are indices of `clusterID`, and the index `j` occurs in it once if
`clusterID[j]` differs from `j`, and not at all if `clusterID[j] = j`. -/
theorem setClustersLoop_spec (n : Nat) :
    ∀ (l : List Int) (i0 : Nat) (acc : Clusters), i0 + l.length ≤ n →
      (acc.map Prod.fst).Nodup → (∀ c ∈ acc, ∀ x ∈ c.2, x < n) →
      ((setClustersLoop l i0 acc).map Prod.fst).Nodup ∧
      (∀ c ∈ setClustersLoop l i0 acc, ∀ x ∈ c.2, x < n) ∧
      ∀ j : Nat, occurrences j (setClustersLoop l i0 acc) = occurrences j acc +
        (if i0 ≤ j then ((l[j - i0]?).map (fun c => if (j : Int) = c then 0 else 1)).getD 0
         else 0) := by
  intro l
  induction l with
  | nil =>
    intro i0 acc _ hnd hmem
    refine ⟨hnd, hmem, fun j => ?_⟩
    simp [setClustersLoop]
  | cons cID rest ih =>
    intro i0 acc hlen hnd hmem
    simp only [List.length_cons] at hlen
    have hshift : ∀ j : Nat, (if i0 + 1 ≤ j then
          ((rest[j - (i0 + 1)]?).map (fun c => if (j : Int) = c then 0 else 1)).getD 0 else 0) +
        (if i0 = j ∧ (i0 : Int) ≠ cID then 1 else 0) =
        (if i0 ≤ j then (((cID :: rest)[j - i0]?).map
          (fun c => if (j : Int) = c then 0 else 1)).getD 0 else 0) := by
      intro j
      rcases Nat.lt_trichotomy j i0 with h | h | h
      · rw [if_neg (by omega), if_neg (by omega), if_neg (by omega)]
      · subst h
        rw [if_neg (by omega), if_pos le_rfl, Nat.sub_self]
        simp only [true_and, List.getElem?_cons_zero, Option.map_some', Option.getD_some]
        by_cases hc : (j : Int) = cID
        · simp [hc]
        · simp [hc]
      · rw [if_pos (by omega), if_neg (by omega), if_pos (by omega)]
        have : j - i0 = (j - (i0 + 1)) + 1 := by omega
        rw [this, List.getElem?_cons_succ]
        rfl
    by_cases hc : (i0 : Int) = cID
    · simp only [setClustersLoop, if_pos hc]
      obtain ⟨h1, h2, h3⟩ := ih (i0 + 1) acc (by omega) hnd hmem
      refine ⟨h1, h2, fun j => ?_⟩
      have hs := hshift j
      have hY : (if i0 = j ∧ (i0 : Int) ≠ cID then 1 else 0) = 0 := if_neg (fun h => h.2 hc)
      rw [hY, Nat.add_zero] at hs
      rw [h3 j, hs]
    · simp only [setClustersLoop, if_neg hc]
      obtain ⟨h1, h2, h3⟩ := ih (i0 + 1) (appendMember acc cID i0) (by omega)
        (nodup_keys_appendMember cID i0 hnd) (members_appendMember n cID (by omega) hmem)
      refine ⟨h1, h2, fun j => ?_⟩
      have hs := hshift j
      have hY : (if i0 = j ∧ (i0 : Int) ≠ cID then 1 else 0) = (if i0 = j then 1 else 0) := by
        by_cases hj : i0 = j
        · rw [if_pos hj, if_pos ⟨hj, hc⟩]
        · rw [if_neg hj, if_neg (fun h => hj h.1)]
      rw [hY] at hs
      rw [h3 j, occurrences_appendMember, ← hs]
      omega

theorem occurrences_perm {j : Nat} {l₁ l₂ : Clusters} (h : l₁.Perm l₂) :
    occurrences j l₁ = occurrences j l₂ :=
  (h.map _).sum_eq

theorem occurrences_renumber (j : Nat) (sorted : Clusters) :
    occurrences j (sorted.enum.map (fun ic => ((ic.1 : Int), ic.2.2))) = occurrences j sorted := by
  unfold occurrences
  rw [List.map_map]
  have : ((fun (c : Int × List Nat) => c.2.count j) ∘
      fun (ic : Nat × (Int × List Nat)) => ((ic.1 : Int), ic.2.2)) =
      (fun (c : Int × List Nat) => c.2.count j) ∘ Prod.snd := rfl
  rw [this, ← List.map_map, List.enum_map_snd]

/-! ### Cluster -/

/-- The clusters `{4: [0,1], 5: [2,3]}` of contigs of lengths 10, 20, 300 and
400 come out in the other order: cluster 0 is `[2, 3]`, of total length 700, and
cluster 1 is `[0, 1]`, of total length 30. -/
theorem sortClusters_mixedContigs :
    sortClusters (fun m => m) mixedContigs [(4, [0, 1]), (5, [2, 3])] =
      some [(0, [2, 3]), (1, [0, 1])] ∧
    totalLength mixedContigs [2, 3] = 700 ∧ totalLength mixedContigs [0, 1] = 30 := by
  decide

/-- The amended C3 on the two clusters `{4: [0,1], 5: [2,3]}` of contigs of
lengths 10, 20, 300 and 400, enumerated in this order. -/
theorem sortClusters_sorted_witness :
    ∃ out, sortClusters (fun m => m) mixedContigs [(4, [0, 1]), (5, [2, 3])] = some out ∧
      out.map Prod.fst = (List.range [((4 : Int), [0, 1]), (5, [2, 3])].length).map
        (fun i : Nat => (i : Int)) ∧
      (out.map Prod.snd).Perm ([((4 : Int), [0, 1]), (5, [2, 3])].map Prod.snd) ∧
      List.Pairwise (fun x y => x.1 < y.1 ∧
        totalLength mixedContigs y.2 ≤ totalLength mixedContigs x.2) out :=
  sortClusters_sorted (fun m => m) (fun m => List.Perm.refl m) mixedContigs
    [(4, [0, 1]), (5, [2, 3])] (by decide) (by decide) (by decide)

/-- C3 fails as stated: with contigs of lengths `2^62`, `2^62`, 1 and 1 and the
clusters `{0: [0,1], 1: [2,3]}`, the sum `2^62 + 2^62` wraps around to `-2^63`
in the type `int`, so `sortClusters`, in whichever order it enumerates the map,
puts the cluster `[2, 3]` of total length 2 under key 0 and the cluster `[0, 1]`
of total length `2^63` under key 1. -/
theorem sortClusters_sorted_counterexample :
    clusterLength hugeContigs [0, 1] = some (-(2 ^ 63)) ∧
    clusterLength hugeContigs [2, 3] = some 2 ∧
    sortClusters (fun m => m) hugeContigs [(0, [0, 1]), (1, [2, 3])] =
      some [(0, [2, 3]), (1, [0, 1])] ∧
    sortClusters List.reverse hugeContigs [(0, [0, 1]), (1, [2, 3])] =
      some [(0, [2, 3]), (1, [0, 1])] ∧
    totalLength hugeContigs [2, 3] = 2 ∧ totalLength hugeContigs [0, 1] = 2 ^ 63 ∧
    ¬ (totalLength hugeContigs [0, 1] ≤ totalLength hugeContigs [2, 3]) := by
  decide

/-- C1, as the code has it: for every matrix, skip flags and target `K`, with
recovery disabled, `Cluster` returns, and every contig that is not skipped and
has been merged (its final cluster id is the id, from `N` to `2N-1`, of a
cluster created by a merge) occurs exactly once in the clusters of the result,
while a contig that is not skipped and has never been merged (its final cluster
id is its own index) occurs in none. -/
theorem Cluster_partition (rangeOrder : Clusters → Clusters) (hσ : IsRangeOrder rangeOrder)
    (MinAvgLinkage : Int) (contigs : List Contig) (G : Nat → Nat → Int) (K : Int) :
    ∃ cid out, finalClusterID MinAvgLinkage contigs G K = some cid ∧
      Cluster rangeOrder 0 MinAvgLinkage contigs G K = some out ∧
      ∀ i : Nat, i < contigs.length → skipAt contigs i = false →
        ∃ c, cid[i]? = some c ∧
          ((c = (i : Int) ∧ occurrences i out = 0) ∨
            ((contigs.length : Int) ≤ c ∧ c < 2 * (contigs.length : Int) ∧
              occurrences i out = 1)) := by
  obtain ⟨cid, hcid, hlen, hspec⟩ := finalClusterID_defined MinAvgLinkage contigs G K
  obtain ⟨hnd, hmem, hocc⟩ := setClustersLoop_spec contigs.length cid 0 []
    (by rw [hlen]; omega) (by simp) (by simp)
  obtain ⟨sorted, hout, hperm, _⟩ := sortClusters_eq rangeOrder hσ contigs
    (setClustersLoop cid 0 []) hnd hmem
  refine ⟨cid, sorted.enum.map (fun ic => ((ic.1 : Int), ic.2.2)), hcid, ?_, ?_⟩
  · unfold Cluster
    rw [hcid, Option.some_bind]
    unfold setClusters
    simp only [if_true]
    exact hout
  · intro i hi hskip
    have hget : cid[i]? = some cid[i] := List.getElem?_eq_getElem (by rw [hlen]; exact hi)
    obtain ⟨h1, h2⟩ := hspec i _ hget
    have hne : cid[i] ≠ -1 := fun e => by
      have := h1.1 e
      rw [hskip] at this
      cases this
    have hcount : occurrences i (sorted.enum.map (fun ic => ((ic.1 : Int), ic.2.2))) =
        if (i : Int) = cid[i] then 0 else 1 := by
      rw [occurrences_renumber, occurrences_perm hperm, hocc i]
      simp [occurrences, hget]
    refine ⟨cid[i], hget, ?_⟩
    rcases h2 with h | h | ⟨h, h'⟩
    · exact absurd h hne
    · left
      exact ⟨h, by rw [hcount, if_pos h.symm]⟩
    · right
      refine ⟨h, h', ?_⟩
      rw [hcount, if_neg]
      omega

/-- The amended C1 on Example A, the clusters enumerated in the order of
their creation. -/
theorem Cluster_partition_witness :
    ∃ cid out, finalClusterID 0 (plainContigs 4) exampleA 2 = some cid ∧
      Cluster (fun m => m) 0 0 (plainContigs 4) exampleA 2 = some out ∧
      ∀ i : Nat, i < (plainContigs 4).length → skipAt (plainContigs 4) i = false →
        ∃ c, cid[i]? = some c ∧
          ((c = (i : Int) ∧ occurrences i out = 0) ∨
            (((plainContigs 4).length : Int) ≤ c ∧ c < 2 * ((plainContigs 4).length : Int) ∧
              occurrences i out = 1)) :=
  Cluster_partition (fun m => m) (fun m => List.Perm.refl m) 0 (plainContigs 4) exampleA 2

/-- C1 fails as stated: of three contigs that are not skipped, with links
between contigs 0 and 1 only, contig 2 is never merged, keeps the cluster id 2,
and occurs in no cluster of the result, which is the single cluster `[0, 1]`. -/
theorem Cluster_partition_counterexample :
    skipAt (plainContigs 3) 2 = false ∧
      finalClusterID 0 (plainContigs 3) exampleA 1 = some [3, 3, 2] ∧
      Cluster (fun m => m) 0 0 (plainContigs 3) exampleA 1 = some [(0, [0, 1])] ∧
      occurrences 2 [(0, [0, 1])] = 0 := by
  refine ⟨by decide, by with_unfolding_all decide, by with_unfolding_all decide, by decide⟩

/-- C2 at a single skipped contig, recovery disabled: the array `clusterID` is
`[-1]`, the loop of `setClusters` files contig 0 under the key `-1`, and
`Cluster` leaves the one cluster `[0]`, not the empty map. -/
theorem Cluster_single_skipped :
    skipAt [⟨100, true⟩] 0 = true ∧
      finalClusterID 0 [⟨100, true⟩] (fun _ _ => 0) 1 = some [-1] ∧
      setClustersLoop [-1] 0 [] = [(-1, [0])] ∧
      Cluster (fun m => m) 0 0 [⟨100, true⟩] (fun _ _ => 0) 1 = some [(0, [0])] := by
  refine ⟨by decide, by with_unfolding_all decide, by decide, by with_unfolding_all decide⟩

theorem perm_pair_cases {α : Type} {l : List α} {x y : α} (hxy : x ≠ y)
    (h : l.Perm [x, y]) : l = [x, y] ∨ l = [y, x] := by
  have hlen := h.length_eq
  have hnd : l.Nodup := h.nodup_iff.2 (by simp [hxy])
  match l, hlen, hnd, h with
  | [a, b], _, hnd, h =>
    have ha : a ∈ [x, y] := h.subset (by simp)
    have hb : b ∈ [x, y] := h.subset (by simp)
    simp only [List.mem_cons, List.mem_singleton, List.not_mem_nil, or_false] at ha hb
    simp only [List.nodup_cons, List.mem_singleton, List.not_mem_nil, not_false_eq_true,
      List.nodup_nil, and_true] at hnd
    rcases ha with rfl | rfl <;> rcases hb with rfl | rfl
    · exact absurd rfl hnd
    · left; rfl
    · right; rfl
    · exact absurd rfl hnd

/-- C4, Example A: four contigs of length 100 that are not skipped, 50 links
between contigs 0 and 1, 40 between contigs 2 and 3, `MinAvgLinkage = 0`,
`K = 2`.  In whatever order the map is enumerated, `Cluster` produces exactly
two clusters, with the member lists `[0,1]` and `[2,3]`, each of total length
200. -/
theorem Cluster_exampleA (rangeOrder : Clusters → Clusters) (hσ : IsRangeOrder rangeOrder) :
    (Cluster rangeOrder 0 0 (plainContigs 4) exampleA 2 = some [(0, [0, 1]), (1, [2, 3])] ∨
      Cluster rangeOrder 0 0 (plainContigs 4) exampleA 2 = some [(0, [2, 3]), (1, [0, 1])]) ∧
      clusterLength (plainContigs 4) [0, 1] = some 200 ∧
      clusterLength (plainContigs 4) [2, 3] = some 200 := by
  have hfinal : finalClusterID 0 (plainContigs 4) exampleA 2 = some [4, 4, 5, 5] := by
    with_unfolding_all decide
  have hloop : setClustersLoop [4, 4, 5, 5] 0 [] = [(4, [0, 1]), (5, [2, 3])] := by decide
  have hcl : Cluster rangeOrder 0 0 (plainContigs 4) exampleA 2 =
      sortClusters rangeOrder (plainContigs 4) [(4, [0, 1]), (5, [2, 3])] := by
    unfold Cluster
    rw [hfinal, Option.some_bind]
    unfold setClusters
    simp only [if_true]
    rw [hloop]
  refine ⟨?_, by decide, by decide⟩
  rw [hcl]
  unfold sortClusters
  rcases perm_pair_cases (by decide) (hσ [(4, [0, 1]), (5, [2, 3])]) with h | h
  · left; rw [h]; decide
  · right; rw [h]; decide

/-- C4 with the clusters enumerated in the order of their creation. -/
theorem Cluster_exampleA_witness :
    (Cluster (fun m => m) 0 0 (plainContigs 4) exampleA 2 = some [(0, [0, 1]), (1, [2, 3])] ∨
      Cluster (fun m => m) 0 0 (plainContigs 4) exampleA 2 =
        some [(0, [2, 3]), (1, [0, 1])]) ∧
      clusterLength (plainContigs 4) [0, 1] = some 200 ∧
      clusterLength (plainContigs 4) [2, 3] = some 200 :=
  Cluster_exampleA (fun m => m) (fun m => List.Perm.refl m)

/-! ### breakCycle on weights below `math.MaxFloat64` -/

theorem breakCycleScan_unchanged (l : List Edge) (i : Nat) (acc : Nat × F64)
    (h : ∀ f ∈ l, F64.gt f.weight (F64.fin 1) = true → F64.lt f.weight acc.2 = false) :
    breakCycleScan l i acc = acc := by
  induction l generalizing i with
  | nil => rfl
  | cons f rest ih =>
    obtain ⟨minI, minWeight⟩ := acc
    have hf := h f (List.mem_cons_self _ _)
    have hcond : (F64.gt f.weight (F64.fin 1) && F64.lt f.weight minWeight) = false := by
      cases hg : F64.gt f.weight (F64.fin 1) with
      | false => rfl
      | true => simpa using hf hg
    simp only [breakCycleScan, hcond, Bool.false_eq_true, if_false]
    exact ih (i + 1) (fun f' hf' => h f' (List.mem_cons_of_mem _ hf'))

theorem breakCycleScan_first_min (pre post : List Edge) (e : Edge)
    (hq : F64.gt e.weight (F64.fin 1) = true)
    (hpre : ∀ f ∈ pre, F64.gt f.weight (F64.fin 1) = true → F64.lt e.weight f.weight = true)
    (hpost : ∀ f ∈ post, F64.gt f.weight (F64.fin 1) = true →
      F64.lt f.weight e.weight = false) :
    ∀ (i : Nat) (acc : Nat × F64), F64.lt e.weight acc.2 = true →
      breakCycleScan (pre ++ e :: post) i acc = (i + pre.length, e.weight) := by
  induction pre with
  | nil =>
    intro i acc hacc
    obtain ⟨minI, minWeight⟩ := acc
    simp only [List.nil_append, breakCycleScan, hq, Bool.true_and, List.length_nil, Nat.add_zero]
    rw [if_pos hacc]
    exact breakCycleScan_unchanged post (i + 1) (i, e.weight) hpost
  | cons f pre ih =>
    intro i acc hacc
    obtain ⟨minI, minWeight⟩ := acc
    have ih' := ih (fun f' hf' => hpre f' (List.mem_cons_of_mem _ hf'))
    simp only [List.cons_append, breakCycleScan, List.length_cons]
    split
    · next hc =>
      simp only [Bool.and_eq_true] at hc
      refine (ih' (i + 1) (i, f.weight) (hpre f (List.mem_cons_self _ _) hc.1)).trans ?_
      congr 1; omega
    · refine (ih' (i + 1) (minI, minWeight) hacc).trans ?_
      congr 1; omega

/-- Where the path holds a qualifying edge of weight below `math.MaxFloat64`,
`breakCycle` discards the first qualifying edge of smallest weight and returns
the edges after it followed by the edges before it. -/
theorem breakCycle_rotate (pre post : List Edge) (e : Edge)
    (hq : F64.gt e.weight (F64.fin 1) = true)
    (hmax : F64.lt e.weight F64.MaxFloat64 = true)
    (hpre : ∀ f ∈ pre, F64.gt f.weight (F64.fin 1) = true → F64.lt e.weight f.weight = true)
    (hpost : ∀ f ∈ post, F64.gt f.weight (F64.fin 1) = true →
      F64.lt f.weight e.weight = false) :
    breakCycle (pre ++ e :: post) = some (post ++ pre) := by
  unfold breakCycle
  simp only []
  rw [breakCycleScan_first_min pre post e hq hpre hpost 0 (0, F64.MaxFloat64) hmax]
  simp only [Nat.zero_add, List.length_append, List.length_cons]
  rw [if_pos (by omega)]
  congr 2
  · rw [List.drop_append_eq_append_drop]
    simp
  · simp

/-- Example C: the three-edge cycle with weights `2, 5, 3` is broken at the
edge of weight 2 and yields the two-edge path with weights `5, 3`. -/
theorem breakCycle_exampleC :
    breakCycle [⟨0, 1, F64.fin 2⟩, ⟨1, 2, F64.fin 5⟩, ⟨2, 0, F64.fin 3⟩] =
      some [⟨1, 2, F64.fin 5⟩, ⟨2, 0, F64.fin 3⟩] := by
  norm_num [breakCycle, breakCycleScan, F64.gt, F64.lt, F64.MaxFloat64]

/-! ### uintLog2 -/

/-- C14 at `x = 2^32`, a value of the 64-bit type `uint`: no mask of the table
`b` reaches bit 32, every test fails, and `uintLog2` returns 0, whereas the
integer logarithm of `x` is 32. -/
theorem uintLog2_two_pow_32 :
    (0 : Nat) < 2 ^ 32 ∧ 2 ^ 32 < 2 ^ uintBits ∧ uintLog2 (2 ^ 32) = 0 ∧
      ¬ (2 ^ uintLog2 (2 ^ 32) ≤ 2 ^ 32 ∧ 2 ^ 32 < 2 ^ (uintLog2 (2 ^ 32) + 1)) := by
  decide

/-- Below `2^32` the function is right on the powers of two and their
neighbours up to bit 31, as on `x = 2^31`. -/
theorem uintLog2_two_pow_31 :
    uintLog2 (2 ^ 31) = 31 ∧ uintLog2 (2 ^ 32 - 1) = 31 ∧ uintLog2 1 = 0 ∧
      uintLog2 (2 ^ 16) = 16 ∧ uintLog2 (2 ^ 16 - 1) = 15 := by
  decide

theorem and_mask (x s : Nat) (hx : x < 2 ^ (2 * s)) :
    x &&& (2 ^ s * (2 ^ s - 1)) = 2 ^ s * (x >>> s) := by
  apply Nat.eq_of_testBit_eq
  intro i
  rw [Nat.testBit_and, Nat.testBit_mul_pow_two, Nat.testBit_mul_pow_two,
    Nat.testBit_two_pow_sub_one, Nat.testBit_shiftRight]
  by_cases h : s ≤ i
  · simp only [ge_iff_le, h, decide_True, Bool.true_and]
    have e : s + (i - s) = i := by omega
    rw [e]
    by_cases h2 : i - s < s
    · simp [h2]
    · simp only [h2, decide_False, Bool.and_false]
      have : x < 2 ^ i := lt_of_lt_of_le hx (Nat.pow_le_pow_right (by norm_num) (by omega))
      rw [Nat.testBit_lt_two_pow this]
  · simp [h]

/-- The test of one `if` statement of `uintLog2`, on a value of at most `2 * s`
bits and the mask of the bits `s` to `2 * s - 1`: it holds if and only if the
value has a bit set at position `s` or above. -/
theorem and_mask_ne_zero (x s : Nat) (hx : x < 2 ^ (2 * s)) :
    x &&& (2 ^ s * (2 ^ s - 1)) ≠ 0 ↔ 2 ^ s ≤ x := by
  rw [and_mask x s hx, Nat.shiftRight_eq_div_pow]
  have hp : 0 < 2 ^ s := Nat.two_pow_pos s
  constructor
  · intro h
    by_contra hlt
    exact h (by rw [Nat.div_eq_of_lt (not_le.1 hlt), Nat.mul_zero])
  · intro h
    have : 0 < x / 2 ^ s := Nat.div_pos h hp
    exact Nat.ne_of_gt (Nat.mul_pos hp this)

theorem uintLog2_tables :
    ∀ k < 5, b.getD k 0 = 2 ^ (2 ^ k) * (2 ^ (2 ^ k) - 1) ∧ s.getD k 0 = 2 ^ k := by
  decide

theorem uintLog2_answer :
    ∀ ans < 32, ∀ k < 5, ans % (2 * 2 ^ k) = 0 →
      ans ||| 2 ^ k = ans + 2 ^ k ∧ ans + 2 ^ k < 32 ∧ (ans + 2 ^ k) % 2 ^ k = 0 ∧
        ans % 2 ^ k = 0 := by
  decide

/-- One `if` statement of `uintLog2` on a positive value `p.1 = x0 >> p.2` of at
most `2 * 2^k` bits: it leaves a positive value `x0 >> answer` of at most `2^k`
bits. -/
theorem uintLog2Step_spec (k : Nat) (hk : k < 5) (x0 : Nat) (p : Nat × Nat)
    (hx : p.1 < 2 ^ (2 * 2 ^ k)) (hpos : 0 < p.1) (hdiv : p.1 = x0 / 2 ^ p.2)
    (hmod : p.2 % (2 * 2 ^ k) = 0) (hans : p.2 < 32) :
    (uintLog2Step k p).1 < 2 ^ (2 ^ k) ∧ 0 < (uintLog2Step k p).1 ∧
    (uintLog2Step k p).1 = x0 / 2 ^ (uintLog2Step k p).2 ∧
    (uintLog2Step k p).2 % 2 ^ k = 0 ∧ (uintLog2Step k p).2 < 32 := by
  obtain ⟨hb, hs⟩ := uintLog2_tables k hk
  obtain ⟨hor, hlt, hm1, hm2⟩ := uintLog2_answer p.2 hans k hk hmod
  have hp : 0 < 2 ^ (2 ^ k) := Nat.two_pow_pos _
  unfold uintLog2Step
  rw [hb, hs]
  by_cases h : 2 ^ (2 ^ k) ≤ p.1
  · rw [if_pos ((and_mask_ne_zero p.1 (2 ^ k) hx).2 h)]
    simp only [Nat.shiftRight_eq_div_pow, hor]
    refine ⟨?_, Nat.div_pos h hp, ?_, hm1, hlt⟩
    · rw [Nat.div_lt_iff_lt_mul hp, ← pow_add]
      have e : 2 ^ k + 2 ^ k = 2 * 2 ^ k := by ring
      rw [e]; exact hx
    · rw [hdiv, Nat.div_div_eq_div_mul, ← pow_add]
  · rw [if_neg (fun hne => h ((and_mask_ne_zero p.1 (2 ^ k) hx).1 hne))]
    exact ⟨not_le.1 h, hpos, hdiv, hm2, hans⟩

/-- Below `2^32` the function `uintLog2` is the integer logarithm: for
`0 < x < 2^32`, `2 ^ uintLog2 x ≤ x < 2 ^ (uintLog2 x + 1)`. -/
theorem uintLog2_eq_log2 (x : Nat) (hpos : 0 < x) (hx : x < 2 ^ 32) :
    2 ^ uintLog2 x ≤ x ∧ x < 2 ^ (uintLog2 x + 1) := by
  obtain ⟨a1, a2, a3, a4, a5⟩ := uintLog2Step_spec 4 (by decide) x (x, 0) hx hpos
    (by simp) (by simp) (by simp)
  obtain ⟨b1, b2, b3, b4, b5⟩ := uintLog2Step_spec 3 (by decide) x _ a1 a2 a3 a4 a5
  obtain ⟨c1, c2, c3, c4, c5⟩ := uintLog2Step_spec 2 (by decide) x _ b1 b2 b3 b4 b5
  obtain ⟨d1, d2, d3, d4, d5⟩ := uintLog2Step_spec 1 (by decide) x _ c1 c2 c3 c4 c5
  obtain ⟨e1, e2, e3, _, _⟩ := uintLog2Step_spec 0 (by decide) x _ d1 d2 d3 d4 d5
  have hone : x / 2 ^ uintLog2 x = 1 := by
    have h1 : (uintLog2Step 0 (uintLog2Step 1 (uintLog2Step 2 (uintLog2Step 3
        (uintLog2Step 4 (x, 0)))))).1 = 1 := by
      have : (2 : Nat) ^ (2 ^ 0) = 2 := by norm_num
      rw [this] at e1
      omega
    rw [h1] at e3
    exact e3.symm
  have hd : 0 < 2 ^ uintLog2 x := Nat.two_pow_pos _
  have h1 := Nat.div_add_mod x (2 ^ uintLog2 x)
  have h2 := Nat.mod_lt x hd
  rw [hone] at h1
  rw [pow_succ]
  omega

/-! ### The result of a round, read off the code -/

theorem setAt_some {α : Type} {xs ys : List α} {i : Nat} {v : α} (h : setAt xs i v = some ys) :
    i < xs.length ∧ ys = xs.set i v := by
  unfold setAt at h
  split at h
  · next hlt => exact ⟨hlt, (Option.some.inj h).symm⟩
  · cases h

/-- The state left by a round that did not panic, field by field. -/
theorem mergeStep_some {MinAvgLinkage : Int} {N : Nat} {G : Nat → Nat → Int} {K : Int}
    {st st' : ClusterState} {first : merge} {done : Bool}
    (h : mergeStep MinAvgLinkage N G K st first = some (st', done)) :
    ∃ sA sB kept total,
      (findBestMerge first st.merges).a < st.clusterExists.length ∧
      (findBestMerge first st.merges).b < st.clusterExists.length ∧
      N + st.nMerges < st.clusterExists.length ∧
      N + st.nMerges < st.clusterSize.length ∧
      st.clusterSize[(findBestMerge first st.merges).a]? = some sA ∧
      st.clusterSize[(findBestMerge first st.merges).b]? = some sB ∧
      keepLive st'.clusterExists st.merges = some kept ∧
      totalLinkageLoop G (N + st.nMerges)
        (newClusterOf (findBestMerge first st.merges) st.clusterID) st'.clusterID.enum
        (List.replicate (2 * N) 0) = some total ∧
      st'.clusterID =
        st.clusterID.map (mergedID (findBestMerge first st.merges) (N + st.nMerges)) ∧
      st'.clusterSize = st.clusterSize.set (N + st.nMerges) (sA + sB) ∧
      st'.clusterExists = ((st.clusterExists.set (findBestMerge first st.merges).a false).set
        (findBestMerge first st.merges).b false).set (N + st.nMerges) true ∧
      st'.nonSingletonClusters = st.nonSingletonClusters
        + (if (findBestMerge first st.merges).a < N then 1 else 0)
        + (if (findBestMerge first st.merges).b < N then 1 else 0) - 1 ∧
      st'.nMerges = st.nMerges + 1 ∧
      done = (decide (st'.nMerges > N / 2) && decide (st'.nonSingletonClusters = K)) ∧
      st'.merges = if done = true then st.merges
        else kept ++ newCandidates MinAvgLinkage N (N + st.nMerges) st'.clusterSize total := by
  simp only [mergeStep, Option.bind_eq_some, Option.some.injEq, Prod.mk.injEq] at h
  obtain ⟨e1, he1, e2, he2, e3, he3, sA, hsA, sB, hsB, size', hsize, kept, hkept, total, htotal,
    hst, hdone⟩ := h
  obtain ⟨h1, rfl⟩ := setAt_some he1
  obtain ⟨h2, rfl⟩ := setAt_some he2
  obtain ⟨h3, rfl⟩ := setAt_some he3
  obtain ⟨h4, rfl⟩ := setAt_some hsize
  simp only [List.length_set] at h2 h3
  subst hst
  exact ⟨sA, sB, kept, total, h1, h2, h3, h4, hsA, hsB, hkept, htotal, rfl, rfl, rfl, rfl, rfl,
    hdone.symm, by rw [← hdone]⟩

theorem roundStart_succ {MinAvgLinkage : Int} {contigs : List Contig} {G : Nat → Nat → Int}
    {K : Int} {n : Nat} {st' : ClusterState}
    (h : roundStart MinAvgLinkage contigs G K (n + 1) = some st') :
    ∃ st first rest, roundStart MinAvgLinkage contigs G K n = some st ∧
      st.merges = first :: rest ∧
      mergeStep MinAvgLinkage contigs.length G K st first = some (st', false) := by
  simp only [roundStart] at h
  cases hst : roundStart MinAvgLinkage contigs G K n with
  | none => simp [hst] at h
  | some st =>
    simp only [hst] at h
    cases hm : st.merges with
    | nil => simp [hm] at h
    | cons first rest =>
      simp only [hm] at h
      cases hs : mergeStep MinAvgLinkage contigs.length G K st first with
      | none => simp [hs] at h
      | some r =>
        obtain ⟨st1, d⟩ := r
        cases d with
        | true => simp [hs] at h
        | false =>
          simp only [hs, Option.some.injEq] at h
          exact ⟨st, first, rest, rfl, hm, by rw [← h]; exact hs⟩

theorem afterMerge_some {MinAvgLinkage : Int} {contigs : List Contig} {G : Nat → Nat → Int}
    {K : Int} {n : Nat} {st' : ClusterState} {done : Bool}
    (h : afterMerge MinAvgLinkage contigs G K n = some (st', done)) :
    ∃ st first rest, roundStart MinAvgLinkage contigs G K n = some st ∧
      st.merges = first :: rest ∧
      mergeStep MinAvgLinkage contigs.length G K st first = some (st', done) := by
  simp only [afterMerge] at h
  cases hst : roundStart MinAvgLinkage contigs G K n with
  | none => simp [hst] at h
  | some st =>
    simp only [hst] at h
    cases hm : st.merges with
    | nil => simp [hm] at h
    | cons first rest =>
      simp only [hm] at h
      exact ⟨st, first, rest, rfl, hm, h⟩

/-- The invariants of the arrays and of the candidate list hold at the start of
every round. -/
theorem roundStart_inv (MinAvgLinkage : Int) (contigs : List Contig) (G : Nat → Nat → Int)
    (K : Int) : ∀ (n : Nat) (st : ClusterState),
      roundStart MinAvgLinkage contigs G K n = some st → ClusterInv contigs st ∧ CandInv st := by
  intro n
  induction n with
  | zero =>
    intro st h
    simp only [roundStart, Option.some.injEq] at h
    subst h
    exact ⟨initState_inv MinAvgLinkage contigs G, initState_cand MinAvgLinkage contigs G⟩
  | succ n ih =>
    intro st' h
    obtain ⟨st, first, rest, hst, hm, hstep⟩ := roundStart_succ h
    obtain ⟨hinv, hcand⟩ := ih st hst
    obtain ⟨st'', done, hstep', hinv', hcand', _⟩ := mergeStep_inv MinAvgLinkage contigs G K st
      first (by rw [hm]; exact List.mem_cons_self _ _) hinv hcand
    rw [hstep] at hstep'
    simp only [Option.some.injEq, Prod.mk.injEq] at hstep'
    obtain ⟨rfl, rfl⟩ := hstep'
    exact ⟨hinv', hcand' rfl⟩

/-! ### Invariants at the start of every round -/

theorem roundStart_exampleA_one :
    roundStart 0 (plainContigs 4) exampleA 2 1 = some exampleARound1 := by
  with_unfolding_all decide

theorem roundStart_nMerges (MinAvgLinkage : Int) (contigs : List Contig) (G : Nat → Nat → Int)
    (K : Int) : ∀ (n : Nat) (st : ClusterState),
      roundStart MinAvgLinkage contigs G K n = some st → st.nMerges = n := by
  intro n
  induction n with
  | zero =>
    intro st h
    simp only [roundStart, Option.some.injEq] at h
    subst h; rfl
  | succ n ih =>
    intro st' h
    obtain ⟨st, first, rest, hst, _, hstep⟩ := roundStart_succ h
    obtain ⟨_, _, _, _, _, _, _, _, _, _, _, _, _, _, _, _, hn, _⟩ := mergeStep_some hstep
    rw [hn, ih st hst]

/-- C15: at the start of every round of the merge loop, every candidate of the
list pairs two distinct cluster ids `a < b` that are both flagged existent; in
particular the pair selected for the merge of the round is flagged existent, so
that an id flagged non-existent is never selected again. -/
theorem roundStart_candidates (MinAvgLinkage : Int) (contigs : List Contig)
    (G : Nat → Nat → Int) (K : Int) (n : Nat) (st : ClusterState)
    (h : roundStart MinAvgLinkage contigs G K n = some st) :
    (∀ m ∈ st.merges, m.a < m.b ∧ st.clusterExists[m.a]? = some true ∧
      st.clusterExists[m.b]? = some true) ∧
    (∀ first rest, st.merges = first :: rest →
      (findBestMerge first st.merges).a < (findBestMerge first st.merges).b ∧
      st.clusterExists[(findBestMerge first st.merges).a]? = some true ∧
      st.clusterExists[(findBestMerge first st.merges).b]? = some true) := by
  obtain ⟨_, hcand⟩ := roundStart_inv MinAvgLinkage contigs G K n st h
  refine ⟨hcand, ?_⟩
  intro first rest hm
  apply hcand
  rcases findBestMerge_mem first st.merges with e | e
  · rw [e, hm]; exact List.mem_cons_self _ _
  · exact e

/-- C15 at the start of round 1 of Example A. -/
theorem roundStart_candidates_witness :
    (∀ m ∈ exampleARound1.merges, m.a < m.b ∧ exampleARound1.clusterExists[m.a]? = some true ∧
      exampleARound1.clusterExists[m.b]? = some true) ∧
    (∀ first rest, exampleARound1.merges = first :: rest →
      (findBestMerge first exampleARound1.merges).a <
        (findBestMerge first exampleARound1.merges).b ∧
      exampleARound1.clusterExists[(findBestMerge first exampleARound1.merges).a]? = some true ∧
      exampleARound1.clusterExists[(findBestMerge first exampleARound1.merges).b]? =
        some true) :=
  roundStart_candidates 0 (plainContigs 4) exampleA 2 1 exampleARound1 roundStart_exampleA_one

theorem clusterID_spec_of_inv {contigs : List Contig} {st : ClusterState}
    (hinv : ClusterInv contigs st) :
    st.clusterID.length = contigs.length ∧
    ∀ (i : Nat) (c : Int), st.clusterID[i]? = some c →
      (c = -1 ∨ (0 ≤ c ∧ c < 2 * (contigs.length : Int))) ∧
      (c = -1 ↔ skipAt contigs i = true) ∧
      (c ≠ -1 → st.clusterExists[c.toNat]? = some true) := by
  refine ⟨hinv.lenID, fun i c h => ⟨?_, hinv.skipped i c h, ?_⟩⟩
  · rcases hinv.ids i c h with h1 | ⟨h1, h2⟩
    · left; exact h1
    · right
      have := lt_length_of_getElem? h2
      rw [hinv.lenExists] at this
      omega
  · intro hne
    rcases hinv.ids i c h with h1 | ⟨_, h2⟩
    · exact absurd h1 hne
    · exact h2

theorem getElem?_reassignUpTo (bm : merge) (new : Nat) (l : List Int) (i j : Nat)
    (hj : j ≤ l.length) :
    (reassignUpTo bm new l j)[i]? =
      if i < j then (l[i]?).map (mergedID bm new) else l[i]? := by
  unfold reassignUpTo
  by_cases hij : i < j
  · rw [if_pos hij, List.getElem?_append_left (by simp; omega), List.getElem?_map,
      List.getElem?_take_of_lt hij]
  · rw [if_neg hij, List.getElem?_append_right (by simp; omega), List.getElem?_drop]
    congr 1
    simp
    omega

/-- C16, as the code has it: at the start of every round of the merge loop,
after every merge, and in the state on exit of the loop, whose array `clusterID`
is the one passed to `setClusters`, `clusterID` has one entry per contig, every
entry is `-1` or lies in `[0, 2N)`, it is `-1` if and only if the contig is
skipped, and otherwise it is the id of a cluster flagged existent.  Inside a
merge, after any number `j` of iterations of the loop that reassigns the ids
(lines 122 to 127), every entry is still `-1` or in `[0, 2N)`, and `-1` if and
only if the contig is skipped; after all `N` iterations the arrays are the ones
of the state after the merge. -/
theorem Cluster_clusterID_invariant (MinAvgLinkage : Int) (contigs : List Contig)
    (G : Nat → Nat → Int) (K : Int) :
    (∀ (n : Nat) (st : ClusterState) (first : merge) (rest : List merge) (j : Nat),
      roundStart MinAvgLinkage contigs G K n = some st → st.merges = first :: rest →
      j ≤ contigs.length →
      ∃ cid e, midMerge contigs.length st first j = some (cid, e) ∧
        cid.length = contigs.length ∧
        (∀ (i : Nat) (c : Int), cid[i]? = some c →
          (c = -1 ∨ (0 ≤ c ∧ c < 2 * (contigs.length : Int))) ∧
          (c = -1 ↔ skipAt contigs i = true)) ∧
        (j = contigs.length → ∀ st' done,
          afterMerge MinAvgLinkage contigs G K n = some (st', done) →
          cid = st'.clusterID ∧ e = st'.clusterExists)) ∧
    (∀ (n : Nat) (st : ClusterState), roundStart MinAvgLinkage contigs G K n = some st →
      st.clusterID.length = contigs.length ∧
      ∀ (i : Nat) (c : Int), st.clusterID[i]? = some c →
        (c = -1 ∨ (0 ≤ c ∧ c < 2 * (contigs.length : Int))) ∧
        (c = -1 ↔ skipAt contigs i = true) ∧
        (c ≠ -1 → st.clusterExists[c.toNat]? = some true)) ∧
    (∀ (n : Nat) (st : ClusterState) (done : Bool),
      afterMerge MinAvgLinkage contigs G K n = some (st, done) →
      st.clusterID.length = contigs.length ∧
      ∀ (i : Nat) (c : Int), st.clusterID[i]? = some c →
        (c = -1 ∨ (0 ≤ c ∧ c < 2 * (contigs.length : Int))) ∧
        (c = -1 ↔ skipAt contigs i = true) ∧
        (c ≠ -1 → st.clusterExists[c.toNat]? = some true)) ∧
    ∃ st, clusterLoop MinAvgLinkage contigs.length G K (contigs.length + 1)
        (initState MinAvgLinkage contigs G) = some st ∧
      finalClusterID MinAvgLinkage contigs G K = some st.clusterID ∧
      st.clusterID.length = contigs.length ∧
      ∀ (i : Nat) (c : Int), st.clusterID[i]? = some c →
        (c = -1 ∨ (0 ≤ c ∧ c < 2 * (contigs.length : Int))) ∧
        (c = -1 ↔ skipAt contigs i = true) ∧
        (c ≠ -1 → st.clusterExists[c.toNat]? = some true) := by
  refine ⟨?_, ?_, ?_, ?_⟩
  · intro n st first rest j h hm hj
    obtain ⟨hinv, hcand⟩ := roundStart_inv MinAvgLinkage contigs G K n st h
    have hfirst : first ∈ st.merges := by rw [hm]; exact List.mem_cons_self _ _
    have hbm : findBestMerge first st.merges ∈ st.merges := by
      rcases findBestMerge_mem first st.merges with e | e
      · rw [e]; exact hfirst
      · exact e
    obtain ⟨hab, hea, heb⟩ := hcand _ hbm
    have hcount := two_le_count_true hea heb (ne_of_lt hab)
    have hbound := hinv.bound
    have hlenE := hinv.lenExists
    have ha := lt_length_of_getElem? hea
    have hb := lt_length_of_getElem? heb
    have hnew : contigs.length + st.nMerges < st.clusterExists.length := by omega
    refine ⟨reassignUpTo (findBestMerge first st.merges) (contigs.length + st.nMerges)
      st.clusterID j, ((st.clusterExists.set (findBestMerge first st.merges).a false).set
        (findBestMerge first st.merges).b false).set (contigs.length + st.nMerges) true,
      ?_, ?_, ?_, ?_⟩
    · simp [midMerge, setAt, ha, hb, hnew]
    · have := hinv.lenID
      simp only [reassignUpTo, List.length_append, List.length_map, List.length_take,
        List.length_drop]
      omega
    · intro i c hc
      rw [getElem?_reassignUpTo _ _ _ _ _ (by rw [hinv.lenID]; exact hj)] at hc
      have hspec := (clusterID_spec_of_inv hinv).2
      by_cases hij : i < j
      · rw [if_pos hij] at hc
        cases hc0 : st.clusterID[i]? with
        | none => rw [hc0] at hc; cases hc
        | some c0 =>
          rw [hc0] at hc
          simp only [Option.map_some', Option.some.injEq] at hc
          obtain ⟨hr, hs, _⟩ := hspec i c0 hc0
          unfold mergedID at hc
          by_cases hmg : (decide (c0 = ((findBestMerge first st.merges).a : Int)) ||
              decide (c0 = ((findBestMerge first st.merges).b : Int))) = true
          · rw [if_pos hmg] at hc
            simp only [Bool.or_eq_true, decide_eq_true_eq] at hmg
            have hc0ne : c0 ≠ -1 := by omega
            refine ⟨Or.inr (by omega), ?_⟩
            constructor
            · intro e; omega
            · intro e; exact absurd (hs.2 e) hc0ne
          · rw [if_neg hmg] at hc
            rw [← hc]
            exact ⟨hr, hs⟩
      · rw [if_neg hij] at hc
        obtain ⟨hr, hs, _⟩ := hspec i c hc
        exact ⟨hr, hs⟩
    · intro hjN st' done hafter
      obtain ⟨st0, first0, rest0, hst0, hm0, hstep⟩ := afterMerge_some hafter
      rw [h] at hst0
      cases hst0
      rw [hm] at hm0
      cases hm0
      obtain ⟨_, _, _, _, _, _, _, _, _, _, _, _, hcid, _, hex, _⟩ := mergeStep_some hstep
      refine ⟨?_, hex.symm⟩
      rw [hcid, hjN, ← hinv.lenID]
      simp [reassignUpTo]
  · intro n st h
    exact clusterID_spec_of_inv (roundStart_inv MinAvgLinkage contigs G K n st h).1
  · intro n st' done h
    obtain ⟨st, first, rest, hst, hm, hstep⟩ := afterMerge_some h
    obtain ⟨hinv, hcand⟩ := roundStart_inv MinAvgLinkage contigs G K n st hst
    obtain ⟨st'', done', hstep', hinv', _, _⟩ := mergeStep_inv MinAvgLinkage contigs G K st
      first (by rw [hm]; exact List.mem_cons_self _ _) hinv hcand
    rw [hstep] at hstep'
    simp only [Option.some.injEq, Prod.mk.injEq] at hstep'
    obtain ⟨rfl, rfl⟩ := hstep'
    exact clusterID_spec_of_inv hinv'
  · have hinit := initState_inv MinAvgLinkage contigs G
    obtain ⟨st, hst, hinv⟩ := clusterLoop_defined MinAvgLinkage contigs G K
      (contigs.length + 1) (initState MinAvgLinkage contigs G) hinit
      (initState_cand MinAvgLinkage contigs G) (by have := hinit.bound; omega) (by omega)
    refine ⟨st, hst, by unfold finalClusterID; rw [hst]; rfl, ?_⟩
    exact clusterID_spec_of_inv hinv

/-- C16 fails as stated at the points between the assignment of the flags of a
merge and the end of the loop that reassigns the ids: in the first round of
Example A, once the flags are assigned (lines 109 to 111) and before the first
iteration of the loop of lines 122 to 127, contig 0 is not skipped and
`clusterID[0] = 0`, but `clusterExists[0]` is `false`. -/
theorem Cluster_clusterID_invariant_counterexample :
    roundStart 0 (plainContigs 4) exampleA 2 0 = some (initState 0 (plainContigs 4) exampleA) ∧
    (initState 0 (plainContigs 4) exampleA).merges =
      [⟨0, 1, F64.fin 50⟩, ⟨2, 3, F64.fin 40⟩] ∧
    midMerge 4 (initState 0 (plainContigs 4) exampleA) ⟨0, 1, F64.fin 50⟩ 0 =
      some ([0, 1, 2, 3], [false, false, true, true, true, false, false, false]) ∧
    skipAt (plainContigs 4) 0 = false ∧
    ([0, 1, 2, 3] : List Int)[0]? = some 0 ∧
    ([false, false, true, true, true, false, false, false] : List Bool)[(0 : Int).toNat]? =
      some false := by
  refine ⟨rfl, by with_unfolding_all decide, by with_unfolding_all decide, by decide,
    by decide, by decide⟩

/-! ### The stop rule -/

/-- C13, as the code has it: at the start of round `n` (after `n` merges) the
loop stops if the candidate list is empty; otherwise it merges, and stops right
after the merge (`break`) if and only if more than `N/2` merges have occurred and
the counter `nonSingletonClusters` equals `K`.  In every other case, so also
when more than `N/2` merges have occurred and the counter is below `K`, it goes
on with the next round: it stops later when the candidate list is empty or when
a later merge brings the counter to exactly `K`. -/
theorem clusterLoop_stop_rule (MinAvgLinkage : Int) (contigs : List Contig)
    (G : Nat → Nat → Int) (K : Int) (n : Nat) (st : ClusterState)
    (h : roundStart MinAvgLinkage contigs G K n = some st) (fuel : Nat) :
    st.nMerges = n ∧
    (st.merges = [] →
      clusterLoop MinAvgLinkage contigs.length G K (fuel + 1) st = some st) ∧
    (∀ first rest, st.merges = first :: rest →
      ∃ st' done, mergeStep MinAvgLinkage contigs.length G K st first = some (st', done) ∧
        st'.nMerges = n + 1 ∧
        (done = true ↔ (st'.nMerges > contigs.length / 2 ∧ st'.nonSingletonClusters = K)) ∧
        (done = true →
          clusterLoop MinAvgLinkage contigs.length G K (fuel + 1) st = some st') ∧
        (done = false →
          clusterLoop MinAvgLinkage contigs.length G K (fuel + 1) st =
            clusterLoop MinAvgLinkage contigs.length G K fuel st' ∧
          roundStart MinAvgLinkage contigs G K (n + 1) = some st')) := by
  have hn := roundStart_nMerges MinAvgLinkage contigs G K n st h
  refine ⟨hn, ?_, ?_⟩
  · intro hm
    simp only [clusterLoop, hm]
  · intro first rest hm
    obtain ⟨hinv, hcand⟩ := roundStart_inv MinAvgLinkage contigs G K n st h
    obtain ⟨st', done, hstep, _, _, _⟩ := mergeStep_inv MinAvgLinkage contigs G K st
      first (by rw [hm]; exact List.mem_cons_self _ _) hinv hcand
    obtain ⟨_, _, _, _, _, _, _, _, _, _, _, _, _, _, _, _, hn', hdone, _⟩ := mergeStep_some hstep
    refine ⟨st', done, hstep, by rw [hn', hn], ?_, ?_, ?_⟩
    · rw [hdone]
      simp only [Bool.and_eq_true, decide_eq_true_eq]
    · intro hd
      simp only [clusterLoop, hm, hstep, hd, if_true]
    · intro hd
      subst hd
      refine ⟨?_, ?_⟩
      · simp only [clusterLoop, hm, hstep, Bool.false_eq_true, if_false]
      · simp only [roundStart, h, hm, hstep]

/-- The amended C13 at the start of round 1 of Example A. -/
theorem clusterLoop_stop_rule_witness :
    exampleARound1.nMerges = 1 ∧
    (exampleARound1.merges = [] →
      clusterLoop 0 (plainContigs 4).length exampleA 2 (3 + 1) exampleARound1 =
        some exampleARound1) ∧
    (∀ first rest, exampleARound1.merges = first :: rest →
      ∃ st' done, mergeStep 0 (plainContigs 4).length exampleA 2 exampleARound1 first =
          some (st', done) ∧
        st'.nMerges = 1 + 1 ∧
        (done = true ↔ (st'.nMerges > (plainContigs 4).length / 2 ∧
          st'.nonSingletonClusters = 2)) ∧
        (done = true →
          clusterLoop 0 (plainContigs 4).length exampleA 2 (3 + 1) exampleARound1 = some st') ∧
        (done = false →
          clusterLoop 0 (plainContigs 4).length exampleA 2 (3 + 1) exampleARound1 =
            clusterLoop 0 (plainContigs 4).length exampleA 2 3 st' ∧
          roundStart 0 (plainContigs 4) exampleA 2 (1 + 1) = some st')) :=
  clusterLoop_stop_rule 0 (plainContigs 4) exampleA 2 1 exampleARound1
    roundStart_exampleA_one 3

/-- C13 fails as stated: with eight contigs, the matrix `exampleB` and `K = 2`,
at the start of round 5 more than `N/2 = 4` merges have occurred and the counter
is `1 < K`; the loop goes on, the merge of contigs 6 and 7 brings the counter to
`2 = K`, and the loop stops on `break` with the clusters 12 and 13, although the
candidates are not exhausted: the list computed in that round (the same round
with `K = 3` does not stop and assigns it) holds the pair `(12, 13)`. -/
theorem clusterLoop_stop_rule_counterexample :
    (roundStart 0 (plainContigs 8) exampleB 2 5).map
        (fun st => (st.nMerges, st.nonSingletonClusters, st.merges)) =
      some (5, 1, [⟨6, 7, F64.fin 10⟩, ⟨6, 12, F64.fin (1 / 6)⟩]) ∧
    (afterMerge 0 (plainContigs 8) exampleB 2 5).map
        (fun r => (r.1.nMerges, r.1.nonSingletonClusters, r.2)) = some (6, 2, true) ∧
    (afterMerge 0 (plainContigs 8) exampleB 3 5).map (fun r => (r.1.merges, r.2)) =
      some ([⟨12, 13, F64.fin (1 / 12)⟩], false) ∧
    finalClusterID 0 (plainContigs 8) exampleB 2 = some [12, 12, 12, 12, 12, 12, 13, 13] := by
  refine ⟨by with_unfolding_all decide, by with_unfolding_all decide,
    by with_unfolding_all decide, by with_unfolding_all decide⟩

/-! ### Counting the members of a cluster -/

theorem mem_members {clusterID : List Int} {c : Int} {i : Nat} :
    i ∈ members clusterID c ↔ clusterID[i]? = some c := by
  unfold members
  simp only [List.mem_map, List.mem_filter, decide_eq_true_eq]
  constructor
  · rintro ⟨ic, ⟨hic, hc⟩, rfl⟩
    rw [List.mem_enum_iff_getElem?.1 hic, hc]
  · intro h
    exact ⟨(i, c), ⟨List.mem_enum_iff_getElem?.2 h, rfl⟩, rfl⟩

theorem members_nodup (clusterID : List Int) (c : Int) : (members clusterID c).Nodup := by
  unfold members
  have h := List.nodup_enum_map_fst clusterID
  exact ((List.filter_sublist _).map Prod.fst).nodup h

theorem members_length (clusterID : List Int) (c : Int) :
    (members clusterID c).length = clusterID.count c := by
  unfold members
  rw [List.length_map, ← List.countP_eq_length_filter]
  have h := List.countP_map (fun x : Int => decide (x = c)) Prod.snd clusterID.enum
  rw [List.enum_map_snd] at h
  rw [List.count_eq_countP]
  have hfun : (fun x : Int => x == c) = (fun x : Int => decide (x = c)) := by
    funext x; simp [BEq.beq]
  rw [hfun, h]
  rfl

theorem count_map_mergedID_other (bm : merge) (new : Nat) (l : List Int) {k : Int}
    (ha : k ≠ (bm.a : Int)) (hb : k ≠ (bm.b : Int)) (hn : k ≠ (new : Int)) :
    (l.map (mergedID bm new)).count k = l.count k := by
  induction l with
  | nil => rfl
  | cons c rest ih =>
    rw [List.map_cons, List.count_cons, List.count_cons, ih]
    congr 1
    unfold mergedID
    by_cases hm : (decide (c = (bm.a : Int)) || decide (c = (bm.b : Int))) = true
    · rw [if_pos hm]
      simp only [Bool.or_eq_true, decide_eq_true_eq] at hm
      have h1 : ¬ ((new : Int) == k) = true := by simpa using fun e => hn e.symm
      have h2 : ¬ (c == k) = true := by
        rcases hm with e | e <;> simp [e, Ne.symm ha, Ne.symm hb]
      rw [if_neg h1, if_neg h2]
    · rw [if_neg hm]

theorem count_map_mergedID_new (bm : merge) (new : Nat) (l : List Int)
    (hab : (bm.a : Int) ≠ (bm.b : Int)) (ha : (bm.a : Int) ≠ (new : Int))
    (hb : (bm.b : Int) ≠ (new : Int)) :
    (l.map (mergedID bm new)).count (new : Int) =
      l.count (bm.a : Int) + l.count (bm.b : Int) + l.count (new : Int) := by
  induction l with
  | nil => rfl
  | cons c rest ih =>
    rw [List.map_cons, List.count_cons, List.count_cons, List.count_cons, List.count_cons, ih]
    unfold mergedID
    by_cases h1 : c = (bm.a : Int)
    · subst h1
      simp [hab, ha]
      omega
    · by_cases h2 : c = (bm.b : Int)
      · subst h2
        simp [Ne.symm hab, hb]
        omega
      · by_cases h3 : c = (new : Int)
        · subst h3
          simp [Ne.symm ha, Ne.symm hb]
          omega
        · simp [h1, h2, h3]

/-- The array `clusterExists` after the three assignments of a merge. -/
theorem exists_after_merge {e : List Bool} {a b new : Nat} (ha : e[a]? = some true)
    (hb : e[b]? = some true) (hn : e[new]? = some false) (k : Nat) :
    (((e.set a false).set b false).set new true)[k]? = some true ↔
      k = new ∨ (e[k]? = some true ∧ k ≠ a ∧ k ≠ b) := by
  have hla := lt_length_of_getElem? ha
  have hlb := lt_length_of_getElem? hb
  have hln := lt_length_of_getElem? hn
  by_cases hkn : k = new
  · subst hkn
    rw [getElem?_set_self' _ (by simpa using hln)]
    simp
  · rw [getElem?_set_ne' _ (Ne.symm hkn)]
    by_cases hkb : k = b
    · subst hkb
      rw [getElem?_set_self' _ (by simpa using hlb)]
      simp [hkn]
    · rw [getElem?_set_ne' _ (Ne.symm hkb)]
      by_cases hka : k = a
      · subst hka
        rw [getElem?_set_self' _ hla]
        simp [hkn]
      · rw [getElem?_set_ne' _ (Ne.symm hka)]
        simp [hkn, hka, hkb]

theorem count_true_drop_set_false {l : List Bool} {i : Nat} (N : Nat)
    (h : l[i]? = some true) :
    ((l.set i false).drop N).count true + (if N ≤ i then 1 else 0) = (l.drop N).count true := by
  rw [List.drop_set]
  by_cases hi : i < N
  · rw [if_pos hi, if_neg (by omega)]; rfl
  · rw [if_neg hi, if_pos (by omega)]
    apply count_true_set_false
    rw [List.getElem?_drop]
    have : N + (i - N) = i := by omega
    rw [this]; exact h

theorem count_true_drop_set_true {l : List Bool} {i : Nat} (N : Nat)
    (h : l[i]? = some false) :
    ((l.set i true).drop N).count true = (l.drop N).count true + (if N ≤ i then 1 else 0) := by
  rw [List.drop_set]
  by_cases hi : i < N
  · rw [if_pos hi, if_neg (by omega)]; rfl
  · rw [if_neg hi, if_pos (by omega)]
    apply count_true_set_true
    rw [List.getElem?_drop]
    have : N + (i - N) = i := by omega
    rw [this]; exact h

/-! ### The invariant of the sizes and of the counter -/

theorem length_eq_one_of_forall_eq {α : Type} {l : List α} {a : α} (hnd : l.Nodup)
    (ha : a ∈ l) (h : ∀ x ∈ l, x = a) : l.length = 1 := by
  match l, hnd, ha, h with
  | [x], _, _, _ => rfl
  | x :: y :: rest, hnd, _, h =>
    have hx := h x (by simp)
    have hy := h y (by simp)
    simp only [List.nodup_cons, List.mem_cons] at hnd
    exact absurd (Or.inl (hx.trans hy.symm)) hnd.1

theorem initState_count (MinAvgLinkage : Int) (contigs : List Contig) (G : Nat → Nat → Int)
    {k : Nat} (hk : k < contigs.length) (hs : skipAt contigs k = false) :
    (initState MinAvgLinkage contigs G).clusterID.count (k : Int) = 1 := by
  rw [← members_length]
  have hget : contigs[k]? = some contigs[k] := List.getElem?_eq_getElem hk
  have hskip : (contigs[k]).skip = false := by
    simpa [skipAt, hget] using hs
  apply length_eq_one_of_forall_eq (a := k) (members_nodup _ _)
  · rw [mem_members, initState_clusterID, hget]
    simp [hskip]
  · intro i hi
    rw [mem_members, initState_clusterID] at hi
    cases hc : contigs[i]? with
    | none => rw [hc] at hi; cases hi
    | some contig =>
      rw [hc] at hi
      simp only [Option.map_some', Option.some.injEq] at hi
      split at hi
      · omega
      · exact_mod_cast hi

theorem initState_size (MinAvgLinkage : Int) (contigs : List Contig) (G : Nat → Nat → Int) :
    SizeInv contigs (initState MinAvgLinkage contigs G) := by
  have hsz : ∀ k : Nat, k < contigs.length →
      (initState MinAvgLinkage contigs G).clusterSize[k]? =
        some (if skipAt contigs k = true then 0 else 1) := by
    intro k hk
    have hget : contigs[k]? = some contigs[k] := List.getElem?_eq_getElem hk
    simp only [initState, skipAt, hget]
    rw [List.getElem?_append_left (by simpa using hk), List.getElem?_map, hget]
    rfl
  have hex : ∀ k : Nat, (initState MinAvgLinkage contigs G).clusterExists[k]? = some true →
      k < contigs.length ∧ skipAt contigs k = false := by
    intro k h
    have hk := initState_exists_true MinAvgLinkage contigs G h
    rw [initState_exists_lt MinAvgLinkage contigs G hk] at h
    refine ⟨hk, ?_⟩
    simpa using h
  refine ⟨?_, ?_, ?_, ?_, ?_⟩
  · intro k v h
    by_cases hk : k < contigs.length
    · rw [hsz k hk] at h
      cases Option.some.inj h
      split <;> omega
    · simp only [initState] at h
      rw [List.getElem?_append_right (by simpa using not_lt.1 hk), List.getElem?_replicate] at h
      split at h
      · cases Option.some.inj h; exact le_rfl
      · cases h
  · intro k h
    obtain ⟨hk, hs⟩ := hex k h
    rw [hsz k hk, initState_count MinAvgLinkage contigs G hk hs]
    simp [hs]
  · intro k h hk
    obtain ⟨_, hs⟩ := hex k h
    rw [hsz k hk]
    simp [hs]
  · intro k h hk
    have := (hex k h).1
    omega
  · simp only [initState]
    rw [List.drop_left' (by simp)]
    simp [List.count_replicate]

/-- A merge keeps the invariant of the sizes and of the counter.  The size
recorded for the new cluster is the sum of the sizes of the two merged
clusters, both at least 1, and it is the number of contigs that carry the new
id. -/
theorem mergeStep_size (MinAvgLinkage : Int) (contigs : List Contig) (G : Nat → Nat → Int)
    (K : Int) (st st' : ClusterState) (first : merge) (done : Bool)
    (hfirst : first ∈ st.merges) (hinv : ClusterInv contigs st) (hcand : CandInv st)
    (hsize : SizeInv contigs st)
    (hstep : mergeStep MinAvgLinkage contigs.length G K st first = some (st', done)) :
    SizeInv contigs st' ∧
    ∃ sA sB : Int, st.clusterSize[(findBestMerge first st.merges).a]? = some sA ∧
      st.clusterSize[(findBestMerge first st.merges).b]? = some sB ∧
      1 ≤ sA ∧ 1 ≤ sB ∧
      (sA = 1 ↔ (findBestMerge first st.merges).a < contigs.length) ∧
      (sB = 1 ↔ (findBestMerge first st.merges).b < contigs.length) ∧
      st'.clusterSize[contigs.length + st.nMerges]? = some (sA + sB) ∧
      ((st'.clusterID.count ((contigs.length + st.nMerges : Nat) : Int) : Nat) : Int) =
        sA + sB := by
  obtain ⟨sA, sB, kept, total, h1, h2, h3, h4, hsA, hsB, _, _, hcid, hsz, hex, hns, hnm, _, _⟩ :=
    mergeStep_some hstep
  obtain ⟨bm, hbmdef⟩ : ∃ bm, bm = findBestMerge first st.merges := ⟨_, rfl⟩
  rw [← hbmdef] at h1 h2 hsA hsB hcid hex hns ⊢
  have hbm : bm ∈ st.merges := by
    rcases findBestMerge_mem first st.merges with h | h
    · rw [hbmdef, h]; exact hfirst
    · rw [hbmdef]; exact h
  obtain ⟨hab, hea, heb⟩ := hcand bm hbm
  have ha_lt : bm.a < contigs.length + st.nMerges := hinv.fresh _ hea
  have hb_lt : bm.b < contigs.length + st.nMerges := hinv.fresh _ heb
  have hnew_false : st.clusterExists[contigs.length + st.nMerges]? = some false := by
    rw [List.getElem?_eq_getElem h3]
    cases hv : st.clusterExists[contigs.length + st.nMerges] with
    | false => rfl
    | true =>
      have := hinv.fresh (contigs.length + st.nMerges)
        (by rw [List.getElem?_eq_getElem h3, hv])
      omega
  have hE : ∀ k : Nat, st'.clusterExists[k]? = some true ↔
      k = contigs.length + st.nMerges ∨ (st.clusterExists[k]? = some true ∧ k ≠ bm.a ∧ k ≠ bm.b) := by
    intro k; rw [hex]; exact exists_after_merge hea heb hnew_false k
  -- the sizes of the two merged clusters
  have hsA' : sA = ((st.clusterID.count (bm.a : Int) : Nat) : Int) := by
    have := hsize.size bm.a hea; rw [hsA] at this; exact Option.some.inj this
  have hsB' : sB = ((st.clusterID.count (bm.b : Int) : Nat) : Int) := by
    have := hsize.size bm.b heb; rw [hsB] at this; exact Option.some.inj this
  have hpos : ∀ k : Nat, st.clusterExists[k]? = some true → ∀ v, st.clusterSize[k]? = some v →
      1 ≤ v ∧ (v = 1 ↔ k < contigs.length) := by
    intro k hk v hv
    by_cases hkN : k < contigs.length
    · have := hsize.single k hk hkN
      rw [hv] at this
      cases Option.some.inj this
      exact ⟨le_rfl, by simp [hkN]⟩
    · obtain ⟨v', hv', h2'⟩ := hsize.composite k hk (not_lt.1 hkN)
      rw [hv] at hv'
      cases Option.some.inj hv'
      exact ⟨by omega, by constructor <;> intro h <;> omega⟩
  obtain ⟨hA1, hA2⟩ := hpos bm.a hea sA hsA
  obtain ⟨hB1, hB2⟩ := hpos bm.b heb sB hsB
  -- no contig carries the new id before the merge
  have hnone : st.clusterID.count ((contigs.length + st.nMerges : Nat) : Int) = 0 := by
    rw [List.count_eq_zero]
    intro hmem
    obtain ⟨i, hi⟩ := List.mem_iff_getElem?.1 hmem
    rcases hinv.ids i _ hi with h | ⟨_, h⟩
    · omega
    · rw [Int.toNat_ofNat] at h
      have := hinv.fresh _ h
      omega
  have hcnew : st'.clusterID.count ((contigs.length + st.nMerges : Nat) : Int) =
      st.clusterID.count (bm.a : Int) + st.clusterID.count (bm.b : Int) := by
    rw [hcid, count_map_mergedID_new bm _ _ (by omega) (by omega) (by omega), hnone]
    rfl
  have hsnew : st'.clusterSize[contigs.length + st.nMerges]? = some (sA + sB) := by
    rw [hsz]; exact getElem?_set_self' _ h4
  have hsold : ∀ k : Nat, k ≠ contigs.length + st.nMerges →
      st'.clusterSize[k]? = st.clusterSize[k]? := by
    intro k hk; rw [hsz]; exact getElem?_set_ne' _ (Ne.symm hk)
  refine ⟨⟨?_, ?_, ?_, ?_, ?_⟩, sA, sB, hsA, hsB, hA1, hB1, hA2, hB2, hsnew, ?_⟩
  · intro k v hv
    by_cases hk : k = contigs.length + st.nMerges
    · rw [hk, hsnew] at hv
      cases Option.some.inj hv
      omega
    · rw [hsold k hk] at hv
      exact hsize.nonneg k v hv
  · intro k hk
    rcases (hE k).1 hk with rfl | ⟨hk1, hka, hkb⟩
    · rw [hsnew, hcnew, hsA', hsB']
      push_cast; rfl
    · have hkn : k ≠ contigs.length + st.nMerges := by
        have := hinv.fresh k hk1; omega
      rw [hsold k hkn, hsize.size k hk1, hcid,
        count_map_mergedID_other bm _ _ (by omega) (by omega) (by omega)]
  · intro k hk hkN
    rcases (hE k).1 hk with rfl | ⟨hk1, _, _⟩
    · omega
    · rw [hsold k (by omega)]
      exact hsize.single k hk1 hkN
  · intro k hk hkN
    rcases (hE k).1 hk with rfl | ⟨hk1, _, _⟩
    · exact ⟨sA + sB, hsnew, by omega⟩
    · have hkn : k ≠ contigs.length + st.nMerges := by
        have := hinv.fresh k hk1; omega
      rw [hsold k hkn]
      exact hsize.composite k hk1 hkN
  · rw [hns, hsize.counter, hex]
    have c1 := count_true_drop_set_false contigs.length hea
    have h1b : (st.clusterExists.set bm.a false)[bm.b]? = some true := by
      rw [getElem?_set_ne' _ (ne_of_lt hab)]; exact heb
    have c2 := count_true_drop_set_false contigs.length h1b
    have h2n : ((st.clusterExists.set bm.a false).set bm.b false)[contigs.length + st.nMerges]? =
        some false := by
      rw [getElem?_set_ne' _ (ne_of_lt hb_lt), getElem?_set_ne' _ (ne_of_lt ha_lt)]
      exact hnew_false
    have c3 := count_true_drop_set_true contigs.length h2n
    rw [if_pos (by omega)] at c3
    by_cases hA : bm.a < contigs.length <;> by_cases hB : bm.b < contigs.length
    · rw [if_neg (by omega)] at c1 c2
      rw [if_pos hA, if_pos hB]; omega
    · rw [if_neg (by omega)] at c1
      rw [if_pos (by omega)] at c2
      rw [if_pos hA, if_neg hB]; omega
    · rw [if_pos (by omega)] at c1
      rw [if_neg (by omega)] at c2
      rw [if_neg hA, if_pos hB]; omega
    · rw [if_pos (by omega)] at c1 c2
      rw [if_neg hA, if_neg hB]; omega
  · rw [hcnew, hsA', hsB']
    push_cast; rfl

theorem afterMerge_exampleA_one :
    afterMerge 0 (plainContigs 4) exampleA 2 1 = some (exampleARound2, false) := by
  with_unfolding_all decide

/-- The invariant of the sizes and of the counter holds at the start of every
round. -/
theorem roundStart_size (MinAvgLinkage : Int) (contigs : List Contig) (G : Nat → Nat → Int)
    (K : Int) : ∀ (n : Nat) (st : ClusterState),
      roundStart MinAvgLinkage contigs G K n = some st → SizeInv contigs st := by
  intro n
  induction n with
  | zero =>
    intro st h
    simp only [roundStart, Option.some.injEq] at h
    subst h
    exact initState_size MinAvgLinkage contigs G
  | succ n ih =>
    intro st' h
    obtain ⟨st, first, rest, hst, hm, hstep⟩ := roundStart_succ h
    obtain ⟨hinv, hcand⟩ := roundStart_inv MinAvgLinkage contigs G K n st hst
    exact (mergeStep_size MinAvgLinkage contigs G K st st' first false
      (by rw [hm]; exact List.mem_cons_self _ _) hinv hcand (ih st hst) hstep).1

/-- C17: after every merge, for every cluster flagged existent, `clusterSize[c]`
is the number of contigs `i` with `clusterID[i] = c`, and no recorded size is
negative, after the merge or at the start of any round; the merge of round `n`, of clusters of sizes `s1` and `s2`, yields the
cluster `N + n`, flagged existent, of recorded size `s1 + s2` and with exactly
`s1 + s2` member contigs. -/
theorem afterMerge_sizes (MinAvgLinkage : Int) (contigs : List Contig) (G : Nat → Nat → Int)
    (K : Int) (n : Nat) (st' : ClusterState) (done : Bool)
    (h : afterMerge MinAvgLinkage contigs G K n = some (st', done)) :
    (∀ k : Nat, st'.clusterExists[k]? = some true →
      st'.clusterSize[k]? = some ((st'.clusterID.count (k : Int) : Nat) : Int)) ∧
    (∀ (k : Nat) (v : Int), st'.clusterSize[k]? = some v → 0 ≤ v) ∧
    (∀ (m : Nat) (st : ClusterState), roundStart MinAvgLinkage contigs G K m = some st →
      ∀ (k : Nat) (v : Int), st.clusterSize[k]? = some v → 0 ≤ v) ∧
    ∃ st first rest s1 s2, roundStart MinAvgLinkage contigs G K n = some st ∧
      st.merges = first :: rest ∧
      st.clusterSize[(findBestMerge first st.merges).a]? = some s1 ∧
      st.clusterSize[(findBestMerge first st.merges).b]? = some s2 ∧
      st'.clusterExists[contigs.length + n]? = some true ∧
      st'.clusterSize[contigs.length + n]? = some (s1 + s2) ∧
      ((st'.clusterID.count ((contigs.length + n : Nat) : Int) : Nat) : Int) = s1 + s2 := by
  obtain ⟨st, first, rest, hst, hm, hstep⟩ := afterMerge_some h
  obtain ⟨hinv, hcand⟩ := roundStart_inv MinAvgLinkage contigs G K n st hst
  have hn := roundStart_nMerges MinAvgLinkage contigs G K n st hst
  have hfirst : first ∈ st.merges := by rw [hm]; exact List.mem_cons_self _ _
  obtain ⟨hsize', s1, s2, h1, h2, _, _, _, _, h3, h4⟩ := mergeStep_size MinAvgLinkage contigs G K
    st st' first done hfirst hinv hcand (roundStart_size MinAvgLinkage contigs G K n st hst) hstep
  obtain ⟨st'', done', hstep', hinv', _, _⟩ := mergeStep_inv MinAvgLinkage contigs G K st
    first hfirst hinv hcand
  rw [hstep] at hstep'
  simp only [Option.some.injEq, Prod.mk.injEq] at hstep'
  obtain ⟨rfl, rfl⟩ := hstep'
  rw [hn] at h3 h4
  refine ⟨hsize'.size, hsize'.nonneg,
    fun m st0 h0 => (roundStart_size MinAvgLinkage contigs G K m st0 h0).nonneg,
    st, first, rest, s1, s2, hst, hm, h1, h2, ?_, h3, h4⟩
  -- the new cluster is flagged existent: its recorded size is not zero
  obtain ⟨_, _, _, _, _, _, h3', _, _, _, _, _, _, _, hex, _⟩ := mergeStep_some hstep
  rw [hex, hn]
  exact getElem?_set_self' _ (by simp only [List.length_set]; rw [← hn]; exact h3')

/-- C17 at the merge of round 1 of Example A. -/
theorem afterMerge_sizes_witness :
    (∀ k : Nat, exampleARound2.clusterExists[k]? = some true →
      exampleARound2.clusterSize[k]? =
        some ((exampleARound2.clusterID.count (k : Int) : Nat) : Int)) ∧
    (∀ (k : Nat) (v : Int), exampleARound2.clusterSize[k]? = some v → 0 ≤ v) ∧
    (∀ (m : Nat) (st : ClusterState), roundStart 0 (plainContigs 4) exampleA 2 m = some st →
      ∀ (k : Nat) (v : Int), st.clusterSize[k]? = some v → 0 ≤ v) ∧
    ∃ st first rest s1 s2, roundStart 0 (plainContigs 4) exampleA 2 1 = some st ∧
      st.merges = first :: rest ∧
      st.clusterSize[(findBestMerge first st.merges).a]? = some s1 ∧
      st.clusterSize[(findBestMerge first st.merges).b]? = some s2 ∧
      exampleARound2.clusterExists[(plainContigs 4).length + 1]? = some true ∧
      exampleARound2.clusterSize[(plainContigs 4).length + 1]? = some (s1 + s2) ∧
      ((exampleARound2.clusterID.count (((plainContigs 4).length + 1 : Nat) : Int) : Nat) : Int) =
        s1 + s2 :=
  afterMerge_sizes 0 (plainContigs 4) exampleA 2 1 exampleARound2 false afterMerge_exampleA_one

/-- C18: after every merge, the counter `nonSingletonClusters` is the number of
clusters flagged existent whose id is at least `N`, and these are the clusters
flagged existent that have two or more members. -/
theorem afterMerge_counter (MinAvgLinkage : Int) (contigs : List Contig)
    (G : Nat → Nat → Int) (K : Int) (n : Nat) (st' : ClusterState) (done : Bool)
    (h : afterMerge MinAvgLinkage contigs G K n = some (st', done)) :
    st'.nonSingletonClusters =
      (((st'.clusterExists.drop contigs.length).count true : Nat) : Int) ∧
    ∀ k : Nat, st'.clusterExists[k]? = some true →
      (2 ≤ st'.clusterID.count (k : Int) ↔ contigs.length ≤ k) := by
  obtain ⟨st, first, rest, hst, hm, hstep⟩ := afterMerge_some h
  obtain ⟨hinv, hcand⟩ := roundStart_inv MinAvgLinkage contigs G K n st hst
  have hfirst : first ∈ st.merges := by rw [hm]; exact List.mem_cons_self _ _
  obtain ⟨hsize', _⟩ := mergeStep_size MinAvgLinkage contigs G K
    st st' first done hfirst hinv hcand (roundStart_size MinAvgLinkage contigs G K n st hst) hstep
  refine ⟨hsize'.counter, ?_⟩
  intro k hk
  have hsz := hsize'.size k hk
  by_cases hkN : k < contigs.length
  · have := hsize'.single k hk hkN
    rw [hsz] at this
    have h1 : ((st'.clusterID.count (k : Int) : Nat) : Int) = 1 := Option.some.inj this
    constructor <;> intro h' <;> omega
  · obtain ⟨v, hv, h2⟩ := hsize'.composite k hk (not_lt.1 hkN)
    rw [hsz] at hv
    have h1 : ((st'.clusterID.count (k : Int) : Nat) : Int) = v := Option.some.inj hv
    constructor <;> intro _ <;> omega

/-- C18 at the merge of round 1 of Example A. -/
theorem afterMerge_counter_witness :
    exampleARound2.nonSingletonClusters =
      (((exampleARound2.clusterExists.drop (plainContigs 4).length).count true : Nat) : Int) ∧
    ∀ k : Nat, exampleARound2.clusterExists[k]? = some true →
      (2 ≤ exampleARound2.clusterID.count (k : Int) ↔ (plainContigs 4).length ≤ k) :=
  afterMerge_counter 0 (plainContigs 4) exampleA 2 1 exampleARound2 false afterMerge_exampleA_one

/-- C19, as the code has it: at the merge of round `n`, of the clusters `a` and
`b` of sizes `s1` and `s2`, the counter `nonSingletonClusters` is incremented
once for each merged side that is a singleton (size 1, id below `N`), and is
then decremented once: its net change is the number of singleton sides minus
one. -/
theorem afterMerge_counter_change (MinAvgLinkage : Int) (contigs : List Contig)
    (G : Nat → Nat → Int) (K : Int) (n : Nat) (st' : ClusterState) (done : Bool)
    (h : afterMerge MinAvgLinkage contigs G K n = some (st', done)) :
    ∃ st first rest s1 s2, roundStart MinAvgLinkage contigs G K n = some st ∧
      st.merges = first :: rest ∧
      st.clusterSize[(findBestMerge first st.merges).a]? = some s1 ∧
      st.clusterSize[(findBestMerge first st.merges).b]? = some s2 ∧
      (s1 = 1 ↔ (findBestMerge first st.merges).a < contigs.length) ∧
      (s2 = 1 ↔ (findBestMerge first st.merges).b < contigs.length) ∧
      st'.nonSingletonClusters = st.nonSingletonClusters
        + (if s1 = 1 then 1 else 0) + (if s2 = 1 then 1 else 0) - 1 := by
  obtain ⟨st, first, rest, hst, hm, hstep⟩ := afterMerge_some h
  obtain ⟨hinv, hcand⟩ := roundStart_inv MinAvgLinkage contigs G K n st hst
  have hfirst : first ∈ st.merges := by rw [hm]; exact List.mem_cons_self _ _
  obtain ⟨_, s1, s2, h1, h2, _, _, hA, hB, _, _⟩ := mergeStep_size MinAvgLinkage contigs G K
    st st' first done hfirst hinv hcand (roundStart_size MinAvgLinkage contigs G K n st hst) hstep
  obtain ⟨_, _, _, _, _, _, _, _, _, _, _, _, _, _, _, hns, _⟩ := mergeStep_some hstep
  refine ⟨st, first, rest, s1, s2, hst, hm, h1, h2, hA, hB, ?_⟩
  rw [hns]
  by_cases ha : (findBestMerge first st.merges).a < contigs.length <;>
    by_cases hb : (findBestMerge first st.merges).b < contigs.length
  · rw [if_pos ha, if_pos hb, if_pos (hA.2 ha), if_pos (hB.2 hb)]
  · rw [if_pos ha, if_neg hb, if_pos (hA.2 ha), if_neg (fun e => hb (hB.1 e))]
  · rw [if_neg ha, if_pos hb, if_neg (fun e => ha (hA.1 e)), if_pos (hB.2 hb)]
  · rw [if_neg ha, if_neg hb, if_neg (fun e => ha (hA.1 e)), if_neg (fun e => hb (hB.1 e))]

/-- The amended C19 at the merge of round 1 of Example A. -/
theorem afterMerge_counter_change_witness :
    ∃ st first rest s1 s2, roundStart 0 (plainContigs 4) exampleA 2 1 = some st ∧
      st.merges = first :: rest ∧
      st.clusterSize[(findBestMerge first st.merges).a]? = some s1 ∧
      st.clusterSize[(findBestMerge first st.merges).b]? = some s2 ∧
      (s1 = 1 ↔ (findBestMerge first st.merges).a < (plainContigs 4).length) ∧
      (s2 = 1 ↔ (findBestMerge first st.merges).b < (plainContigs 4).length) ∧
      exampleARound2.nonSingletonClusters = st.nonSingletonClusters
        + (if s1 = 1 then 1 else 0) + (if s2 = 1 then 1 else 0) - 1 :=
  afterMerge_counter_change 0 (plainContigs 4) exampleA 2 1 exampleARound2 false
    afterMerge_exampleA_one

/-- C19 fails as stated: the first merge of Example A joins the clusters 0 and
1, both singletons (size 1, id below `N = 4`), so none of the merged sides is a
non-singleton cluster and the claim gives the counter the net change `-1`; the
code takes the counter from 0 to 1. -/
theorem afterMerge_counter_change_counterexample :
    (initState 0 (plainContigs 4) exampleA).nonSingletonClusters = 0 ∧
    (initState 0 (plainContigs 4) exampleA).merges = [⟨0, 1, F64.fin 50⟩, ⟨2, 3, F64.fin 40⟩] ∧
    findBestMerge ⟨0, 1, F64.fin 50⟩ (initState 0 (plainContigs 4) exampleA).merges =
      ⟨0, 1, F64.fin 50⟩ ∧
    (initState 0 (plainContigs 4) exampleA).clusterSize[0]? = some 1 ∧
    (initState 0 (plainContigs 4) exampleA).clusterSize[1]? = some 1 ∧
    (afterMerge 0 (plainContigs 4) exampleA 2 0).map (fun r => r.1.nonSingletonClusters) =
      some 1 := by
  refine ⟨by decide, by with_unfolding_all decide, by with_unfolding_all decide, by decide,
    by decide, by with_unfolding_all decide⟩

/-! ### The scores of the candidates -/

theorem getD_set_int (total : List Int) (c k : Nat) (v : Int) (hc : c < total.length) :
    (total.set c v).getD k 0 = if k = c then v else total.getD k 0 := by
  rw [List.getD_eq_getElem?_getD, List.getD_eq_getElem?_getD, List.getElem?_set]
  by_cases h : c = k
  · subst h; simp [hc]
  · rw [if_neg h, if_neg (fun e => h e.symm)]

/-- The value that the inner loop of lines 152 to 154 adds to
`totalLinkageByCluster[cID]`. -/
theorem addLinkages_value (G : Nat → Nat → Int) (i : Nat) (cID : Int) :
    ∀ (newCluster : List Nat) (total t : List Int),
      addLinkages G i cID newCluster total = some t →
      ∀ k : Nat, t.getD k 0 = total.getD k 0 +
        if (k : Int) = cID then (newCluster.map (fun j => G i j)).sum else 0 := by
  intro newCluster
  induction newCluster with
  | nil =>
    intro total t h k
    simp only [addLinkages, Option.some.injEq] at h
    subst h
    simp
  | cons j js ih =>
    intro total t h k
    simp only [addLinkages] at h
    by_cases hv : 0 ≤ cID ∧ cID.toNat < total.length
    · rw [addAt_eq _ hv.1 hv.2] at h
      rw [ih _ t h k, getD_set_int _ _ _ _ hv.2]
      have hiff : (k : Int) = cID ↔ k = cID.toNat := by omega
      by_cases hk : k = cID.toNat
      · rw [if_pos hk, if_pos (hiff.2 hk), if_pos (hiff.2 hk), List.map_cons, List.sum_cons,
          ← hk]
        ring
      · rw [if_neg hk, if_neg (fun e => hk (hiff.1 e)), if_neg (fun e => hk (hiff.1 e))]
    · unfold addAt at h
      rw [if_neg hv] at h
      cases h

/-- The value of `totalLinkageByCluster[k]` after the loop of lines 144 to 155,
for a cluster `k` other than the new one: the links between the contigs of
cluster `k` and the contigs of the new cluster. -/
theorem totalLinkageLoop_value (G : Nat → Nat → Int) (newClusterID : Nat)
    (newCluster : List Nat) (k : Nat) (hk : k ≠ newClusterID) :
    ∀ (l : List (Nat × Int)) (total t : List Int),
      totalLinkageLoop G newClusterID newCluster l total = some t →
      t.getD k 0 = total.getD k 0 +
        (((l.filter (fun ic => decide (ic.2 = (k : Int)))).map Prod.fst).map
          (fun i => (newCluster.map (fun j => G i j)).sum)).sum := by
  intro l
  induction l with
  | nil =>
    intro total t h
    simp only [totalLinkageLoop, Option.some.injEq] at h
    subst h
    simp
  | cons ic rest ih =>
    intro total t h
    obtain ⟨i, cID⟩ := ic
    simp only [totalLinkageLoop] at h
    by_cases h1 : cID = newClusterID
    · rw [if_pos h1] at h
      have hne : ¬ cID = (k : Int) := by
        intro e; rw [e] at h1; exact hk (by exact_mod_cast h1)
      rw [ih total t h, List.filter_cons_of_neg (by simpa using hne)]
    · rw [if_neg h1] at h
      by_cases h2 : cID = -1
      · rw [if_pos h2] at h
        have hne : ¬ cID = (k : Int) := by omega
        rw [ih total t h, List.filter_cons_of_neg (by simpa using hne)]
      · rw [if_neg h2] at h
        cases h3 : addLinkages G i cID newCluster total with
        | none => rw [h3] at h; cases h
        | some t1 =>
          rw [h3] at h
          simp only at h
          rw [ih t1 t h, addLinkages_value G i cID newCluster total t1 h3 k]
          by_cases hc : cID = (k : Int)
          · rw [if_pos hc.symm, List.filter_cons_of_pos (by simpa using hc)]
            simp only [List.map_cons, List.sum_cons]
            ring
          · rw [if_neg (fun e => hc e.symm), List.filter_cons_of_neg (by simpa using hc)]
            ring

/-- The slice `newCluster` of a merge holds the members of the new cluster. -/
theorem newClusterOf_eq_members (bm : merge) (new : Nat) (clusterID : List Int)
    (hnew : ∀ c ∈ clusterID, c ≠ (new : Int)) :
    newClusterOf bm clusterID = members (clusterID.map (mergedID bm new)) (new : Int) := by
  unfold newClusterOf members
  rw [List.enum_map, List.filter_map, List.map_map]
  have hfst : (Prod.fst ∘ Prod.map id (mergedID bm new) : Nat × Int → Nat) = Prod.fst := by
    funext ic; rfl
  rw [hfst]
  congr 1
  apply List.filter_congr
  intro ic hic
  have hmem : ic.2 ∈ clusterID := by
    have := List.mem_enum_iff_getElem?.1 (show (ic.1, ic.2) ∈ clusterID.enum from hic)
    exact List.mem_iff_getElem?.2 ⟨_, this⟩
  have hne := hnew ic.2 hmem
  simp only [Function.comp, Prod.map, id, mergedID]
  by_cases hm : (decide (ic.2 = (bm.a : Int)) || decide (ic.2 = (bm.b : Int))) = true
  · simp only [if_pos hm, hm, decide_True, if_true]
  · simp only [if_neg hm, hne, decide_False]
    simpa using hm

/-- The members of a cluster that takes no part in a merge are unchanged. -/
theorem members_map_mergedID_other (bm : merge) (new : Nat) (clusterID : List Int) {k : Int}
    (ha : k ≠ (bm.a : Int)) (hb : k ≠ (bm.b : Int)) (hn : k ≠ (new : Int)) :
    members (clusterID.map (mergedID bm new)) k = members clusterID k := by
  unfold members
  rw [List.enum_map, List.filter_map, List.map_map]
  have hfst : (Prod.fst ∘ Prod.map id (mergedID bm new) : Nat × Int → Nat) = Prod.fst := by
    funext ic; rfl
  rw [hfst]
  congr 1
  apply List.filter_congr
  intro ic _
  simp only [Function.comp, Prod.map, id, mergedID]
  by_cases hm : (decide (ic.2 = (bm.a : Int)) || decide (ic.2 = (bm.b : Int))) = true
  · simp only [if_pos hm]
    simp only [Bool.or_eq_true, decide_eq_true_eq] at hm
    have h1 : ¬ (new : Int) = k := fun e => hn e.symm
    have h2 : ¬ ic.2 = k := by
      rcases hm with e | e
      · rw [e]; exact fun e' => ha e'.symm
      · rw [e]; exact fun e' => hb e'.symm
    simp only [h1, h2]
  · simp only [if_neg hm]

/-- The quotient `float64(t) / float64(s1) / float64(s2)` of line 165 in exact
arithmetic, for sizes that are not zero. -/
theorem F64.div_div_ofInt (t s1 s2 : Int) (h1 : s1 ≠ 0) (h2 : s2 ≠ 0) :
    F64.div (F64.div (F64.ofInt t) (F64.ofInt s1)) (F64.ofInt s2) =
      F64.fin ((t : ℚ) / ((s1 : ℚ) * (s2 : ℚ))) := by
  have h1' : ¬ ((s1 : ℚ) = 0) := by exact_mod_cast h1
  have h2' : ¬ ((s2 : ℚ) = 0) := by exact_mod_cast h2
  simp only [F64.ofInt, F64.div, if_neg h1', if_neg h2']
  rw [div_div]

theorem totalLinkageLoop_new (G : Nat → Nat → Int) (newClusterID : Nat)
    (newCluster : List Nat) :
    ∀ (l : List (Nat × Int)) (total t : List Int),
      totalLinkageLoop G newClusterID newCluster l total = some t →
      t.getD newClusterID 0 = total.getD newClusterID 0 := by
  intro l
  induction l with
  | nil =>
    intro total t h
    simp only [totalLinkageLoop, Option.some.injEq] at h
    rw [h]
  | cons ic rest ih =>
    intro total t h
    obtain ⟨i, cID⟩ := ic
    simp only [totalLinkageLoop] at h
    by_cases h1 : cID = newClusterID
    · rw [if_pos h1] at h
      exact ih total t h
    · rw [if_neg h1] at h
      by_cases h2 : cID = -1
      · rw [if_pos h2] at h
        exact ih total t h
      · rw [if_neg h2] at h
        cases h3 : addLinkages G i cID newCluster total with
        | none => rw [h3] at h; cases h
        | some t1 =>
          rw [h3] at h
          simp only at h
          rw [ih t1 t h, addLinkages_value G i cID newCluster total t1 h3 newClusterID,
            if_neg (fun e => h1 e.symm), add_zero]

theorem mem_newCandidates_score {MinAvgLinkage : Int} {N newClusterID : Nat}
    {clusterSize totalLinkageByCluster : List Int} {m : merge}
    (h : m ∈ newCandidates MinAvgLinkage N newClusterID clusterSize totalLinkageByCluster) :
    ∃ i, i < 2 * N ∧ 0 < totalLinkageByCluster.getD i 0 ∧
      m.a = min i newClusterID ∧ m.b = max i newClusterID ∧
      m.score = F64.div
        (F64.div (F64.ofInt (totalLinkageByCluster.getD i 0)) (F64.ofInt (clusterSize.getD i 0)))
        (F64.ofInt (clusterSize.getD newClusterID 0)) := by
  unfold newCandidates at h
  obtain ⟨i, hi, hm⟩ := List.mem_filterMap.1 h
  refine ⟨i, List.mem_range.1 hi, ?_⟩
  by_cases h1 : totalLinkageByCluster.getD i 0 ≤ 0
  · rw [if_pos h1] at hm; cases hm
  · rw [if_neg h1] at hm
    simp only at hm
    split at hm
    · cases hm
    · cases hm
      exact ⟨not_le.1 h1, rfl, rfl, rfl⟩

/-- No pair of clusters occurs twice among the candidates that pair a cluster
with the new cluster. -/
theorem newCandidates_pairs_nodup (MinAvgLinkage : Int) (N newClusterID : Nat)
    (clusterSize totalLinkageByCluster : List Int) :
    ((newCandidates MinAvgLinkage N newClusterID clusterSize totalLinkageByCluster).map
      (fun m => (m.a, m.b))).Nodup := by
  unfold newCandidates
  rw [List.map_filterMap]
  apply List.Nodup.filterMap _ (List.nodup_range _)
  intro i i' p hp hp'
  have key : ∀ k : Nat, ∀ q : Nat × Nat,
      q ∈ Option.map (fun m : merge => (m.a, m.b))
        (if totalLinkageByCluster.getD k 0 ≤ 0 then none
        else
          if F64.lt (F64.div (F64.div (F64.ofInt (totalLinkageByCluster.getD k 0))
              (F64.ofInt (clusterSize.getD k 0))) (F64.ofInt (clusterSize.getD newClusterID 0)))
            (F64.ofInt MinAvgLinkage) = true then none
          else some ⟨min k newClusterID, max k newClusterID,
            F64.div (F64.div (F64.ofInt (totalLinkageByCluster.getD k 0))
              (F64.ofInt (clusterSize.getD k 0)))
              (F64.ofInt (clusterSize.getD newClusterID 0))⟩) →
      q = (min k newClusterID, max k newClusterID) := by
    intro k q hq
    split at hq
    · cases hq
    · split at hq
      · cases hq
      · simp only [Option.map_some', Option.mem_def, Option.some.injEq] at hq
        exact hq.symm
  have e1 := key i p hp
  have e2 := key i' p hp'
  rw [e1] at e2
  simp only [Prod.mk.injEq] at e2
  omega

/-- A round of the merge loop that does not end on `break` keeps the invariant
of the scores. -/
theorem mergeStep_score (MinAvgLinkage : Int) (contigs : List Contig) (G : Nat → Nat → Int)
    (K : Int) (st st' : ClusterState) (first : merge)
    (hfirst : first ∈ st.merges) (hinv : ClusterInv contigs st) (hcand : CandInv st)
    (hsize : SizeInv contigs st) (hscore : ScoreInv G st)
    (hstep : mergeStep MinAvgLinkage contigs.length G K st first = some (st', false)) :
    ScoreInv G st' := by
  obtain ⟨sA, sB, kept, total, h1, h2, h3, h4, hsA, hsB, hkept, htotal, hcid, hsz, hex, hns, hnm,
    _, hmerges⟩ := mergeStep_some hstep
  obtain ⟨bm, hbmdef⟩ : ∃ bm, bm = findBestMerge first st.merges := ⟨_, rfl⟩
  rw [← hbmdef] at h1 h2 hsA hsB hcid hex hns htotal
  have hbm : bm ∈ st.merges := by
    rcases findBestMerge_mem first st.merges with h | h
    · rw [hbmdef, h]; exact hfirst
    · rw [hbmdef]; exact h
  obtain ⟨hab, hea, heb⟩ := hcand bm hbm
  have ha_lt : bm.a < contigs.length + st.nMerges := hinv.fresh _ hea
  have hb_lt : bm.b < contigs.length + st.nMerges := hinv.fresh _ heb
  have hnew_false : st.clusterExists[contigs.length + st.nMerges]? = some false := by
    rw [List.getElem?_eq_getElem h3]
    cases hv : st.clusterExists[contigs.length + st.nMerges] with
    | false => rfl
    | true =>
      have := hinv.fresh (contigs.length + st.nMerges)
        (by rw [List.getElem?_eq_getElem h3, hv])
      omega
  have hE : ∀ k : Nat, st'.clusterExists[k]? = some true ↔
      k = contigs.length + st.nMerges ∨ (st.clusterExists[k]? = some true ∧ k ≠ bm.a ∧ k ≠ bm.b) := by
    intro k; rw [hex]; exact exists_after_merge hea heb hnew_false k
  obtain ⟨st'', done', hstep', hinv', _, _⟩ := mergeStep_inv MinAvgLinkage contigs G K st
    first hfirst hinv hcand
  rw [hstep] at hstep'
  simp only [Option.some.injEq, Prod.mk.injEq] at hstep'
  obtain ⟨rfl, rfl⟩ := hstep'
  have hsize' := (mergeStep_size MinAvgLinkage contigs G K st st' first false hfirst hinv hcand
    hsize hstep).1
  simp only [Bool.false_eq_true, if_false] at hmerges
  have hnoNew : ∀ c ∈ st.clusterID, c ≠ ((contigs.length + st.nMerges : Nat) : Int) := by
    intro c hc e
    obtain ⟨i, hi⟩ := List.mem_iff_getElem?.1 hc
    rcases hinv.ids i c hi with h | ⟨h0, h⟩
    · omega
    · have := hinv.fresh _ h
      omega
  have hnc : newClusterOf bm st.clusterID =
      members st'.clusterID ((contigs.length + st.nMerges : Nat) : Int) := by
    rw [hcid]; exact newClusterOf_eq_members bm _ _ hnoNew
  have hlenE : st'.clusterExists.length = st.clusterExists.length := by
    rw [hex]; simp only [List.length_set]
  have hkeptEq : kept = st.merges.filter
      (fun m => st'.clusterExists[m.a]? == some true && st'.clusterExists[m.b]? == some true) := by
    have := @keepLive_eq st'.clusterExists st.merges (fun m hm => by
      obtain ⟨_, ha, hb⟩ := hcand m hm
      rw [hlenE]
      exact ⟨lt_length_of_getElem? ha, lt_length_of_getElem? hb⟩)
    rw [this] at hkept
    exact (Option.some.inj hkept).symm
  constructor
  · intro m hm
    rw [hmerges, List.mem_append] at hm
    rcases hm with hm | hm
    · rw [hkeptEq, List.mem_filter] at hm
      obtain ⟨hm0, hlive⟩ := hm
      simp only [Bool.and_eq_true, beq_iff_eq] at hlive
      obtain ⟨hma, hmb⟩ := hlive
      obtain ⟨_, hea0, heb0⟩ := hcand m hm0
      have hma_lt := hinv.fresh _ hea0
      have hmb_lt := hinv.fresh _ heb0
      have hane : m.a ≠ bm.a ∧ m.a ≠ bm.b := by
        rcases (hE m.a).1 hma with e | ⟨_, h⟩
        · omega
        · exact h
      have hbne : m.b ≠ bm.a ∧ m.b ≠ bm.b := by
        rcases (hE m.b).1 hmb with e | ⟨_, h⟩
        · omega
        · exact h
      have hA : members st'.clusterID (m.a : Int) = members st.clusterID (m.a : Int) := by
        rw [hcid]
        exact members_map_mergedID_other bm _ _ (by omega) (by omega) (by omega)
      have hB : members st'.clusterID (m.b : Int) = members st.clusterID (m.b : Int) := by
        rw [hcid]
        exact members_map_mergedID_other bm _ _ (by omega) (by omega) (by omega)
      rw [hscore.scores m hm0]
      unfold averageLinkage linkSum
      rw [hA, hB]
    · obtain ⟨i, hi, hpos, hma, hmb, hsc⟩ := mem_newCandidates_score hm
      have hzero : ∀ k : Nat, (List.replicate (2 * contigs.length) (0 : Int)).getD k 0 = 0 := by
        intro k
        rw [List.getD_eq_getElem?_getD, List.getElem?_replicate]
        split <;> rfl
      have hine : i ≠ contigs.length + st.nMerges := by
        intro e
        rw [e, totalLinkageLoop_new _ _ _ _ _ _ htotal, hzero] at hpos
        exact absurd hpos (lt_irrefl _)
      have hval := totalLinkageLoop_value G (contigs.length + st.nMerges)
        (newClusterOf bm st.clusterID) i hine _ _ _ htotal
      rw [hzero, zero_add, hnc] at hval
      have hlink : total.getD i 0 = linkSum G st'.clusterID (i : Int)
          ((contigs.length + st.nMerges : Nat) : Int) := hval
      have hne : members st'.clusterID (i : Int) ≠ [] := by
        intro e
        rw [hlink] at hpos
        unfold linkSum at hpos
        rw [e] at hpos
        exact absurd hpos (lt_irrefl _)
      obtain ⟨c, hc⟩ := List.exists_mem_of_ne_nil _ hne
      rw [mem_members] at hc
      have hexi : st'.clusterExists[i]? = some true := by
        rcases hinv'.ids c _ hc with h | ⟨_, h⟩
        · omega
        · simpa using h
      have hi_lt := hinv'.fresh _ hexi
      rw [hnm] at hi_lt
      have hilt : i < contigs.length + st.nMerges := by omega
      have hsi := hsize'.size i hexi
      have hexn : st'.clusterExists[contigs.length + st.nMerges]? = some true :=
        (hE _).2 (Or.inl rfl)
      have hsn := hsize'.size _ hexn
      have hci : 1 ≤ st'.clusterID.count (i : Int) := by
        rw [← members_length]; exact List.length_pos.2 hne
      obtain ⟨v, hv, hv2⟩ := hsize'.composite _ hexn (by omega)
      rw [hsn] at hv
      have hcn := Option.some.inj hv
      have gi : st'.clusterSize.getD i 0 = ((st'.clusterID.count (i : Int) : Nat) : Int) := by
        rw [List.getD_eq_getElem?_getD, hsi]; rfl
      have gn : st'.clusterSize.getD (contigs.length + st.nMerges) 0 =
          ((st'.clusterID.count ((contigs.length + st.nMerges : Nat) : Int) : Nat) : Int) := by
        rw [List.getD_eq_getElem?_getD, hsn]; rfl
      rw [hsc, gi, gn, F64.div_div_ofInt _ _ _ (by omega) (by omega), hma, hmb,
        min_eq_left (le_of_lt hilt), max_eq_right (le_of_lt hilt), hlink]
      unfold averageLinkage
      rw [members_length, members_length]
      simp only [Int.cast_natCast]
  · rw [hmerges, List.map_append, List.nodup_append]
    refine ⟨?_, newCandidates_pairs_nodup _ _ _ _ _, ?_⟩
    · rw [hkeptEq]
      exact ((List.filter_sublist _).map _).nodup hscore.pairs
    · intro p hp hp'
      obtain ⟨m, hm, rfl⟩ := List.mem_map.1 hp
      obtain ⟨m', hm', e⟩ := List.mem_map.1 hp'
      rw [hkeptEq] at hm
      have hm0 := (List.mem_filter.1 hm).1
      have := hinv.fresh _ (hcand m hm0).2.2
      obtain ⟨i, _, _, _, hmb', _⟩ := mem_newCandidates_score hm'
      simp only [Prod.mk.injEq] at e
      omega

theorem members_initState (MinAvgLinkage : Int) (contigs : List Contig) (G : Nat → Nat → Int)
    {k : Nat} (hk : k < contigs.length) (hs : skipAt contigs k = false) :
    members (initState MinAvgLinkage contigs G).clusterID (k : Int) = [k] := by
  have hlen := initState_count MinAvgLinkage contigs G hk hs
  rw [← members_length] at hlen
  have hget : contigs[k]? = some contigs[k] := List.getElem?_eq_getElem hk
  have hskip : (contigs[k]).skip = false := by
    simpa [skipAt, hget] using hs
  have hmem : k ∈ members (initState MinAvgLinkage contigs G).clusterID (k : Int) := by
    rw [mem_members, initState_clusterID, hget]
    simp [hskip]
  match hl : members (initState MinAvgLinkage contigs G).clusterID (k : Int), hlen, hmem with
  | [x], _, hmem =>
    simp only [List.mem_singleton] at hmem
    rw [hmem]

theorem mem_seedMerges {MinAvgLinkage : Int} {contigs : List Contig} {G : Nat → Nat → Int}
    {m : merge} (hm : m ∈ seedMerges MinAvgLinkage contigs G) :
    m.a < m.b ∧ m.b < contigs.length ∧ skipAt contigs m.a = false ∧
      skipAt contigs m.b = false ∧ m.score = F64.ofInt (G m.a m.b) := by
  simp only [seedMerges, List.mem_flatMap, List.mem_range] at hm
  obtain ⟨i, hi, hm⟩ := hm
  by_cases hs : skipAt contigs i = true
  · rw [if_pos hs] at hm; simp at hm
  · rw [if_neg hs] at hm
    simp only [List.mem_map, List.mem_filter, List.mem_range', Bool.and_eq_true,
      Bool.not_eq_true', decide_eq_true_eq] at hm
    obtain ⟨j, ⟨⟨k, hk, hj⟩, hsj, _⟩, rfl⟩ := hm
    refine ⟨by simp only; omega, by simp only; omega, by simpa using hs, hsj, rfl⟩

theorem seedMerges_pairs_nodup (MinAvgLinkage : Int) (contigs : List Contig)
    (G : Nat → Nat → Int) :
    ((seedMerges MinAvgLinkage contigs G).map (fun m => (m.a, m.b))).Nodup := by
  unfold seedMerges
  rw [List.map_flatMap, List.nodup_flatMap]
  constructor
  · intro i _
    split
    · exact List.nodup_nil
    · rw [List.map_map]
      apply List.Nodup.map_on
      · intro j _ j' _ e
        simp only [Function.comp, Prod.mk.injEq] at e
        exact e.2
      · exact (List.nodup_range' _ _).filter _
  · apply List.Pairwise.imp _ (List.nodup_range contigs.length)
    intro i i' hne p hp hp'
    have key : ∀ k : Nat, p ∈ List.map (fun m : merge => (m.a, m.b))
        (if skipAt contigs k = true then []
        else
          ((List.range' (k + 1) (contigs.length - (k + 1))).filter
            (fun j => !skipAt contigs j && decide (G k j > MinAvgLinkage))).map
            (fun j => ⟨k, j, F64.ofInt (G k j)⟩)) → p.1 = k := by
      intro k hk
      split at hk
      · simp at hk
      · simp only [List.map_map, List.mem_map, Function.comp] at hk
        obtain ⟨j, _, rfl⟩ := hk
        rfl
    exact hne ((key i hp).symm.trans (key i' hp'))

/-- The invariant of the scores holds on entry of the merge loop: the score of
a seed candidate is the raw count `G[i][j]`. -/
theorem initState_score (MinAvgLinkage : Int) (contigs : List Contig) (G : Nat → Nat → Int) :
    ScoreInv G (initState MinAvgLinkage contigs G) := by
  constructor
  · intro m hm
    obtain ⟨hab, hb, hsa, hsb, hsc⟩ := mem_seedMerges (show m ∈ seedMerges MinAvgLinkage contigs G
      from hm)
    rw [hsc]
    unfold averageLinkage linkSum
    rw [members_initState MinAvgLinkage contigs G (by omega) hsa,
      members_initState MinAvgLinkage contigs G hb hsb]
    simp [F64.ofInt]
  · exact seedMerges_pairs_nodup MinAvgLinkage contigs G

/-- The invariant of the scores holds at the start of every round. -/
theorem roundStart_score (MinAvgLinkage : Int) (contigs : List Contig) (G : Nat → Nat → Int)
    (K : Int) : ∀ (n : Nat) (st : ClusterState),
      roundStart MinAvgLinkage contigs G K n = some st → ScoreInv G st := by
  intro n
  induction n with
  | zero =>
    intro st h
    simp only [roundStart, Option.some.injEq] at h
    subst h
    exact initState_score MinAvgLinkage contigs G
  | succ n ih =>
    intro st' h
    obtain ⟨st, first, rest, hst, hm, hstep⟩ := roundStart_succ h
    obtain ⟨hinv, hcand⟩ := roundStart_inv MinAvgLinkage contigs G K n st hst
    exact mergeStep_score MinAvgLinkage contigs G K st st' first
      (by rw [hm]; exact List.mem_cons_self _ _) hinv hcand
      (roundStart_size MinAvgLinkage contigs G K n st hst) (ih st hst) hstep

/-- C20: at the start of every round of the merge loop of `Cluster`, for every
matrix `G` (a symmetric one in particular), each candidate `(a, b, score)` of
the merge list has `score` equal to the average linkage between the clusters `a`
and `b` in exact arithmetic: the sum of `G[i][j]` over the contigs `i` currently
in `a` and `j` currently in `b`, divided by the product of the numbers of
members of `a` and of `b`, which are the recorded sizes and are not zero.  The
score of a seed candidate is the raw count `G[i][j]`.  No pair of clusters
occurs twice in the list, in either order. -/
theorem roundStart_scores (MinAvgLinkage : Int) (contigs : List Contig) (G : Nat → Nat → Int)
    (K : Int) (n : Nat) (st : ClusterState)
    (h : roundStart MinAvgLinkage contigs G K n = some st) :
    (∀ m ∈ st.merges,
      m.score = F64.fin (averageLinkage G st.clusterID (m.a : Int) (m.b : Int)) ∧
      1 ≤ (members st.clusterID (m.a : Int)).length ∧
      1 ≤ (members st.clusterID (m.b : Int)).length ∧
      st.clusterSize[m.a]? = some (((members st.clusterID (m.a : Int)).length : Nat) : Int) ∧
      st.clusterSize[m.b]? = some (((members st.clusterID (m.b : Int)).length : Nat) : Int)) ∧
    (n = 0 → ∀ m ∈ st.merges, m.score = F64.ofInt (G m.a m.b)) ∧
    (st.merges.map (fun m => (m.a, m.b))).Nodup ∧
    ∀ m ∈ st.merges, ∀ m' ∈ st.merges, ¬ (m.a = m'.b ∧ m.b = m'.a) := by
  obtain ⟨hinv, hcand⟩ := roundStart_inv MinAvgLinkage contigs G K n st h
  have hsize := roundStart_size MinAvgLinkage contigs G K n st h
  have hscore := roundStart_score MinAvgLinkage contigs G K n st h
  have hpos : ∀ k : Nat, st.clusterExists[k]? = some true →
      1 ≤ (members st.clusterID (k : Int)).length ∧
      st.clusterSize[k]? = some (((members st.clusterID (k : Int)).length : Nat) : Int) := by
    intro k hk
    have hs := hsize.size k hk
    rw [members_length]
    refine ⟨?_, hs⟩
    by_cases hkN : k < contigs.length
    · have := hsize.single k hk hkN
      rw [hs] at this
      have := Option.some.inj this
      omega
    · obtain ⟨v, hv, h2⟩ := hsize.composite k hk (not_lt.1 hkN)
      rw [hs] at hv
      have := Option.some.inj hv
      omega
  refine ⟨?_, ?_, hscore.pairs, ?_⟩
  · intro m hm
    obtain ⟨_, hea, heb⟩ := hcand m hm
    exact ⟨hscore.scores m hm, (hpos _ hea).1, (hpos _ heb).1, (hpos _ hea).2, (hpos _ heb).2⟩
  · intro hn m hm
    subst hn
    simp only [roundStart, Option.some.injEq] at h
    subst h
    exact (mem_seedMerges (show m ∈ seedMerges MinAvgLinkage contigs G from hm)).2.2.2.2
  · intro m hm m' hm' e
    have h1 := (hcand m hm).1
    have h2 := (hcand m' hm').1
    omega

/-- C20 at the start of round 1 of Example A: the one candidate pairs the
clusters 2 and 3, with score 40. -/
theorem roundStart_scores_witness :
    (∀ m ∈ exampleARound1.merges,
      m.score = F64.fin (averageLinkage exampleA exampleARound1.clusterID (m.a : Int) (m.b : Int)) ∧
      1 ≤ (members exampleARound1.clusterID (m.a : Int)).length ∧
      1 ≤ (members exampleARound1.clusterID (m.b : Int)).length ∧
      exampleARound1.clusterSize[m.a]? =
        some (((members exampleARound1.clusterID (m.a : Int)).length : Nat) : Int) ∧
      exampleARound1.clusterSize[m.b]? =
        some (((members exampleARound1.clusterID (m.b : Int)).length : Nat) : Int)) ∧
    ((1 : Nat) = 0 → ∀ m ∈ exampleARound1.merges, m.score = F64.ofInt (exampleA m.a m.b)) ∧
    (exampleARound1.merges.map (fun m => (m.a, m.b))).Nodup ∧
    ∀ m ∈ exampleARound1.merges, ∀ m' ∈ exampleARound1.merges, ¬ (m.a = m'.b ∧ m.b = m'.a) :=
  roundStart_scores 0 (plainContigs 4) exampleA 2 1 exampleARound1 roundStart_exampleA_one

/-! ### The choice of the best candidate -/

/-- The scan of Step 1 over candidates of finite scores, from the running best
`acc`: the result has the highest score, and it is either `acc`, or the first
candidate of the list whose score is above `acc` and above all the ones before
it. -/
theorem findBestMerge_scan (l : List merge) :
    ∀ acc : merge, (∀ m ∈ acc :: l, ∃ q, m.score = F64.fin q) →
      F64.toRat acc.score ≤ F64.toRat (findBestMerge acc l).score ∧
      (∀ m ∈ l, F64.toRat m.score ≤ F64.toRat (findBestMerge acc l).score) ∧
      (findBestMerge acc l = acc ∨
        ∃ pre post, l = pre ++ findBestMerge acc l :: post ∧
          (∀ m ∈ pre, F64.toRat m.score < F64.toRat (findBestMerge acc l).score) ∧
          F64.toRat acc.score < F64.toRat (findBestMerge acc l).score) := by
  induction l with
  | nil =>
    intro acc _
    exact ⟨le_rfl, fun m hm => absurd hm (List.not_mem_nil m), Or.inl rfl⟩
  | cons m rest ih =>
    intro acc hfin
    obtain ⟨qa, hqa⟩ := hfin acc (List.mem_cons_self _ _)
    obtain ⟨qm, hqm⟩ := hfin m (List.mem_cons_of_mem _ (List.mem_cons_self _ _))
    have hrest : ∀ acc' : merge, acc' ∈ acc :: m :: rest →
        ∀ x ∈ acc' :: rest, ∃ q, x.score = F64.fin q := by
      intro acc' hacc' x hx
      rcases List.mem_cons.1 hx with e | e
      · rw [e]; exact hfin acc' hacc'
      · exact hfin x (List.mem_cons_of_mem _ (List.mem_cons_of_mem _ e))
    have hstep : findBestMerge acc (m :: rest) =
        findBestMerge (if F64.gt m.score acc.score = true then m else acc) rest := by
      simp only [findBestMerge, List.foldl_cons]
    have hgt : F64.gt m.score acc.score = decide (qa < qm) := by
      rw [hqa, hqm]; rfl
    have hta : F64.toRat acc.score = qa := by rw [hqa]; rfl
    have htm : F64.toRat m.score = qm := by rw [hqm]; rfl
    rw [hstep, hgt, hta]
    by_cases hlt : qa < qm
    · simp only [hlt, decide_True, if_true]
      obtain ⟨h1, h2, h3⟩ := ih m (hrest m (List.mem_cons_of_mem _ (List.mem_cons_self _ _)))
      rw [htm] at h1
      refine ⟨le_of_lt (lt_of_lt_of_le hlt h1), ?_, Or.inr ?_⟩
      · intro x hx
        rcases List.mem_cons.1 hx with e | e
        · rw [e, htm]; exact h1
        · exact h2 x e
      · rcases h3 with e | ⟨pre, post, hl, hpre, hm⟩
        · refine ⟨[], rest, by rw [e]; rfl, fun x hx => absurd hx (List.not_mem_nil x), ?_⟩
          rw [e, htm]; exact hlt
        · rw [htm] at hm
          refine ⟨m :: pre, post, by rw [List.cons_append, ← hl], ?_, lt_trans hlt hm⟩
          intro x hx
          rcases List.mem_cons.1 hx with e | e
          · rw [e, htm]; exact hm
          · exact hpre x e
    · simp only [hlt, decide_False, Bool.false_eq_true, if_false]
      obtain ⟨h1, h2, h3⟩ := ih acc (hrest acc (List.mem_cons_self _ _))
      rw [hta] at h1
      refine ⟨h1, ?_, ?_⟩
      · intro x hx
        rcases List.mem_cons.1 hx with e | e
        · rw [e, htm]; exact le_trans (not_lt.1 hlt) h1
        · exact h2 x e
      · rcases h3 with e | ⟨pre, post, hl, hpre, hm⟩
        · exact Or.inl e
        · rw [hta] at hm
          refine Or.inr ⟨m :: pre, post, by rw [List.cons_append, ← hl], ?_, hm⟩
          intro x hx
          rcases List.mem_cons.1 hx with e | e
          · rw [e, htm]; exact lt_of_le_of_lt (not_lt.1 hlt) hm
          · exact hpre x e

/-- On a tie the scan keeps the first candidate of highest score: of the
scores `5, 7, 7` it selects the second candidate. -/
theorem findBestMerge_tie :
    findBestMerge ⟨0, 1, F64.fin 5⟩
        [⟨0, 1, F64.fin 5⟩, ⟨2, 3, F64.fin 7⟩, ⟨4, 5, F64.fin 7⟩] =
      ⟨2, 3, F64.fin 7⟩ := by
  with_unfolding_all decide

/-- C12: in every round of the merge loop of `Cluster` with a non-empty
candidate list, the candidate selected in Step 1 has the highest score of all
candidates, and every candidate that occurs before it in the list has a score
strictly below: among the candidates of highest score it is the first of the
list.  The round merges the two clusters of this candidate. -/
theorem roundStart_bestMerge (MinAvgLinkage : Int) (contigs : List Contig)
    (G : Nat → Nat → Int) (K : Int) (n : Nat) (st : ClusterState) (first : merge)
    (rest : List merge) (h : roundStart MinAvgLinkage contigs G K n = some st)
    (hm : st.merges = first :: rest) :
    (∃ pre post, st.merges = pre ++ findBestMerge first st.merges :: post ∧
      ∀ m ∈ pre, F64.lt m.score (findBestMerge first st.merges).score = true) ∧
    (∀ m ∈ st.merges, F64.le m.score (findBestMerge first st.merges).score = true) ∧
    ∃ st' done, afterMerge MinAvgLinkage contigs G K n = some (st', done) ∧
      st'.clusterID = st.clusterID.map
        (mergedID (findBestMerge first st.merges) (contigs.length + n)) := by
  obtain ⟨hinv, hcand⟩ := roundStart_inv MinAvgLinkage contigs G K n st h
  have hscore := roundStart_score MinAvgLinkage contigs G K n st h
  have hn := roundStart_nMerges MinAvgLinkage contigs G K n st h
  have hfirst : first ∈ st.merges := by rw [hm]; exact List.mem_cons_self _ _
  have hfin : ∀ m ∈ st.merges, ∃ q, m.score = F64.fin q :=
    fun m hmem => ⟨_, hscore.scores m hmem⟩
  have hbest : findBestMerge first st.merges ∈ st.merges := by
    rcases findBestMerge_mem first st.merges with e | e
    · rw [e]; exact hfirst
    · exact e
  obtain ⟨qb, hqb⟩ := hfin _ hbest
  obtain ⟨_, h2, h3⟩ := findBestMerge_scan st.merges first (by
    intro m hmem
    rcases List.mem_cons.1 hmem with e | e
    · rw [e]; exact hfin first hfirst
    · exact hfin m e)
  have hlt : ∀ m ∈ st.merges,
      F64.toRat m.score < F64.toRat (findBestMerge first st.merges).score →
      F64.lt m.score (findBestMerge first st.merges).score = true := by
    intro m hmem hlt
    obtain ⟨q, hq⟩ := hfin m hmem
    rw [hq, hqb] at hlt ⊢
    simpa [F64.lt, F64.toRat] using hlt
  refine ⟨?_, ?_, ?_⟩
  · rcases h3 with e | ⟨pre, post, hl, hpre, _⟩
    · refine ⟨[], rest, by rw [e, hm]; rfl, fun x hx => absurd hx (List.not_mem_nil x)⟩
    · refine ⟨pre, post, hl, fun m hmem => hlt m ?_ (hpre m hmem)⟩
      rw [hl]; exact List.mem_append_left _ hmem
  · intro m hmem
    obtain ⟨q, hq⟩ := hfin m hmem
    have hle := h2 m hmem
    rw [hq, hqb] at hle ⊢
    simp only [F64.toRat] at hle
    rcases lt_or_eq_of_le hle with hl | he
    · simp [F64.le, F64.lt, hl]
    · simp [F64.le, F64.eq, he]
  · obtain ⟨st', done, hstep, _⟩ := mergeStep_inv MinAvgLinkage contigs G K st first hfirst
      hinv hcand
    refine ⟨st', done, ?_, ?_⟩
    · simp only [afterMerge, h, hm]
      exact hstep
    · obtain ⟨_, _, _, _, _, _, _, _, _, _, _, _, hcid, _⟩ := mergeStep_some hstep
      rw [hcid, hn]

/-- C12 at the first round of Example A, with the candidates `(0, 1)` of score
50 and `(2, 3)` of score 40. -/
theorem roundStart_bestMerge_witness :
    (∃ pre post, (initState 0 (plainContigs 4) exampleA).merges =
        pre ++ findBestMerge ⟨0, 1, F64.fin 50⟩ (initState 0 (plainContigs 4) exampleA).merges ::
          post ∧
      ∀ m ∈ pre, F64.lt m.score
        (findBestMerge ⟨0, 1, F64.fin 50⟩ (initState 0 (plainContigs 4) exampleA).merges).score =
          true) ∧
    (∀ m ∈ (initState 0 (plainContigs 4) exampleA).merges, F64.le m.score
      (findBestMerge ⟨0, 1, F64.fin 50⟩ (initState 0 (plainContigs 4) exampleA).merges).score =
        true) ∧
    ∃ st' done, afterMerge 0 (plainContigs 4) exampleA 2 0 = some (st', done) ∧
      st'.clusterID = (initState 0 (plainContigs 4) exampleA).clusterID.map
        (mergedID (findBestMerge ⟨0, 1, F64.fin 50⟩
          (initState 0 (plainContigs 4) exampleA).merges) ((plainContigs 4).length + 0)) :=
  roundStart_bestMerge 0 (plainContigs 4) exampleA 2 0 (initState 0 (plainContigs 4) exampleA)
    ⟨0, 1, F64.fin 50⟩ [⟨2, 3, F64.fin 40⟩] rfl (by with_unfolding_all decide)

/-! ### The walk `dfs` -/

theorem mem_of_lookup_eq_some {G : Graph} {a : Node} {nb : List (Node × F64)}
    (h : G.lookup a = some nb) : (a, nb) ∈ G := by
  induction G with
  | nil => simp [List.lookup] at h
  | cons x rest ih =>
    obtain ⟨k, v⟩ := x
    by_cases hk : a = k
    · subst hk
      simp only [List.lookup, beq_self_eq_true, Option.some.injEq] at h
      rw [h]; exact List.mem_cons_self _ _
    · have hb : (a == k) = false := by simpa using hk
      simp only [List.lookup, hb] at h
      exact List.mem_cons_of_mem _ (ih h)

theorem unvisitedKeys_cons_le (G : Graph) (a : Node) (visited : List Node) :
    unvisitedKeys G (a :: visited) ≤ unvisitedKeys G visited := by
  unfold unvisitedKeys
  apply List.countP_mono_left
  intro anb _ h
  simp only [decide_eq_true_eq, List.mem_cons, not_or] at h ⊢
  exact h.2

theorem unvisitedKeys_cons_lt {G : Graph} {a : Node} {visited : List Node}
    {nb : List (Node × F64)} (hmem : (a, nb) ∈ G) (ha : a ∉ visited) :
    unvisitedKeys G (a :: visited) < unvisitedKeys G visited := by
  induction G with
  | nil => cases hmem
  | cons x rest ih =>
    have hle := unvisitedKeys_cons_le rest a visited
    unfold unvisitedKeys at ih hle ⊢
    rw [List.countP_cons, List.countP_cons]
    rcases List.mem_cons.1 hmem with e | e
    · subst e
      have h1 : decide ((a, nb).1 ∉ a :: visited) = false := by simp
      have h2 : decide ((a, nb).1 ∉ visited) = true := by simpa using ha
      rw [h1, h2]
      simp only [Bool.false_eq_true, if_false, if_true]
      omega
    · have := ih e
      by_cases hx : x.1 ∉ a :: visited
      · have hx' : x.1 ∉ visited := fun h => hx (List.mem_cons_of_mem _ h)
        simp only [hx, hx', decide_True, if_true]
        omega
      · simp only [hx, decide_False, Bool.false_eq_true, if_false]
        split <;> omega

/-- The walk returns when it has enough calls, unless an adjacency map is
empty. -/
theorem dfsFuel_defined (sister : Node → Node) (G : Graph) (hrows : ∀ anb ∈ G, anb.2 ≠ []) :
    ∀ (fuel : Nat) (a : Node) (path : List Edge) (visited : List Node) (visitSister : Bool),
      2 * unvisitedKeys G visited + (if visitSister = true then 2 else 1) ≤ fuel →
      ∃ r, dfsFuel sister G fuel a path visited visitSister = some r := by
  intro fuel
  induction fuel with
  | zero =>
    intro a path visited visitSister h
    split at h <;> omega
  | succ fuel ih =>
    intro a path visited visitSister h
    unfold dfsFuel
    by_cases hv : a ∈ visited
    · rw [if_pos hv]; exact ⟨_, rfl⟩
    · rw [if_neg hv]
      by_cases hs : visitSister = true
      · rw [if_pos hs]
        rw [if_pos hs] at h
        apply ih
        have := unvisitedKeys_cons_le G a visited
        simp only [Bool.false_eq_true, if_false]
        omega
      · rw [if_neg hs]
        rw [if_neg hs] at h
        cases hl : G.lookup a with
        | none => exact ⟨_, rfl⟩
        | some nb =>
          have hmem := mem_of_lookup_eq_some hl
          cases nb with
          | nil => exact absurd rfl (hrows _ hmem)
          | cons bw rest =>
            obtain ⟨b, weight⟩ := bw
            simp only []
            apply ih
            have := unvisitedKeys_cons_lt hmem hv
            simp only [if_true]
            omega

/-- What a walk that returns has done: it has appended a walk from `a` whose
start nodes are pairwise distinct and were not visited, it has marked these
start nodes, and the node of arrival unless the walk found it visited. -/
theorem dfsFuel_spec (sister : Node → Node) (G : Graph) :
    ∀ (fuel : Nat) (a : Node) (path : List Edge) (visited : List Node) (visitSister : Bool)
      (path' : List Edge) (isCycle : Bool) (visited' : List Node),
      dfsFuel sister G fuel a path visited visitSister = some (path', isCycle, visited') →
      ∃ newEdges : List Edge, path' = path ++ newEdges ∧ IsWalk a newEdges ∧
        (newEdges.map Edge.a).Nodup ∧ (∀ e ∈ newEdges, e.a ∉ visited) ∧
        visited' = (if isCycle = true then [] else [walkEnd a newEdges]) ++
          (newEdges.map Edge.a).reverse ++ visited ∧
        (isCycle = true ↔
          (walkEnd a newEdges ∈ visited ∨ walkEnd a newEdges ∈ newEdges.map Edge.a)) := by
  intro fuel
  induction fuel with
  | zero =>
    intro a path visited visitSister path' isCycle visited' h
    simp only [dfsFuel] at h
    cases h
  | succ fuel ih =>
    intro a path visited visitSister path' isCycle visited' h
    have hrec : ∀ (e : Edge) (vs : Bool), e.a = a → a ∉ visited →
        dfsFuel sister G fuel e.b (path ++ [e]) (a :: visited) vs =
          some (path', isCycle, visited') →
        ∃ newEdges : List Edge, path' = path ++ newEdges ∧ IsWalk a newEdges ∧
          (newEdges.map Edge.a).Nodup ∧ (∀ e ∈ newEdges, e.a ∉ visited) ∧
          visited' = (if isCycle = true then [] else [walkEnd a newEdges]) ++
            (newEdges.map Edge.a).reverse ++ visited ∧
          (isCycle = true ↔
            (walkEnd a newEdges ∈ visited ∨ walkEnd a newEdges ∈ newEdges.map Edge.a)) := by
      intro e vs hea hv hcall
      obtain ⟨l, hp, hw, hnd, hnv, hvis, hiff⟩ := ih _ _ _ _ _ _ _ hcall
      refine ⟨e :: l, ?_, ⟨hea, hw⟩, ?_, ?_, ?_, ?_⟩
      · rw [hp, List.append_assoc]; rfl
      · rw [List.map_cons, List.nodup_cons]
        refine ⟨?_, hnd⟩
        intro hmem
        obtain ⟨e', he', hea'⟩ := List.mem_map.1 hmem
        exact hnv e' he' (by rw [hea', hea]; exact List.mem_cons_self _ _)
      · intro e' he'
        rcases List.mem_cons.1 he' with h1 | h1
        · rw [h1, hea]; exact hv
        · exact fun hmem => hnv e' h1 (List.mem_cons_of_mem _ hmem)
      · rw [hvis, List.map_cons, List.reverse_cons, hea]
        simp only [walkEnd, List.append_assoc, List.singleton_append]
      · rw [hiff, List.map_cons, hea]
        simp only [walkEnd, List.mem_cons]
        tauto
    unfold dfsFuel at h
    by_cases hv : a ∈ visited
    · rw [if_pos hv] at h
      simp only [Option.some.injEq, Prod.mk.injEq] at h
      obtain ⟨rfl, rfl, rfl⟩ := h
      refine ⟨[], by simp, trivial, List.nodup_nil, fun e he => absurd he (List.not_mem_nil e),
        by simp, ?_⟩
      simp [walkEnd, hv]
    · rw [if_neg hv] at h
      by_cases hs : visitSister = true
      · rw [if_pos hs] at h
        exact hrec ⟨a, sister a, F64.fin 0⟩ false rfl hv h
      · rw [if_neg hs] at h
        cases hl : G.lookup a with
        | none =>
          rw [hl] at h
          simp only [Option.some.injEq, Prod.mk.injEq] at h
          obtain ⟨rfl, rfl, rfl⟩ := h
          refine ⟨[], by simp, trivial, List.nodup_nil,
            fun e he => absurd he (List.not_mem_nil e), by simp [walkEnd], ?_⟩
          simp [walkEnd, hv]
        | some nb =>
          rw [hl] at h
          cases nb with
          | nil => cases h
          | cons bw rest =>
            obtain ⟨b, weight⟩ := bw
            exact hrec ⟨a, b, weight⟩ true rfl hv h

/-- The walk of the example: from node 0 it comes back to node 0 over the two
paths, which is a cycle. -/
theorem dfs_exampleRing :
    dfs exampleSister exampleRing 0 [] [] true =
      some ([⟨0, 1, F64.fin 0⟩, ⟨1, 2, F64.fin 3⟩, ⟨2, 3, F64.fin 0⟩, ⟨3, 0, F64.fin 2⟩], true,
        [3, 2, 1, 0]) := by
  with_unfolding_all decide

/-- C11: for every graph `G`, node `a` and map `visited` that does not contain
`a`, the walk `dfs` returns, unless it meets an empty adjacency map, after which
it dereferences nil.  When it returns, the edges that it has appended to the
path form a walk from `a` whose start nodes are pairwise distinct and were all
unvisited before the call; the nodes that it has marked visited are pairwise
distinct and were all unvisited before the call, `a` and every start node of an
appended edge are among them, each exactly once; and the returned flag `isCycle`
is `true` if and only if the node at which the walk arrived was visited already
on arrival: before the call, or as the start node of an edge of the walk. -/
theorem dfs_never_revisits (sister : Node → Node) (G : Graph) (a : Node) (path : List Edge)
    (visited : List Node) (visitSister : Bool) (ha : a ∉ visited) :
    (dfs sister G a path visited visitSister = none → ∃ anb ∈ G, anb.2 = []) ∧
    ∀ (path' : List Edge) (isCycle : Bool) (visited' : List Node),
      dfs sister G a path visited visitSister = some (path', isCycle, visited') →
      ∃ (newEdges : List Edge) (marks : List Node),
        path' = path ++ newEdges ∧ IsWalk a newEdges ∧
        (newEdges.map Edge.a).Nodup ∧ (∀ e ∈ newEdges, e.a ∉ visited) ∧
        visited' = marks ++ visited ∧ marks.Nodup ∧ (∀ x ∈ marks, x ∉ visited) ∧
        a ∈ marks ∧ (∀ e ∈ newEdges, marks.count e.a = 1) ∧
        (isCycle = true ↔
          (walkEnd a newEdges ∈ visited ∨ walkEnd a newEdges ∈ newEdges.map Edge.a)) := by
  constructor
  · intro hnone
    by_contra hne
    have hrows : ∀ anb ∈ G, anb.2 ≠ [] := fun anb hmem he => hne ⟨anb, hmem, he⟩
    have hU : unvisitedKeys G visited ≤ G.length := List.countP_le_length _
    obtain ⟨r, hr⟩ := dfsFuel_defined sister G hrows (2 * G.length + 2) a path visited
      visitSister (by split <;> omega)
    unfold dfs at hnone
    rw [hr] at hnone
    cases hnone
  · intro path' isCycle visited' h
    obtain ⟨l, hp, hw, hnd, hnv, hvis, hiff⟩ := dfsFuel_spec sister G _ _ _ _ _ _ _ _ h
    have hstart : ∀ x ∈ (l.map Edge.a).reverse, x ∉ visited := by
      intro x hx
      obtain ⟨e, he, hea⟩ := List.mem_map.1 (List.mem_reverse.1 hx)
      rw [← hea]; exact hnv e he
    have hmarks : ((if isCycle = true then [] else [walkEnd a l]) ++ (l.map Edge.a).reverse).Nodup ∧
        (∀ x ∈ (if isCycle = true then [] else [walkEnd a l]) ++ (l.map Edge.a).reverse,
          x ∉ visited) ∧
        a ∈ (if isCycle = true then [] else [walkEnd a l]) ++ (l.map Edge.a).reverse := by
      cases hc : isCycle with
      | true =>
        simp only [if_true, List.nil_append]
        refine ⟨List.nodup_reverse.2 hnd, hstart, ?_⟩
        cases l with
        | nil =>
          rw [hc] at hiff
          simp only [walkEnd, List.map_nil, List.not_mem_nil, or_false, true_iff] at hiff
          exact absurd hiff ha
        | cons e rest =>
          rw [List.map_cons, List.mem_reverse, hw.1]
          exact List.mem_cons_self _ _
      | false =>
        rw [hc] at hiff
        simp only [Bool.false_eq_true, false_iff, not_or] at hiff
        simp only [Bool.false_eq_true, if_false, List.singleton_append]
        refine ⟨List.nodup_cons.2
          ⟨fun hmem => hiff.2 (List.mem_reverse.1 hmem), List.nodup_reverse.2 hnd⟩, ?_, ?_⟩
        · intro x hx
          rcases List.mem_cons.1 hx with e | e
          · rw [e]; exact hiff.1
          · exact hstart x e
        · cases l with
          | nil => exact List.mem_cons_self _ _
          | cons e rest =>
            apply List.mem_cons_of_mem
            rw [List.map_cons, List.mem_reverse, hw.1]
            exact List.mem_cons_self _ _
    refine ⟨l, _, hp, hw, hnd, hnv, hvis, hmarks.1, hmarks.2.1, hmarks.2.2, ?_, hiff⟩
    intro e he
    apply List.count_eq_one_of_mem hmarks.1
    apply List.mem_append_right
    exact List.mem_reverse.2 (List.mem_map_of_mem _ he)

/-- C11 on the walk of the example, from node 0 with no node visited. -/
theorem dfs_never_revisits_witness :
    (dfs exampleSister exampleRing 0 [] [] true = none → ∃ anb ∈ exampleRing, anb.2 = []) ∧
    ∀ (path' : List Edge) (isCycle : Bool) (visited' : List Node),
      dfs exampleSister exampleRing 0 [] [] true = some (path', isCycle, visited') →
      ∃ (newEdges : List Edge) (marks : List Node),
        path' = [] ++ newEdges ∧ IsWalk 0 newEdges ∧
        (newEdges.map Edge.a).Nodup ∧ (∀ e ∈ newEdges, e.a ∉ ([] : List Node)) ∧
        visited' = marks ++ [] ∧ marks.Nodup ∧ (∀ x ∈ marks, x ∉ ([] : List Node)) ∧
        0 ∈ marks ∧ (∀ e ∈ newEdges, marks.count e.a = 1) ∧
        (isCycle = true ↔
          (walkEnd 0 newEdges ∈ ([] : List Node) ∨ walkEnd 0 newEdges ∈ newEdges.map Edge.a)) :=
  dfs_never_revisits exampleSister exampleRing 0 [] [] true (List.not_mem_nil 0)

/-! ### The number of merges -/

/-- On entry of the merge loop the clusters flagged existent are the contigs
that are not skipped. -/
theorem initState_count_true (MinAvgLinkage : Int) (contigs : List Contig)
    (G : Nat → Nat → Int) :
    (initState MinAvgLinkage contigs G).clusterExists.count true = nNonSkipped contigs := by
  have h1 : (contigs.map (fun c => !c.skip)).count true =
      contigs.countP (fun c => decide ¬ (c.skip = true)) := by
    rw [List.count_eq_countP, List.countP_map]
    congr 1
    funext c
    simp
  have h2 := List.length_eq_countP_add_countP (fun c : Contig => c.skip) contigs
  have h3 : (initState MinAvgLinkage contigs G).clusterExists.count true =
      (contigs.map (fun c => !c.skip)).count true := by
    simp [initState, List.count_append, List.count_replicate]
  rw [h3, h1]
  unfold nNonSkipped
  omega

theorem addLinkages_length (G : Nat → Nat → Int) (i : Nat) (cID : Int) :
    ∀ (newCluster : List Nat) (total t : List Int),
      addLinkages G i cID newCluster total = some t → t.length = total.length := by
  intro newCluster
  induction newCluster with
  | nil =>
    intro total t h
    simp only [addLinkages, Option.some.injEq] at h
    rw [h]
  | cons j js ih =>
    intro total t h
    simp only [addLinkages] at h
    by_cases hv : 0 ≤ cID ∧ cID.toNat < total.length
    · rw [addAt_eq _ hv.1 hv.2] at h
      rw [ih _ t h, List.length_set]
    · unfold addAt at h
      rw [if_neg hv] at h
      cases h

/-- The array `totalLinkageByCluster` keeps its length `2N`. -/
theorem totalLinkageLoop_length (G : Nat → Nat → Int) (newClusterID : Nat)
    (newCluster : List Nat) :
    ∀ (l : List (Nat × Int)) (total t : List Int),
      totalLinkageLoop G newClusterID newCluster l total = some t →
      t.length = total.length := by
  intro l
  induction l with
  | nil =>
    intro total t h
    simp only [totalLinkageLoop, Option.some.injEq] at h
    rw [h]
  | cons ic rest ih =>
    intro total t h
    obtain ⟨i, cID⟩ := ic
    simp only [totalLinkageLoop] at h
    by_cases h1 : cID = newClusterID
    · rw [if_pos h1] at h
      exact ih total t h
    · rw [if_neg h1] at h
      by_cases h2 : cID = -1
      · rw [if_pos h2] at h
        exact ih total t h
      · rw [if_neg h2] at h
        cases h3 : addLinkages G i cID newCluster total with
        | none => rw [h3] at h; cases h
        | some t1 =>
          rw [h3] at h
          simp only at h
          rw [ih t1 t h, addLinkages_length G i cID newCluster total t1 h3]

/-- The merge loop keeps the sum of the number of merges and of the number of
clusters flagged existent; and unless it ends at once, it leaves a cluster
flagged existent. -/
theorem clusterLoop_merges (MinAvgLinkage : Int) (contigs : List Contig)
    (G : Nat → Nat → Int) (K : Int) :
    ∀ (fuel : Nat) (st stf : ClusterState), ClusterInv contigs st → CandInv st →
      clusterLoop MinAvgLinkage contigs.length G K fuel st = some stf →
      stf.nMerges + stf.clusterExists.count true = st.nMerges + st.clusterExists.count true ∧
      (stf = st ∨ 1 ≤ stf.clusterExists.count true) := by
  intro fuel
  induction fuel with
  | zero =>
    intro st stf _ _ h
    simp only [clusterLoop] at h
    cases h
  | succ fuel ih =>
    intro st stf hinv hcand h
    cases hm : st.merges with
    | nil =>
      simp only [clusterLoop, hm, Option.some.injEq] at h
      subst h
      exact ⟨rfl, Or.inl rfl⟩
    | cons first rest =>
      have hfirst : first ∈ st.merges := by rw [hm]; exact List.mem_cons_self _ _
      obtain ⟨st', done, hstep, hinv', hcand', hc⟩ :=
        mergeStep_inv MinAvgLinkage contigs G K st first hfirst hinv hcand
      obtain ⟨_, _, _, _, _, _, _, _, _, _, _, _, _, _, _, _, hn, _⟩ := mergeStep_some hstep
      obtain ⟨hab, hea, heb⟩ := hcand first hfirst
      have h2 := two_le_count_true hea heb (ne_of_lt hab)
      simp only [clusterLoop, hm, hstep] at h
      cases hd : done with
      | true =>
        rw [hd] at h
        simp only [if_true, Option.some.injEq] at h
        subst h
        exact ⟨by omega, Or.inr (by omega)⟩
      | false =>
        rw [hd] at h
        simp only [Bool.false_eq_true, if_false] at h
        obtain ⟨hsum, hor⟩ := ih st' stf hinv' (hcand' hd) h
        refine ⟨by omega, Or.inr ?_⟩
        rcases hor with e | e
        · rw [e]; omega
        · exact e

/-- At the start of every round, the merges made so far and the clusters
flagged existent add up to the number of contigs that are not skipped. -/
theorem roundStart_count (MinAvgLinkage : Int) (contigs : List Contig) (G : Nat → Nat → Int)
    (K : Int) : ∀ (n : Nat) (st : ClusterState),
      roundStart MinAvgLinkage contigs G K n = some st →
      n + st.clusterExists.count true = nNonSkipped contigs := by
  intro n
  induction n with
  | zero =>
    intro st h
    simp only [roundStart, Option.some.injEq] at h
    subst h
    rw [initState_count_true, Nat.zero_add]
  | succ n ih =>
    intro st' h
    obtain ⟨st, first, rest, hst, hm, hstep⟩ := roundStart_succ h
    obtain ⟨hinv, hcand⟩ := roundStart_inv MinAvgLinkage contigs G K n st hst
    obtain ⟨st'', done', hstep', _, _, hc⟩ := mergeStep_inv MinAvgLinkage contigs G K st first
      (by rw [hm]; exact List.mem_cons_self _ _) hinv hcand
    rw [hstep] at hstep'
    simp only [Option.some.injEq, Prod.mk.injEq] at hstep'
    obtain ⟨rfl, rfl⟩ := hstep'
    have := ih st hst
    omega

/-- C21: for every input, the merge loop of `Cluster` ends (within the `N + 1`
rounds it is given, without panic) after at most `max(0, n - 1)` merges, `n`
being the number of contigs that are not skipped.  In every round that merges,
round `k` say, at least two clusters are flagged existent, so `k + 2 ≤ n`; the
new cluster id `N + k` is below `2N`; the arrays `clusterSize`, `clusterExists`
and `totalLinkageByCluster` have length `2N`; the ids of the candidates, the
selected one included, are below `2N`; the round does not panic; and every
entry of `clusterID` that is used as an index (not `-1`) lies in `[0, 2N)`. -/
theorem Cluster_merges_bound (MinAvgLinkage : Int) (contigs : List Contig)
    (G : Nat → Nat → Int) (K : Int) :
    (∃ st, clusterLoop MinAvgLinkage contigs.length G K (contigs.length + 1)
        (initState MinAvgLinkage contigs G) = some st ∧
      (st.nMerges : Int) ≤ max 0 ((nNonSkipped contigs : Int) - 1)) ∧
    ∀ (k : Nat) (st : ClusterState) (first : merge) (rest : List merge),
      roundStart MinAvgLinkage contigs G K k = some st → st.merges = first :: rest →
      k + 2 ≤ nNonSkipped contigs ∧ nNonSkipped contigs ≤ contigs.length ∧
      contigs.length + k < 2 * contigs.length ∧
      st.clusterSize.length = 2 * contigs.length ∧
      st.clusterExists.length = 2 * contigs.length ∧
      (∀ m ∈ st.merges, m.a < 2 * contigs.length ∧ m.b < 2 * contigs.length) ∧
      (findBestMerge first st.merges).a < 2 * contigs.length ∧
      (findBestMerge first st.merges).b < 2 * contigs.length ∧
      ∃ st' done total, mergeStep MinAvgLinkage contigs.length G K st first = some (st', done) ∧
        totalLinkageLoop G (contigs.length + k)
          (newClusterOf (findBestMerge first st.merges) st.clusterID) st'.clusterID.enum
          (List.replicate (2 * contigs.length) 0) = some total ∧
        total.length = 2 * contigs.length ∧
        st'.clusterSize.length = 2 * contigs.length ∧
        st'.clusterExists.length = 2 * contigs.length ∧
        st'.nMerges = k + 1 ∧
        ∀ (i : Nat) (c : Int), st'.clusterID[i]? = some c →
          c = -1 ∨ (0 ≤ c ∧ c < 2 * (contigs.length : Int)) := by
  constructor
  · have hinit := initState_inv MinAvgLinkage contigs G
    have hcand := initState_cand MinAvgLinkage contigs G
    obtain ⟨st, hst, _⟩ := clusterLoop_defined MinAvgLinkage contigs G K
      (contigs.length + 1) (initState MinAvgLinkage contigs G) hinit hcand
      (by have := hinit.bound; omega) (by omega)
    refine ⟨st, hst, ?_⟩
    obtain ⟨hsum, hor⟩ := clusterLoop_merges MinAvgLinkage contigs G K _ _ _ hinit hcand hst
    rw [initState_count_true] at hsum
    have h0 : (initState MinAvgLinkage contigs G).nMerges = 0 := rfl
    rcases hor with e | e
    · rw [e, h0]
      exact le_max_left _ _
    · apply le_trans _ (le_max_right _ _)
      omega
  · intro k st first rest h hm
    obtain ⟨hinv, hcand⟩ := roundStart_inv MinAvgLinkage contigs G K k st h
    have hn := roundStart_nMerges MinAvgLinkage contigs G K k st h
    have hcount := roundStart_count MinAvgLinkage contigs G K k st h
    have hfirst : first ∈ st.merges := by rw [hm]; exact List.mem_cons_self _ _
    have hbm : findBestMerge first st.merges ∈ st.merges := by
      rcases findBestMerge_mem first st.merges with e | e
      · rw [e]; exact hfirst
      · exact e
    obtain ⟨hab, hea, heb⟩ := hcand first hfirst
    have h2 := two_le_count_true hea heb (ne_of_lt hab)
    have hbound := hinv.bound
    have hlenE := hinv.lenExists
    have hrange : ∀ m ∈ st.merges, m.a < 2 * contigs.length ∧ m.b < 2 * contigs.length := by
      intro m hmem
      obtain ⟨_, ha, hb⟩ := hcand m hmem
      have h1 := lt_length_of_getElem? ha
      have h3 := lt_length_of_getElem? hb
      omega
    obtain ⟨st', done, hstep, hinv', _, _⟩ := mergeStep_inv MinAvgLinkage contigs G K st first
      hfirst hinv hcand
    obtain ⟨_, _, _, total, _, _, _, _, _, _, _, htotal, _, _, _, _, hn', _⟩ :=
      mergeStep_some hstep
    have hlen := totalLinkageLoop_length _ _ _ _ _ _ htotal
    rw [hn] at htotal
    refine ⟨by omega, by omega, by omega, hinv.lenSize, hlenE, hrange,
      (hrange _ hbm).1, (hrange _ hbm).2, st', done, total, hstep, htotal, ?_, hinv'.lenSize,
      hinv'.lenExists, by omega, ?_⟩
    · rw [hlen, List.length_replicate]
    · intro i c hc
      exact ((clusterID_spec_of_inv hinv').2 i c hc).1

/-! ### The edges that the confidence graph retains -/

/-- The two largest densities `(f, s)` of a row, seen from one of its entries
`e0`, of density `d`.  If `d` is above the density of every other entry, then
`f = d`, `s < d`, and `s` is positive exactly when the row has another entry;
otherwise `d ≤ s`. -/
theorem topTwo_dominant {ε : Type} (es : List ε) (g : ε → ℚ) (e0 : ε) (d f s : ℚ)
    (hnd : es.Nodup) (he0 : e0 ∈ es) (hd : g e0 = d) (hpos : ∀ e ∈ es, 0 < g e)
    (htop : TopTwo f s (0 :: 0 :: es.map g)) :
    0 ≤ s ∧ s ≤ f ∧ d ≤ f ∧
    ((∀ e ∈ es, e ≠ e0 → g e < d) →
      f = d ∧ s < d ∧ (0 < s ↔ ∃ e ∈ es, e ≠ e0)) ∧
    (¬ (∀ e ∈ es, e ≠ e0 → g e < d) → d ≤ s) := by
  obtain ⟨hsf, hmax, hmem, hgt, hge⟩ := htop
  have hdpos : 0 < d := hd ▸ hpos e0 he0
  have hdf : d ≤ f := hmax d (by
    simp only [List.mem_cons, List.mem_map]
    exact Or.inr (Or.inr ⟨e0, he0, hd⟩))
  have hcnt : ∀ p : ℚ → Bool, (0 :: 0 :: es.map g).countP p =
      (if p 0 = true then 2 else 0) + es.countP (p ∘ g) := by
    intro p
    rw [List.countP_cons, List.countP_cons, List.countP_map]
    split <;> omega
  have hs0 : 0 ≤ s := by
    by_contra hneg
    have hneg' : s < 0 := not_le.1 hneg
    have := hcnt (fun x => decide (s < x))
    simp only [decide_eq_true_eq, hneg', if_true] at this
    omega
  have hgt' : es.countP ((fun x => decide (s < x)) ∘ g) ≤ 1 := by
    have := hcnt (fun x => decide (s < x)); omega
  have hone : ∀ e₁ ∈ es, ∀ e₂ ∈ es, e₁ ≠ e₂ → s < g e₁ → s < g e₂ → False := by
    intro e₁ h₁ e₂ h₂ hne hp₁ hp₂
    have := @two_le_countP ε ((fun x => decide (s < x)) ∘ g) es e₁ e₂ h₁ h₂ hne
      (by simpa using hp₁) (by simpa using hp₂)
    omega
  -- with `s` positive, two entries of the row are at or above `s`
  have htwo : 0 < s → 2 ≤ es.countP ((fun x => decide (s ≤ x)) ∘ g) := by
    intro hspos
    have := hcnt (fun x => decide (s ≤ x))
    simp only [decide_eq_true_eq, not_le.2 hspos, if_false] at this
    omega
  refine ⟨hs0, hsf, hdf, ?_, ?_⟩
  · intro hdom
    have hfd : f = d := by
      simp only [List.mem_cons, List.mem_map] at hmem
      rcases hmem with h | h | ⟨e, he, hge'⟩
      · exact absurd h (ne_of_gt (lt_of_lt_of_le hdpos hdf))
      · exact absurd h (ne_of_gt (lt_of_lt_of_le hdpos hdf))
      · by_cases hee : e = e0
        · rw [← hge', hee, hd]
        · have := hdom e he hee
          rw [hge'] at this
          exact absurd this (not_lt.2 hdf)
    have hsd : s < d := by
      by_contra hc
      have hds : d ≤ s := not_lt.1 hc
      have hall : ∀ x ∈ es, ((fun x => decide (s ≤ x)) ∘ g) x = true → x = e0 := by
        intro x hx hpx
        by_contra hxe
        have h1 := hdom x hx hxe
        simp only [Function.comp_apply, decide_eq_true_eq] at hpx
        exact absurd (lt_of_le_of_lt (hds.trans hpx) h1) (lt_irrefl _)
      have := countP_le_one e0 hnd hall
      have := htwo (lt_of_lt_of_le hdpos hds)
      omega
    refine ⟨hfd, hsd, ?_, ?_⟩
    · intro hspos
      by_contra hnone
      have hall : ∀ x ∈ es, ((fun x => decide (s ≤ x)) ∘ g) x = true → x = e0 := by
        intro x hx _
        by_contra hxe
        exact hnone ⟨x, hx, hxe⟩
      have := countP_le_one e0 hnd hall
      have := htwo hspos
      omega
    · rintro ⟨e, he, hne⟩
      by_contra hc
      have hs : s = 0 := le_antisymm (not_lt.1 hc) hs0
      exact hone e he e0 he0 hne (hs ▸ hpos e he) (hs ▸ hpos e0 he0)
  · intro hnd'
    by_contra hc
    have hsd : s < d := not_le.1 hc
    apply hnd'
    intro e he hne
    by_contra hge'
    exact hone e he e0 he0 hne (lt_of_lt_of_le hsd (not_lt.1 hge')) (by rw [hd]; exact hsd)

/-- The value of `getSecondLargest` on four finite values, in terms of their
increasing arrangement. -/
theorem getSecondLargest_sorted (q1 q2 q3 q4 : ℚ) :
    ∃ w x y z, [q1, q2, q3, q4].Perm [w, x, y, z] ∧ w ≤ x ∧ x ≤ y ∧ y ≤ z ∧
      getSecondLargest [F64.fin q1, F64.fin q2] [F64.fin q3, F64.fin q4] =
        some (F64.fin (if z = y ∧ 0 < x then x else y)) := by
  have hperm := List.perm_insertionSort (fun a b : ℚ => a ≤ b) [q1, q2, q3, q4]
  have hsorted := List.sorted_insertionSort (fun a b : ℚ => a ≤ b) [q1, q2, q3, q4]
  have hlen := hperm.length_eq
  match hl : List.insertionSort (fun a b : ℚ => a ≤ b) [q1, q2, q3, q4], hlen with
  | [w, x, y, z], _ =>
    rw [hl] at hperm hsorted
    simp only [List.Sorted, List.pairwise_cons, List.mem_cons, List.mem_singleton,
      forall_eq_or_imp, forall_eq] at hsorted
    have hwx : w ≤ x := hsorted.1.1
    have hxy : x ≤ y := hsorted.2.1.1
    have hyz : y ≤ z := hsorted.2.2.1.1
    refine ⟨w, x, y, z, hperm.symm, hwx, hxy, hyz, ?_⟩
    exact getSecondLargest_of_perm (hperm.symm.map F64.fin) hwx hxy hyz

/-- When three of the four values are at or above `d`, so is the value of
`getSecondLargest`. -/
theorem getSecondLargest_ge (q1 q2 q3 q4 d : ℚ)
    (h3 : 3 ≤ [q1, q2, q3, q4].countP (fun x => decide (d ≤ x))) :
    ∃ r, getSecondLargest [F64.fin q1, F64.fin q2] [F64.fin q3, F64.fin q4] =
      some (F64.fin r) ∧ d ≤ r := by
  obtain ⟨w, x, y, z, hperm, hwx, hxy, hyz, hval⟩ := getSecondLargest_sorted q1 q2 q3 q4
  rw [hperm.countP_eq] at h3
  have hdx : d ≤ x := by
    by_contra hc
    have hxd : ¬ d ≤ x := hc
    have hwd : ¬ d ≤ w := fun h => hc (h.trans hwx)
    simp only [List.countP_cons, List.countP_nil, decide_eq_true_eq, hxd, hwd, if_false] at h3
    split at h3 <;> split at h3 <;> omega
  refine ⟨_, hval, ?_⟩
  split
  · exact hdx
  · exact hdx.trans hxy

/-- The second-largest value `r` of an edge of density `d`, from the two largest
densities `(fa, sa)` and `(fb, sb)` at its two ends.  `DA` says that `d` is
above every other density at the first end and `OA` that this end has another
edge, and so `DB`, `OB` at the second end.  The value is positive, and it is
below `d` exactly when the edge is above all others at both ends and one end
has another edge. -/
theorem getSecondLargest_dominant (d fa sa fb sb : ℚ) (DA OA DB OB : Prop) (hd : 0 < d)
    (hdfa : d ≤ fa)
    (hA : DA → fa = d ∧ sa < d ∧ (0 < sa ↔ OA)) (hA' : ¬ DA → d ≤ sa)
    (hdfb : d ≤ fb)
    (hB : DB → fb = d ∧ sb < d ∧ (0 < sb ↔ OB)) (hB' : ¬ DB → d ≤ sb) :
    ∃ r, getSecondLargest [F64.fin fa, F64.fin sa] [F64.fin fb, F64.fin sb] =
        some (F64.fin r) ∧ 0 < r ∧ (r < d ↔ (DA ∧ DB ∧ (OA ∨ OB))) := by
  by_cases hDA : DA
  · by_cases hDB : DB
    · obtain ⟨hfa, hsad, hOA⟩ := hA hDA
      obtain ⟨hfb, hsbd, hOB⟩ := hB hDB
      rw [hfa, hfb]
      rcases le_total sa sb with h | h
      · have hp : ([F64.fin d, F64.fin sa] ++ [F64.fin d, F64.fin sb]).Perm
            [F64.fin sa, F64.fin sb, F64.fin d, F64.fin d] := by
          simp only [List.cons_append, List.nil_append]
          exact (List.Perm.swap _ _ _).trans
            (List.Perm.cons _ ((List.Perm.cons _ (List.Perm.swap _ _ _)).trans
              (List.Perm.swap _ _ _)))
        refine ⟨_, getSecondLargest_of_perm hp h hsbd.le le_rfl, ?_, ?_⟩
        · split
          · next hc => exact hc.2
          · exact hd
        · by_cases hpos : 0 < sb
          · rw [if_pos ⟨rfl, hpos⟩]
            exact ⟨fun _ => ⟨hDA, hDB, Or.inr (hOB.1 hpos)⟩, fun _ => hsbd⟩
          · rw [if_neg (fun hc => hpos hc.2)]
            constructor
            · intro hlt; exact absurd hlt (lt_irrefl _)
            · rintro ⟨_, _, hO | hO⟩
              · exact absurd (lt_of_lt_of_le (hOA.2 hO) h) hpos
              · exact absurd (hOB.2 hO) hpos
      · have hp : ([F64.fin d, F64.fin sa] ++ [F64.fin d, F64.fin sb]).Perm
            [F64.fin sb, F64.fin sa, F64.fin d, F64.fin d] := by
          simp only [List.cons_append, List.nil_append]
          refine (List.Perm.trans ?_ (List.Perm.swap _ _ _))
          refine (List.Perm.swap _ _ _).trans (List.Perm.cons _ ?_)
          exact (List.Perm.cons _ (List.Perm.swap _ _ _)).trans (List.Perm.swap _ _ _)
        refine ⟨_, getSecondLargest_of_perm hp h hsad.le le_rfl, ?_, ?_⟩
        · split
          · next hc => exact hc.2
          · exact hd
        · by_cases hpos : 0 < sa
          · rw [if_pos ⟨rfl, hpos⟩]
            exact ⟨fun _ => ⟨hDA, hDB, Or.inl (hOA.1 hpos)⟩, fun _ => hsad⟩
          · rw [if_neg (fun hc => hpos hc.2)]
            constructor
            · intro hlt; exact absurd hlt (lt_irrefl _)
            · rintro ⟨_, _, hO | hO⟩
              · exact absurd (hOA.2 hO) hpos
              · exact absurd (lt_of_lt_of_le (hOB.2 hO) h) hpos
    · have hds := hB' hDB
      obtain ⟨r, hr, hdr⟩ := getSecondLargest_ge fa sa fb sb d (by
        simp [List.countP_cons, hdfa, hdfb, hds])
      exact ⟨r, hr, lt_of_lt_of_le hd hdr,
        fun hlt => absurd hlt (not_lt.2 hdr), fun h => absurd h.2.1 hDB⟩
  · have hds := hA' hDA
    obtain ⟨r, hr, hdr⟩ := getSecondLargest_ge fa sa fb sb d (by
      simp [List.countP_cons, hdfa, hdfb, hds])
    exact ⟨r, hr, lt_of_lt_of_le hd hdr,
      fun hlt => absurd hlt (not_lt.2 hdr), fun h => absurd h.1 hDA⟩

/-- The slice `twoLargest[a]` seen from the edge `(a, b)`, of raw weight `q` and
density `d = q / (len(a) * len(b))`: it holds two finite values `f ≥ s`; if `d`
is above the density of every other edge at `a`, then `f = d`, `s < d`, and `s`
is positive exactly when `a` has another edge; otherwise `d ≤ s`. -/
theorem twoLargestAt_dominant (plen : Node → Int) (G : Graph) (hwf : Graph.WF G)
    (hpos : Graph.PositiveWeights G) (hlen : ∀ a, 0 < plen a) (a b : Node) (q : ℚ)
    (nb : List (Node × F64)) (hnb : List.lookup a G = some nb) (he0 : (b, F64.fin q) ∈ nb) :
    ∃ f s, twoLargestAt (twoLargestMap plen G) a = [F64.fin f, F64.fin s] ∧
      q / ((plen a : ℚ) * (plen b : ℚ)) ≤ f ∧
      ((∀ c w', c ≠ b → edgeWeight G a c = some w' →
          F64.lt (linkDensity plen a c w') (F64.fin (q / ((plen a : ℚ) * (plen b : ℚ)))) = true) →
        f = q / ((plen a : ℚ) * (plen b : ℚ)) ∧ s < q / ((plen a : ℚ) * (plen b : ℚ)) ∧
        (0 < s ↔ ∃ c, c ≠ b ∧ (edgeWeight G a c).isSome = true)) ∧
      (¬ (∀ c w', c ≠ b → edgeWeight G a c = some w' →
          F64.lt (linkDensity plen a c w') (F64.fin (q / ((plen a : ℚ) * (plen b : ℚ)))) = true) →
        q / ((plen a : ℚ) * (plen b : ℚ)) ≤ s) := by
  have hamem : (a, nb) ∈ G := (lookup_eq_some_iff_mem hwf.1).1 hnb
  have hnd : (nb.map Prod.fst).Nodup := hwf.2 _ hamem
  have hla : (0 : ℚ) < plen a := by exact_mod_cast hlen a
  have hfin : ∀ e ∈ nb, ∃ q' : ℚ, e.2 = F64.fin q' ∧ 0 < q' :=
    fun e he => F64.pos_finite (hpos _ hamem e he)
  have hdens : ∀ e ∈ nb, linkDensity plen a e.1 e.2 =
      F64.fin (e.2.toRat / ((plen a : ℚ) * (plen e.1 : ℚ))) := by
    intro e he
    obtain ⟨q', hq', _⟩ := hfin e he
    rw [hq', linkDensity_fin plen a e.1 q' (hlen a) (hlen e.1)]
    rfl
  have hgpos : ∀ e ∈ nb, (0 : ℚ) < e.2.toRat / ((plen a : ℚ) * (plen e.1 : ℚ)) := by
    intro e he
    obtain ⟨q', hq', hq'pos⟩ := hfin e he
    have hle : (0 : ℚ) < plen e.1 := by exact_mod_cast hlen e.1
    rw [hq']
    exact div_pos hq'pos (mul_pos hla hle)
  obtain ⟨f, s, hfs, htop⟩ := twoLargestOf_topTwo
    (nb.map (fun e => e.2.toRat / ((plen a : ℚ) * (plen e.1 : ℚ))))
  have htl : twoLargestAt (twoLargestMap plen G) a = [F64.fin f, F64.fin s] := by
    rw [twoLargestAt_map, hnb]
    have hmap : nb.map (fun (bs : Node × F64) => linkDensity plen a bs.1 bs.2) =
        (nb.map (fun e => e.2.toRat / ((plen a : ℚ) * (plen e.1 : ℚ)))).map F64.fin := by
      rw [List.map_map]
      exact List.map_congr_left hdens
    simp only [Option.map_some', Option.getD_some, hmap, hfs]
  obtain ⟨_, _, hdf, hD, hD'⟩ := topTwo_dominant nb
    (fun e => e.2.toRat / ((plen a : ℚ) * (plen e.1 : ℚ))) (b, F64.fin q)
    (q / ((plen a : ℚ) * (plen b : ℚ))) f s (List.Nodup.of_map _ hnd) he0 rfl hgpos htop
  -- the entries of the row of `a` are the edges at `a`
  have hkey : ∀ e ∈ nb, e ≠ (b, F64.fin q) ↔ e.1 ≠ b := by
    intro e he
    constructor
    · intro hne hk
      apply hne
      have h1 := (lookup_eq_some_iff_mem hnd).2 (show (e.1, e.2) ∈ nb from he)
      have h2 := (lookup_eq_some_iff_mem hnd).2 he0
      rw [hk, h2] at h1
      exact Prod.ext hk (Option.some.inj h1).symm
    · intro hk he'
      exact hk (by rw [he'])
  have hdom : (∀ e ∈ nb, e ≠ (b, F64.fin q) →
      e.2.toRat / ((plen a : ℚ) * (plen e.1 : ℚ)) < q / ((plen a : ℚ) * (plen b : ℚ))) ↔
      (∀ c w', c ≠ b → edgeWeight G a c = some w' →
        F64.lt (linkDensity plen a c w') (F64.fin (q / ((plen a : ℚ) * (plen b : ℚ)))) =
          true) := by
    constructor
    · intro hall c w' hc hcw
      have hmem := mem_of_edgeWeight hwf hnb hcw
      have := hall (c, w') hmem ((hkey _ hmem).2 hc)
      rw [hdens _ hmem]
      simpa [F64.lt] using this
    · intro hall e he hne
      have := hall e.1 e.2 ((hkey e he).1 hne) (edgeWeight_of_mem hwf hnb he)
      rw [hdens e he] at this
      simpa [F64.lt] using this
  have hoth : (∃ e ∈ nb, e ≠ (b, F64.fin q)) ↔
      ∃ c, c ≠ b ∧ (edgeWeight G a c).isSome = true := by
    constructor
    · rintro ⟨e, he, hne⟩
      refine ⟨e.1, (hkey e he).1 hne, ?_⟩
      rw [edgeWeight_of_mem hwf hnb (show (e.1, e.2) ∈ nb from he)]; rfl
    · rintro ⟨c, hc, hsome⟩
      obtain ⟨w', hw'⟩ := Option.isSome_iff_exists.1 hsome
      have hmem := mem_of_edgeWeight hwf hnb hw'
      exact ⟨(c, w'), hmem, (hkey _ hmem).2 hc⟩
  rw [hdom, hoth] at hD
  rw [hdom] at hD'
  exact ⟨f, s, htl, hdf, hD, hD'⟩

theorem keys_filterMap_sublist {κ β γ : Type} (f : κ × β → Option (κ × γ))
    (hf : ∀ x y, f x = some y → y.1 = x.1) (l : List (κ × β)) :
    ((l.filterMap f).map Prod.fst).Sublist (l.map Prod.fst) := by
  induction l with
  | nil => exact List.Sublist.slnil
  | cons x l ih =>
    rw [List.filterMap_cons]
    cases hx : f x with
    | none => exact List.Sublist.cons _ ih
    | some y =>
      simp only [List.map_cons]
      rw [hf x y hx]
      exact List.Sublist.cons₂ _ ih

theorem keys_retained_sublist (row : List (Node × F64)) :
    ((retained row).map Prod.fst).Sublist (row.map Prod.fst) :=
  (List.filter_sublist _).map _

/-- The graph returned by `makeConfidenceGraph` is a map of maps, and none of
its adjacency maps is empty. -/
theorem makeConfidenceGraph_wf (plen : Node → Int) (G CG : Graph) (hwf : Graph.WF G)
    (h : makeConfidenceGraph plen G = some CG) :
    Graph.WF CG ∧ ∀ arow ∈ CG, arow.2 ≠ [] := by
  unfold makeConfidenceGraph at h
  simp only [Option.map_eq_some'] at h
  obtain ⟨rows, hrows, hCG⟩ := h
  have hrows' : rows = (densityGraph plen G).map (fun anb => (anb.1,
      anb.2.map (fun (bd : Node × F64) => (bd.1, F64.div bd.2
        ((getSecondLargest (twoLargestAt (twoLargestMap plen G) anb.1)
          (twoLargestAt (twoLargestMap plen G) bd.1)).getD F64.nan))))) := by
    refine traverseOpt_eq_map _ hrows ?_
    intro anb _ y hy
    cases hr : confidenceRow (twoLargestMap plen G) anb.1 anb.2 with
    | none => simp [hr] at hy
    | some row =>
      simp only [hr, Option.map_some', Option.some.injEq] at hy
      rw [← hy, confidenceRow_eq hr]
  have hrowkeys : rows.map Prod.fst = G.map Prod.fst := by
    rw [hrows']; simp [densityGraph, Function.comp_def]
  have hsel : ∀ (x y : Node × List (Node × F64)),
      (if retained x.2 = [] then none else some (x.1, retained x.2)) = some y →
      y.1 = x.1 ∧ y.2 = retained x.2 ∧ retained x.2 ≠ [] := by
    intro x y hxy
    split at hxy
    · cases hxy
    · next hne =>
      cases hxy
      exact ⟨rfl, rfl, hne⟩
  have hmemCG : ∀ arow ∈ CG, ∃ x ∈ rows, arow.1 = x.1 ∧ arow.2 = retained x.2 ∧
      retained x.2 ≠ [] := by
    intro arow harow
    rw [← hCG] at harow
    obtain ⟨x, hx, hxy⟩ := List.mem_filterMap.1 harow
    exact ⟨x, hx, hsel x arow hxy⟩
  refine ⟨⟨?_, ?_⟩, ?_⟩
  · rw [← hCG]
    have hsub := keys_filterMap_sublist (fun (arow : Node × List (Node × F64)) =>
      if retained arow.2 = [] then none else some (arow.1, retained arow.2))
      (fun x y hxy => (hsel x y hxy).1) rows
    rw [hrowkeys] at hsub
    exact hsub.nodup hwf.1
  · intro arow harow
    obtain ⟨x, hx, _, h2, _⟩ := hmemCG arow harow
    rw [hrows'] at hx
    obtain ⟨xd, hxd, rfl⟩ := List.mem_map.1 hx
    unfold densityGraph at hxd
    obtain ⟨anb, hanb, rfl⟩ := List.mem_map.1 hxd
    rw [h2]
    have hsub := keys_retained_sublist (List.map (fun (bd : Node × F64) => (bd.1, F64.div bd.2
        ((getSecondLargest (twoLargestAt (twoLargestMap plen G) anb.1)
          (twoLargestAt (twoLargestMap plen G) bd.1)).getD F64.nan)))
        (List.map (fun (bs : Node × F64) => (bs.1, linkDensity plen anb.1 bs.1 bs.2))
          anb.2))
    have hkeys : (List.map (fun (bd : Node × F64) => (bd.1, F64.div bd.2
        ((getSecondLargest (twoLargestAt (twoLargestMap plen G) anb.1)
          (twoLargestAt (twoLargestMap plen G) bd.1)).getD F64.nan)))
        (List.map (fun (bs : Node × F64) => (bs.1, linkDensity plen anb.1 bs.1 bs.2))
          anb.2)).map Prod.fst = anb.2.map Prod.fst := by
      simp [Function.comp_def]
    rw [hkeys] at hsub
    exact hsub.nodup (hwf.2 anb hanb)
  · intro arow harow
    obtain ⟨x, _, _, h2, h3⟩ := hmemCG arow harow
    rw [h2]; exact h3

theorem lookup_of_edgeWeight {G : Graph} {a b : Node} {w : F64}
    (h : edgeWeight G a b = some w) : ∃ nb, List.lookup a G = some nb := by
  unfold edgeWeight at h
  cases hl : List.lookup a G with
  | none => rw [hl] at h; cases h
  | some nb => exact ⟨nb, rfl⟩

/-- An edge of the returned graph is an edge of the input graph. -/
theorem edgeWeight_of_makeConfidenceGraph (plen : Node → Int) (G CG : Graph)
    (hwf : Graph.WF G) (h : makeConfidenceGraph plen G = some CG) {a b : Node} {c : F64}
    (hc : edgeWeight CG a b = some c) : ∃ w, edgeWeight G a b = some w := by
  rw [edgeWeight_makeConfidenceGraph plen G CG hwf h a b] at hc
  unfold codeConfidence codeDensity at hc
  cases hw : edgeWeight G a b with
  | none => rw [hw] at hc; cases hc
  | some w => exact ⟨w, rfl⟩

/-- The edges that `makeConfidenceGraph` retains, in a symmetric graph with
positive weights and positive path lengths: the edge `(a, b)` is retained if
and only if its density is above the density of every other edge at `a` and at
`b`, and `a` or `b` has another edge. -/
theorem makeConfidenceGraph_edge_iff (plen : Node → Int) (G CG : Graph)
    (hwf : Graph.WF G) (hsym : Graph.Symmetric G) (hpos : Graph.PositiveWeights G)
    (hlen : ∀ a, 0 < plen a) (h : makeConfidenceGraph plen G = some CG)
    (a b : Node) (w : F64) (hab : edgeWeight G a b = some w) :
    (edgeWeight CG a b).isSome = true ↔
      ((∀ c w', c ≠ b → edgeWeight G a c = some w' →
          F64.lt (linkDensity plen a c w') (linkDensity plen a b w) = true) ∧
        (∀ c w', c ≠ a → edgeWeight G b c = some w' →
          F64.lt (linkDensity plen b c w') (linkDensity plen a b w) = true) ∧
        ((∃ c, c ≠ b ∧ (edgeWeight G a c).isSome = true) ∨
          (∃ c, c ≠ a ∧ (edgeWeight G b c).isSome = true))) := by
  obtain ⟨nbA, hnbA⟩ := lookup_of_edgeWeight hab
  have hamem : (a, nbA) ∈ G := (lookup_eq_some_iff_mem hwf.1).1 hnbA
  have heA : (b, w) ∈ nbA := mem_of_edgeWeight hwf hnbA hab
  obtain ⟨q, hwq, hq⟩ := F64.pos_finite (hpos _ hamem (b, w) heA)
  simp only at hwq
  subst hwq
  have hba : edgeWeight G b a = some (F64.fin q) := hsym _ hamem (b, F64.fin q) heA
  obtain ⟨nbB, hnbB⟩ := lookup_of_edgeWeight hba
  have heB : (a, F64.fin q) ∈ nbB := mem_of_edgeWeight hwf hnbB hba
  have hla : (0 : ℚ) < plen a := by exact_mod_cast hlen a
  have hlb : (0 : ℚ) < plen b := by exact_mod_cast hlen b
  have hdpos : 0 < q / ((plen a : ℚ) * (plen b : ℚ)) := div_pos hq (mul_pos hla hlb)
  obtain ⟨fa, sa, htla, hdfa, hA, hA'⟩ :=
    twoLargestAt_dominant plen G hwf hpos hlen a b q nbA hnbA heA
  obtain ⟨fb, sb, htlb, hdfb, hB, hB'⟩ :=
    twoLargestAt_dominant plen G hwf hpos hlen b a q nbB hnbB heB
  rw [mul_comm (plen b : ℚ) (plen a : ℚ)] at hdfb hB hB'
  obtain ⟨r, hr, hrpos, hiff⟩ := getSecondLargest_dominant _ fa sa fb sb _ _ _ _ hdpos
    hdfa hA hA' hdfb hB hB'
  have hconf : codeConfidence plen G a b =
      some (F64.fin (q / ((plen a : ℚ) * (plen b : ℚ)) / r)) := by
    unfold codeConfidence codeDensity
    rw [hab, htla, htlb, hr]
    simp only [Option.map_some', Option.some_bind,
      linkDensity_fin plen a b q (hlen a) (hlen b), F64.div, if_neg hrpos.ne']
  rw [edgeWeight_makeConfidenceGraph plen G CG hwf h a b, hconf, Option.some_bind]
  have hret : ((if F64.gt (F64.fin (q / ((plen a : ℚ) * (plen b : ℚ)) / r)) (F64.fin 1) = true
      then some (F64.fin (q / ((plen a : ℚ) * (plen b : ℚ)) / r)) else none).isSome = true) ↔
      r < q / ((plen a : ℚ) * (plen b : ℚ)) := by
    have h1 : F64.gt (F64.fin (q / ((plen a : ℚ) * (plen b : ℚ)) / r)) (F64.fin 1) = true ↔
        r < q / ((plen a : ℚ) * (plen b : ℚ)) := by
      simp only [F64.gt, F64.lt, decide_eq_true_eq]
      exact one_lt_div hrpos
    split
    · next h => simpa using h1.1 h
    · next h => simpa using fun h' => h (h1.2 h')
  rw [hret, hiff, linkDensity_fin plen a b q (hlen a) (hlen b)]

theorem F64.lt_asymm (x y : F64) (h : F64.lt x y = true) : F64.lt y x = false := by
  cases x <;> cases y <;> simp_all [F64.lt]
  exact le_of_lt h

/-- In the graph returned by `makeConfidenceGraph` on a symmetric graph with
positive weights and positive path lengths, every adjacency map has exactly one
entry. -/
theorem makeConfidenceGraph_row_single (plen : Node → Int) (G CG : Graph)
    (hwf : Graph.WF G) (hsym : Graph.Symmetric G) (hpos : Graph.PositiveWeights G)
    (hlen : ∀ a, 0 < plen a) (h : makeConfidenceGraph plen G = some CG)
    (a : Node) (row : List (Node × F64)) (hrow : List.lookup a CG = some row) :
    row.length = 1 := by
  obtain ⟨hwfCG, hne⟩ := makeConfidenceGraph_wf plen G CG hwf h
  have hmem : (a, row) ∈ CG := (lookup_eq_some_iff_mem hwfCG.1).1 hrow
  have hnd : (row.map Prod.fst).Nodup := hwfCG.2 _ hmem
  have hpair : ∀ e1 ∈ row, ∀ e2 ∈ row, e1.1 ≠ e2.1 → False := by
    intro e1 h1 e2 h2 hne12
    have hc1 := edgeWeight_of_mem hwfCG hrow (show (e1.1, e1.2) ∈ row from h1)
    have hc2 := edgeWeight_of_mem hwfCG hrow (show (e2.1, e2.2) ∈ row from h2)
    obtain ⟨w1, hw1⟩ := edgeWeight_of_makeConfidenceGraph plen G CG hwf h hc1
    obtain ⟨w2, hw2⟩ := edgeWeight_of_makeConfidenceGraph plen G CG hwf h hc2
    have hd1 := (makeConfidenceGraph_edge_iff plen G CG hwf hsym hpos hlen h a e1.1 w1 hw1).1
      (by rw [hc1]; rfl)
    have hd2 := (makeConfidenceGraph_edge_iff plen G CG hwf hsym hpos hlen h a e2.1 w2 hw2).1
      (by rw [hc2]; rfl)
    have l1 := hd1.1 e2.1 w2 (Ne.symm hne12) hw2
    have l2 := hd2.1 e1.1 w1 hne12 hw1
    rw [F64.lt_asymm _ _ l1] at l2
    cases l2
  match row, hne (a, row) hmem, hnd, hpair with
  | [x], _, _, _ => rfl
  | x :: y :: rest, _, hnd, hpair =>
    exfalso
    simp only [List.map_cons, List.nodup_cons, List.mem_cons, not_or] at hnd
    exact hpair x (List.mem_cons_self _ _) y
      (List.mem_cons_of_mem _ (List.mem_cons_self _ _)) hnd.1.1

/-- The walk `dfs` reads the graph through its adjacency maps only. -/
theorem dfsFuel_congr (sister : Node → Node) (G' G : Graph)
    (hG : ∀ a, List.lookup a G' = List.lookup a G) :
    ∀ (fuel : Nat) (a : Node) (path : List Edge) (visited : List Node) (visitSister : Bool),
      dfsFuel sister G' fuel a path visited visitSister =
        dfsFuel sister G fuel a path visited visitSister := by
  intro fuel
  induction fuel with
  | zero => intro a path visited visitSister; rfl
  | succ fuel ih =>
    intro a path visited visitSister
    unfold dfsFuel
    rw [hG a]
    by_cases hv : a ∈ visited
    · rw [if_pos hv, if_pos hv]
    · rw [if_neg hv, if_neg hv]
      by_cases hs : visitSister = true
      · rw [if_pos hs, if_pos hs]; exact ih _ _ _ _
      · rw [if_neg hs, if_neg hs]
        cases hl : List.lookup a G with
        | none => rfl
        | some nb =>
          cases nb with
          | nil => rfl
          | cons bw rest => exact ih _ _ _ _

/-- The confidence graph of the example `starGraph`: only the link between the
nodes 0 and 1 is retained, with confidence `6 / 2 = 3`. -/
theorem makeConfidenceGraph_starGraph :
    makeConfidenceGraph unitLength starGraph =
      some [(0, [(1, F64.fin 3)]), (1, [(0, F64.fin 3)])] := by
  with_unfolding_all decide

/-- C22: for every symmetric input graph with positive weights and positive
path lengths (with or without self-loops, arithmetic taken as exact),
`makeConfidenceGraph` returns a graph, and it retains the edge `(a, b)` of the
input if and only if the density of `(a, b)` is strictly larger than the
density of every other edge at `a` and at `b`, and `a` or `b` has another
outgoing edge.  The returned graph holds edges of the input only; every
adjacency map of it has exactly one entry, so that a node has at most one
outgoing edge; and `dfs` does not depend on the order in which the returned
graph is enumerated: on every enumeration of the same map of maps the adjacency
maps read are the same lists and `dfs` returns the same result. -/
theorem makeConfidenceGraph_unique_extension (plen : Node → Int) (G : Graph)
    (hwf : Graph.WF G) (hsym : Graph.Symmetric G) (hpos : Graph.PositiveWeights G)
    (hlen : ∀ a, 0 < plen a) :
    ∃ CG, makeConfidenceGraph plen G = some CG ∧
      (∀ a b w, edgeWeight G a b = some w →
        ((edgeWeight CG a b).isSome = true ↔
          ((∀ c w', c ≠ b → edgeWeight G a c = some w' →
              F64.lt (linkDensity plen a c w') (linkDensity plen a b w) = true) ∧
            (∀ c w', c ≠ a → edgeWeight G b c = some w' →
              F64.lt (linkDensity plen b c w') (linkDensity plen a b w) = true) ∧
            ((∃ c, c ≠ b ∧ (edgeWeight G a c).isSome = true) ∨
              (∃ c, c ≠ a ∧ (edgeWeight G b c).isSome = true))))) ∧
      (∀ a b c, edgeWeight CG a b = some c → ∃ w, edgeWeight G a b = some w) ∧
      (∀ a row, List.lookup a CG = some row → row.length = 1) ∧
      (∀ a b c b' c', edgeWeight CG a b = some c → edgeWeight CG a b' = some c' → b' = b) ∧
      (∀ CG', Graph.SameMap CG' CG →
        (∀ a, List.lookup a CG' = List.lookup a CG) ∧
        ∀ (sister : Node → Node) (a : Node) (path : List Edge) (visited : List Node)
          (visitSister : Bool),
          dfs sister CG' a path visited visitSister =
            dfs sister CG a path visited visitSister) := by
  obtain ⟨CG, hCG⟩ := makeConfidenceGraph_defined plen G (Graph.Symmetric.closed hsym)
  obtain ⟨hwfCG, _⟩ := makeConfidenceGraph_wf plen G CG hwf hCG
  have hsingle := makeConfidenceGraph_row_single plen G CG hwf hsym hpos hlen hCG
  refine ⟨CG, hCG, ?_, ?_, hsingle, ?_, ?_⟩
  · intro a b w hab
    exact makeConfidenceGraph_edge_iff plen G CG hwf hsym hpos hlen hCG a b w hab
  · intro a b c hc
    exact edgeWeight_of_makeConfidenceGraph plen G CG hwf hCG hc
  · intro a b c b' c' hc hc'
    obtain ⟨row, hrow⟩ := lookup_of_edgeWeight hc
    have h1 := mem_of_edgeWeight hwfCG hrow hc
    have h2 := mem_of_edgeWeight hwfCG hrow hc'
    have hl := hsingle a row hrow
    match row, hl, h1, h2 with
    | [x], _, h1, h2 =>
      simp only [List.mem_singleton] at h1 h2
      rw [← h1] at h2
      exact (Prod.mk.inj h2).1
  · intro CG' hsame
    have hlook : ∀ a, List.lookup a CG' = List.lookup a CG := by
      intro a
      rcases hsame.2 a with ⟨h1, h2⟩ | ⟨nb', nb, h1, h2, hperm⟩
      · rw [h1, h2]
      · have hl := hsingle a nb h2
        match nb, hl, h2, hperm with
        | [x], _, h2, hperm =>
          rw [h1, h2, List.perm_singleton.1 hperm]
    refine ⟨hlook, ?_⟩
    intro sister a path visited visitSister
    unfold dfs
    rw [hsame.1]
    exact dfsFuel_congr sister CG' CG hlook _ _ _ _ _

/-- C22 on the graph in which node 0 is linked to node 1 (weight 6) and to node
2 (weight 2). -/
theorem makeConfidenceGraph_unique_extension_witness :
    ∃ CG, makeConfidenceGraph unitLength starGraph = some CG ∧
      (∀ a b w, edgeWeight starGraph a b = some w →
        ((edgeWeight CG a b).isSome = true ↔
          ((∀ c w', c ≠ b → edgeWeight starGraph a c = some w' →
              F64.lt (linkDensity unitLength a c w') (linkDensity unitLength a b w) = true) ∧
            (∀ c w', c ≠ a → edgeWeight starGraph b c = some w' →
              F64.lt (linkDensity unitLength b c w') (linkDensity unitLength a b w) = true) ∧
            ((∃ c, c ≠ b ∧ (edgeWeight starGraph a c).isSome = true) ∨
              (∃ c, c ≠ a ∧ (edgeWeight starGraph b c).isSome = true))))) ∧
      (∀ a b c, edgeWeight CG a b = some c → ∃ w, edgeWeight starGraph a b = some w) ∧
      (∀ a row, List.lookup a CG = some row → row.length = 1) ∧
      (∀ a b c b' c', edgeWeight CG a b = some c → edgeWeight CG a b' = some c' → b' = b) ∧
      (∀ CG', Graph.SameMap CG' CG →
        (∀ a, List.lookup a CG' = List.lookup a CG) ∧
        ∀ (sister : Node → Node) (a : Node) (path : List Edge) (visited : List Node)
          (visitSister : Bool),
          dfs sister CG' a path visited visitSister =
            dfs sister CG a path visited visitSister) :=
  makeConfidenceGraph_unique_extension unitLength starGraph
    (by unfold Graph.WF starGraph; decide)
    (by unfold Graph.Symmetric starGraph; with_unfolding_all decide)
    (by unfold Graph.PositiveWeights starGraph; with_unfolding_all decide)
    (fun _ => Int.one_pos)

/-! ### breakCycle on a walk of the path assembler -/

/-- C10 on a graph that reaches `breakCycle` through its caller.  The graph
`sinkGraph` has distinct keys, every edge end is a key, and node 3 has an empty
adjacency map; all weights and lengths are 1.  `makeConfidenceGraph` divides
each density by the second-largest value 0 and stores `+Inf` on the three edges.
From node 0 `dfs` returns the walk `sinkCycle` flagged as a cycle, whose
qualifying edges (weight above 1) are the ones at indices 1 and 3, both `+Inf`.
The loop of `breakCycle` finds neither, because `+Inf < math.MaxFloat64` is
false; `minI` stays 0, and the sister edge at index 0 is discarded: the result
is not the rotation at index 1, the first qualifying edge of smallest weight.
`generatePathAndCycle` prints that result, and for every order in which
`range` yields the keys it prints a walk from which only the leading sister
edge was taken. -/
theorem breakCycle_infinite_weight :
    Graph.WF sinkGraph ∧ Graph.Closed sinkGraph ∧
      makeConfidenceGraph unitLength sinkGraph = some sinkConfidenceGraph ∧
      dfs exampleSister sinkConfidenceGraph 0 [] [] true = some (sinkCycle, true, [2, 3, 1, 0]) ∧
      sinkCycle.map (fun e => F64.gt e.weight (F64.fin 1)) = [false, true, false, true] ∧
      breakCycle sinkCycle = some [⟨1, 3, F64.posInf⟩, ⟨3, 2, F64.fin 0⟩, ⟨2, 3, F64.posInf⟩] ∧
      breakCycle sinkCycle ≠
        some ([⟨3, 2, F64.fin 0⟩, ⟨2, 3, F64.posInf⟩] ++ [⟨0, 1, F64.fin 0⟩]) ∧
      breakCycle [⟨0, 1, F64.fin 0⟩, ⟨1, 3, F64.posInf⟩] = some [⟨1, 3, F64.posInf⟩] ∧
      generatePathAndCycle exampleSister sinkConfidenceGraph =
        some [[⟨1, 3, F64.posInf⟩, ⟨3, 2, F64.fin 0⟩, ⟨2, 3, F64.posInf⟩]] ∧
      (∀ CG ∈ sinkConfidenceGraph.permutations,
        generatePathAndCycle exampleSister CG =
            some [[⟨1, 3, F64.posInf⟩, ⟨3, 2, F64.fin 0⟩, ⟨2, 3, F64.posInf⟩]] ∨
          generatePathAndCycle exampleSister CG =
            some [[⟨0, 3, F64.posInf⟩, ⟨3, 2, F64.fin 0⟩, ⟨2, 3, F64.posInf⟩]] ∨
          generatePathAndCycle exampleSister CG =
            some [[⟨3, 2, F64.fin 0⟩, ⟨2, 3, F64.posInf⟩], [⟨1, 3, F64.posInf⟩]] ∨
          generatePathAndCycle exampleSister CG =
            some [[⟨3, 2, F64.fin 0⟩, ⟨2, 3, F64.posInf⟩], [⟨0, 3, F64.posInf⟩]]) := by
  refine ⟨?_, ?_, ?_, ?_, ?_, ?_, ?_, ?_, ?_, ?_⟩
  · unfold Graph.WF; with_unfolding_all decide
  · unfold Graph.Closed; with_unfolding_all decide
  · with_unfolding_all decide
  · with_unfolding_all decide
  · with_unfolding_all decide
  · with_unfolding_all decide
  · with_unfolding_all decide
  · with_unfolding_all decide
  · with_unfolding_all decide
  · with_unfolding_all decide

end Allhic
